import Mathlib

/-!
# C++RAP (crap.hpp): a shallow embedding of the argument parser

The header `include/crap.hpp` declares three kinds of arguments (`ValueArg`,
`KeyArg`, `KeyValueArg`, all derived from `Arg`), groups of arguments
(`ArgGroup`) and the recursive `Parser`.  The embedding below follows the
member functions one by one.

Conventions of the embedding.

* The C++ objects are mutated in place, also on the path that ends in a
  `throw`.  Every operation therefore returns the new state of the object it
  works on *together with* its outcome, so that the state left behind by a
  failed call can be inspected.
* Arguments and groups are attached by pointer in the source.  The embedding
  takes every argument object to be attached at one place of the declaration
  tree (as in `example/example.cpp`), so the state lives in the tree itself and
  `Parser::parse` returns the updated tree.
* `argv` is a list of strings, `argc` is its length, and `argv + n` is
  `List.drop n`.  `int` counters are natural numbers (they are bounded by
  `argc`).
* The text carried by an exception (`what()`) is not modelled, only the class
  of the exception and, for `UnrecognizedArgException`, its `argNum`.
-/

namespace crap

/-! ## Exceptions and outcomes -/

/-- The exception classes of the header.  `exception` is a plain
`crap::Exception`, thrown directly only for a loose value that starts with the
glue character. -/
inductive Error where
  | exception
  | excessiveCmd
  | argAlreadySet
  | argRequiresValue
  | unrecognizedArg (argNum : Nat)
  | missingArg
  deriving DecidableEq, Repr

/-- The way a call of an `int`-valued member function ends: it returns a count,
it throws, or (only for the fuel-indexed functions of the embedding) the fuel
is used up. -/
inductive Outcome where
  | returned (n : Nat)
  | thrown (e : Error)
  | noFuel
  deriving DecidableEq, Repr

/-- The outcome of a call of a `void` member function such as `markSet`:
`none` for normal completion, `some e` for a thrown exception. -/
def Outcome.ofVoid (r : Option Error) (n : Nat) : Outcome :=
  match r with
  | none => .returned n
  | some e => .thrown e

/-! ## Strings -/

/-- The constant `Parser::GLUE_CHAR`. -/
def GLUE_CHAR : Char := '-'

/-- Character `i` of a string, as read by `s[i]` on a `std::string` or on a
NUL-terminated `char *`: the terminator is read at the end. -/
def charAt (s : String) (i : Nat) : Char := s.data.getD i '\x00'

/-- The position found by `std::string::find_first_of(c)`; `none` stands for
`std::string::npos`. -/
def find_first_of : List Char → Char → Option Nat
  | [], _ => none
  | x :: xs, c => if x = c then some 0 else (find_first_of xs c).map (· + 1)

/-- The string `s.substr(pos)`. -/
def substrFrom (s : String) (pos : Nat) : String := ⟨s.data.drop pos⟩

/-- The string `s.substr(0, n)`. -/
def substrTo (s : String) (n : Nat) : String := ⟨s.data.take n⟩

/-! ## class Arg -/

/-- The data members of `class Arg`. -/
structure Arg where
  m_help : String := ""
  m_required : Bool := false
  m_set : Bool := false
  deriving DecidableEq, Repr

/-- The member `Arg::markSet`: throws `ArgAlreadySetException` when the
argument is set already, sets `m_set` otherwise. -/
def Arg.markSet (a : Arg) : Arg × Option Error :=
  if a.m_set then (a, some .argAlreadySet)
  else ({ a with m_set := true }, none)

/-! ## class ValueArg -/

/-- The data members of `class ValueArg`. -/
structure ValueArg extends Arg where
  m_valueName : String := ""
  m_value : String := ""
  m_defaultValue : String := ""
  deriving DecidableEq, Repr

/-- The member `ValueArg::value`. -/
def ValueArg.value (v : ValueArg) : String :=
  if v.m_value.isEmpty then v.m_defaultValue else v.m_value

/-- The member `ValueArg::setValue`: the value is stored first, then the
argument is marked. -/
def ValueArg.setValue (v : ValueArg) (value : String) : ValueArg × Option Error :=
  match v.toArg.markSet with
  | (a, r) => ({ v with toArg := a, m_value := value }, r)

/-- The member `ValueArg::match`. -/
def ValueArg.match_ (v : ValueArg) (argv : List String) : ValueArg × Outcome :=
  match argv with
  | [] => (v, .returned 0)
  | a0 :: _ =>
    if !v.m_set then
      match v.setValue a0 with
      | (v', r) => (v', Outcome.ofVoid r 1)
    else (v, .returned 0)

/-! ## class KeyArg -/

/-- The data members of `class KeyArg`. -/
structure KeyArg extends Arg where
  m_gluableChar : Char := '\x00'
  m_aliases : List String := []
  deriving DecidableEq, Repr

/-- The member `KeyArg::addAlias`. -/
def KeyArg.addAlias (k : KeyArg) (al : String) : KeyArg :=
  if al.length = 2 ∧ charAt al 0 = GLUE_CHAR then
    { k with m_gluableChar := charAt al 1, m_aliases := k.m_aliases ++ [al] }
  else
    { k with m_aliases := k.m_aliases ++ [al] }

/-- The constructor `KeyArg::KeyArg(name, help)`. -/
def KeyArg.new (name help : String) : KeyArg :=
  KeyArg.addAlias { m_help := help } name

/-- The member `KeyArg::gluableChar`. -/
def KeyArg.gluableChar (k : KeyArg) : Char := k.m_gluableChar

/-- The member `KeyArg::match`: the loop over the aliases marks the argument
and returns 1 at the first alias equal to `argv[0]`. -/
def KeyArg.match_ (k : KeyArg) (argv : List String) : KeyArg × Outcome :=
  match argv with
  | [] => (k, .returned 0)
  | a0 :: _ =>
    if a0 ∈ k.m_aliases then
      match k.toArg.markSet with
      | (a, r) => ({ k with toArg := a }, Outcome.ofVoid r 1)
    else (k, .returned 0)

/-! ## class KeyValueArg -/

/-- The data members of `class KeyValueArg`. -/
structure KeyValueArg extends Arg where
  m_aliases : List String := []
  m_valueName : String := ""
  m_value : String := ""
  m_defaultValue : String := ""
  deriving DecidableEq, Repr

/-- The constructor `KeyValueArg::KeyValueArg(name, valueName, help)`. -/
def KeyValueArg.new (name valueName help : String) : KeyValueArg :=
  { m_help := help, m_aliases := [name], m_valueName := valueName }

/-- The member `KeyValueArg::addAlias`. -/
def KeyValueArg.addAlias (k : KeyValueArg) (al : String) : KeyValueArg :=
  { k with m_aliases := k.m_aliases ++ [al] }

/-- The member `KeyValueArg::value`. -/
def KeyValueArg.value (k : KeyValueArg) : String :=
  if k.m_value.isEmpty then k.m_defaultValue else k.m_value

/-- The member `KeyValueArg::setValue`: the value is stored first, then the
argument is marked. -/
def KeyValueArg.setValue (k : KeyValueArg) (value : String) : KeyValueArg × Option Error :=
  match k.toArg.markSet with
  | (a, r) => ({ k with toArg := a, m_value := value }, r)

/-- The member `KeyValueArg::match`.  `argv[0]` is split at its first `=`; when
the left part equals an alias, the value is the right part (one token) or the
next token (two tokens). -/
def KeyValueArg.match_ (k : KeyValueArg) (argv : List String) : KeyValueArg × Outcome :=
  match argv with
  | [] => (k, .returned 0)
  | a0 :: rest =>
    let assignPos := find_first_of a0.data '='
    let val := match assignPos with
      | some p => substrFrom a0 (p + 1)
      | none => ""
    let arg := match assignPos with
      | some p => substrTo a0 p
      | none => a0
    if arg ∈ k.m_aliases then
      match assignPos with
      | none =>
        match rest with
        | a1 :: _ =>
          if charAt a1 0 = GLUE_CHAR then (k, .thrown .exception)
          else
            match k.setValue a1 with
            | (k', r) => (k', Outcome.ofVoid r 2)
        | [] => (k, .thrown .argRequiresValue)
      | some _ =>
        match k.setValue val with
        | (k', r) => (k', Outcome.ofVoid r 1)
    else (k, .returned 0)

/-! ## Arguments behind an `Arg *` -/

/-- An object of one of the three classes derived from `Arg`, as seen through
an `Arg *` (the discriminator `m_cmd` of a `Parser`). -/
inductive AnyArg where
  | value (a : ValueArg)
  | key (a : KeyArg)
  | keyValue (a : KeyValueArg)
  deriving DecidableEq, Repr

/-- The base-class part of an argument. -/
def AnyArg.toArg : AnyArg → Arg
  | .value a => a.toArg
  | .key a => a.toArg
  | .keyValue a => a.toArg

/-- The member `Arg::isSet`. -/
def AnyArg.isSet (a : AnyArg) : Bool := a.toArg.m_set

/-- The member `Arg::required`. -/
def AnyArg.required (a : AnyArg) : Bool := a.toArg.m_required

/-- The virtual member `Arg::match`. -/
def AnyArg.match_ (a : AnyArg) (argv : List String) : AnyArg × Outcome :=
  match a with
  | .value v => match v.match_ argv with
    | (v', o) => (.value v', o)
  | .key k => match k.match_ argv with
    | (k', o) => (.key k', o)
  | .keyValue k => match k.match_ argv with
    | (k', o) => (.keyValue k', o)

/-! ## class ArgGroup and class Parser -/

/-- The data members of `class ArgGroup`, over the type `P` of the parsers it
owns.  `m_optionSet` points to the discriminator of one of the parsers of the
group; it is kept as the position of that parser in `m_parsers`.  `addr` is
the address of the group object: `Parser::synopsis` and `Parser::description`
use it as the key of their side tables. -/
structure ArgGroupOf (P : Type) where
  m_name : String := ""
  m_optionRequired : Bool := false
  m_optionSet : Option Nat := none
  m_parsers : List P := []
  m_valueAttrs : List ValueArg := []
  m_keyAttrs : List KeyArg := []
  m_keyValueAttrs : List KeyValueArg := []
  addr : Nat := 0

/-- The data members of `class Parser` that take part in parsing: the
discriminator `m_cmd` and the groups `m_argGroups`, whose first entry is the
default group `m_defaultGroup`. -/
inductive Parser where
  | mk (m_cmd : AnyArg) (m_argGroups : List (ArgGroupOf Parser))

/-- The class `ArgGroup`. -/
abbrev ArgGroup := ArgGroupOf Parser

/-- The member `Parser::cmd`. -/
def Parser.cmd : Parser → AnyArg
  | .mk c _ => c

/-- The member `ArgGroup::optionSet`: the discriminator that `m_optionSet`
points to, `none` for the null pointer. -/
def ArgGroupOf.optionSet (g : ArgGroupOf Parser) : Option AnyArg :=
  g.m_optionSet.bind fun i => (g.m_parsers.get? i).map Parser.cmd

/-- The groups of a parser. -/
def Parser.argGroups : Parser → List ArgGroup
  | .mk _ gs => gs

/-- The member `ArgGroup::gluedKeyArgs`. -/
def ArgGroupOf.gluedKeyArgs {P : Type} (g : ArgGroupOf P) (arg : String) : Bool :=
  if charAt arg 0 ≠ GLUE_CHAR then false
  else if arg.length = 1 then false
  else (arg.data.drop 1).all fun c => g.m_keyAttrs.any fun k => decide (c = k.gluableChar)

/-- A loop of `Parser::parse` over the attributes of one kind:
`argAdvance = (*it)->match(...); if (argAdvance) break;`. -/
def matchFirst {α : Type} (m : α → List String → α × Outcome) (argv : List String) :
    List α → List α × Outcome
  | [] => ([], .returned 0)
  | a :: as =>
    match m a argv with
    | (a', .returned 0) =>
      match matchFirst m argv as with
      | (as', o) => (a' :: as', o)
    | (a', o) => (a' :: as, o)

/-- The `catch (UnrecognizedArgException & e)` around the call of a
sub-command's `parse`: `argAdvance = e.argNum()`. -/
def catchUnrecognized : Outcome → Outcome
  | .thrown (.unrecognizedArg n) => .returned n
  | o => o

/-- The loop over the sub-commands of a group (lines 1129-1143).  `sub` is the
recursive call `(*it)->parse`, `i` the position of the first parser of the
list within the group.  An `UnrecognizedArgException` of the sub-command is
caught and its `argNum` taken as the advance. -/
def dispatchParsers (sub : Parser → List String → Parser × Outcome) (argv : List String) :
    Nat → Option Nat → List Parser → List Parser × Option Nat × Outcome
  | _, optionSet, [] => ([], optionSet, .returned 0)
  | i, optionSet, p :: ps =>
    match sub p argv with
    | (p', o) =>
      match catchUnrecognized o with
      | .returned 0 =>
        match dispatchParsers sub argv (i + 1) optionSet ps with
        | (ps', optionSet', o') => (p' :: ps', optionSet', o')
      | .returned argAdvance =>
        if !p'.cmd.required then
          if optionSet.isSome then (p' :: ps, optionSet, .thrown .excessiveCmd)
          else (p' :: ps, some i, .returned argAdvance)
        else (p' :: ps, optionSet, .returned argAdvance)
      | o' => (p' :: ps, optionSet, o')

/-- The inner loop of the glue treatment: the token `-c` is offered to every
key-only argument of the group; the returned counts are dropped. -/
def glueChar (c : Char) : List KeyArg → List KeyArg × Option Error
  | [] => ([], none)
  | k :: ks =>
    match k.match_ [String.mk ['-', c]] with
    | (k', .thrown e) => (k' :: ks, some e)
    | (k', _) =>
      match glueChar c ks with
      | (ks', r) => (k' :: ks', r)

/-- The outer loop of the glue treatment, over the characters of the token
after the first one. -/
def glueChars : List Char → List KeyArg → List KeyArg × Option Error
  | [], ks => (ks, none)
  | c :: cs, ks =>
    match glueChar c ks with
    | (ks', some e) => (ks', some e)
    | (ks', none) => glueChars cs ks'

/-- The steps of the loop body that follow the key-only arguments (lines
1160-1179): the glue treatment when the token qualifies, the value-only
arguments when the token does not start with the glue character. -/
def dispatchGlueValue (argv : List String) (g : ArgGroup) : ArgGroup × Outcome :=
  if g.gluedKeyArgs (argv.headD "") then
    match glueChars ((argv.headD "").data.drop 1) g.m_keyAttrs with
    | (ks, r) => ({ g with m_keyAttrs := ks }, Outcome.ofVoid r 1)
  else if charAt (argv.headD "") 0 ≠ GLUE_CHAR then
    match matchFirst ValueArg.match_ argv g.m_valueAttrs with
    | (vs, o) => ({ g with m_valueAttrs := vs }, o)
  else (g, .returned 0)

/-- The steps of the loop body from the key-value arguments on (lines
1145-1179). -/
def dispatchAttrs (argv : List String) (g : ArgGroup) : ArgGroup × Outcome :=
  match matchFirst KeyValueArg.match_ argv g.m_keyValueAttrs with
  | (kvs, .returned 0) =>
    match matchFirst KeyArg.match_ argv g.m_keyAttrs with
    | (ks, .returned 0) =>
      dispatchGlueValue argv { g with m_keyValueAttrs := kvs, m_keyAttrs := ks }
    | (ks, o) => ({ g with m_keyValueAttrs := kvs, m_keyAttrs := ks }, o)
  | (kvs, o) => ({ g with m_keyValueAttrs := kvs }, o)

/-- The body of the loop over the groups (lines 1126-1179) for one group and
the slice `argv + argNum`: sub-commands, key-value arguments, key-only
arguments, glued key-only arguments, value-only arguments. -/
def dispatchGroup (sub : Parser → List String → Parser × Outcome) (argv : List String)
    (g : ArgGroup) : ArgGroup × Outcome :=
  match dispatchParsers sub argv 0 g.m_optionSet g.m_parsers with
  | (ps, optionSet, .returned 0) =>
    dispatchAttrs argv { g with m_parsers := ps, m_optionSet := optionSet }
  | (ps, optionSet, o) => ({ g with m_parsers := ps, m_optionSet := optionSet }, o)

/-- The loop over the groups of a parser for one token:
`if (argAdvance) break;` after each group. -/
def dispatchGroups (sub : Parser → List String → Parser × Outcome) (argv : List String) :
    List ArgGroup → List ArgGroup × Outcome :=
  matchFirst (fun g av => dispatchGroup sub av g) argv

/-- The four loops of the validation pass under the comment "Check if all
required arguments are set" (lines 1196-1208): `true` when none of them throws
`MissingArgException`. -/
def allRequiredSet (g : ArgGroup) : Bool :=
  g.m_parsers.all (fun p => !(p.cmd.required && !p.cmd.isSet))
  && g.m_keyAttrs.all (fun k => !(k.m_required && !k.m_set))
  && g.m_keyValueAttrs.all (fun k => !(k.m_required && !k.m_set))
  && g.m_valueAttrs.all (fun v => !(v.m_required && !v.m_set))

/-- The checks made on one group by the validation pass (lines 1191-1208):
`true` when no `MissingArgException` is thrown. -/
def validGroup (g : ArgGroup) : Bool :=
  !(g.m_optionRequired && !g.m_optionSet.isSome) && allRequiredSet g

/-- The validation pass of `Parser::parse` (lines 1190-1211) at the token index
`argNum` reached by the loop. -/
def validate (argNum : Nat) (gs : List ArgGroup) : List ArgGroup × Outcome :=
  if gs.all validGroup then (gs, .returned argNum) else (gs, .thrown .missingArg)

/-- The `while (argNum < argc)` loop of `Parser::parse` followed by the
validation pass, started at the token index `argNum` with the groups `gs`.
The fuel bounds the number of iterations. -/
def parseFrom (sub : Parser → List String → Parser × Outcome) (argv : List String) :
    Nat → Nat → List ArgGroup → List ArgGroup × Outcome
  | 0, _, gs => (gs, .noFuel)
  | fuel + 1, argNum, gs =>
    if argNum < argv.length then
      match dispatchGroups sub (argv.drop argNum) gs with
      | (gs', .returned 0) => (gs', .thrown (.unrecognizedArg argNum))
      | (gs', .returned argAdvance) => parseFrom sub argv fuel (argNum + argAdvance) gs'
      | (gs', o) => (gs', o)
    else validate argNum gs

/-- The member `Parser::parse` with a bound `fuel` on the depth of the
recursion into sub-commands. -/
def parseAux : Nat → Parser → List String → Parser × Outcome
  | 0, p, _ => (p, .noFuel)
  | fuel + 1, .mk cmd gs, argv =>
    match cmd.match_ argv with
    | (cmd', .returned 0) => (.mk cmd' gs, .thrown (.unrecognizedArg 0))
    | (cmd', .returned argNum) =>
      match parseFrom (parseAux fuel) argv (argv.length + 1) argNum gs with
      | (gs', o) => (.mk cmd' gs', o)
    | (cmd', o) => (.mk cmd' gs, o)

/-- The member `Parser::parse(argc, argv)`.  A sub-command is parsed on a
strictly shorter slice, so the depth of the recursion is at most `argc`. -/
def Parser.parse (p : Parser) (argv : List String) : Parser × Outcome :=
  parseAux (argv.length + 1) p argv

/-! ## Synopsis and description of the arguments -/

/-- The member `ValueArg::synopsis`. -/
def ValueArg.synopsis (v : ValueArg) : String := "<" ++ v.m_valueName ++ ">"

/-- The member `ValueArg::options`. -/
def ValueArg.options (v : ValueArg) : String :=
  if v.m_required then " <" ++ v.m_valueName ++ "> " else "[ <" ++ v.m_valueName ++ "> ]"

/-- The member `ValueArg::description`. -/
def ValueArg.description (v : ValueArg) : String :=
  v.m_help ++ " Default value: \"" ++ v.m_defaultValue ++ "\"."

/-- The member `KeyArg::name`: the first alias. -/
def KeyArg.name (k : KeyArg) : String := k.m_aliases.headD ""

/-- The member `KeyArg::synopsis`. -/
def KeyArg.synopsis (k : KeyArg) : String := k.name

/-- The loop `for (alias : aliases()) result.append(" ").append(alias)` of the
two `options` members. -/
def appendAliases (result : String) : List String → String
  | [] => result
  | a :: as => appendAliases (result ++ " " ++ a) as

/-- The member `KeyArg::options`. -/
def KeyArg.options (k : KeyArg) : String :=
  let r1 := if !k.m_required then "[" else ""
  let r2 := appendAliases r1 k.m_aliases
  if !k.m_required then r2 ++ " ]" else r2

/-- The member `KeyArg::description`. -/
def KeyArg.description (k : KeyArg) : String := k.m_help

/-- The member `KeyValueArg::name`: the first alias. -/
def KeyValueArg.name (k : KeyValueArg) : String := k.m_aliases.headD ""

/-- The member `KeyValueArg::synopsis`. -/
def KeyValueArg.synopsis (k : KeyValueArg) : String := k.name ++ "=<" ++ k.m_valueName ++ ">"

/-- The member `KeyValueArg::options`. -/
def KeyValueArg.options (k : KeyValueArg) : String :=
  let r1 := if !k.m_required then "[" else ""
  let r2 := appendAliases r1 k.m_aliases ++ " <" ++ k.m_valueName ++ ">"
  if !k.m_required then r2 ++ " ]" else r2

/-- The member `KeyValueArg::description`. -/
def KeyValueArg.description (k : KeyValueArg) : String :=
  k.m_help ++ " Default value: \"" ++ k.m_defaultValue ++ "\"."

/-- The virtual member `Arg::synopsis`. -/
def AnyArg.synopsis : AnyArg → String
  | .value a => a.synopsis
  | .key a => a.synopsis
  | .keyValue a => a.synopsis

/-- The virtual member `Arg::options`. -/
def AnyArg.options : AnyArg → String
  | .value a => a.options
  | .key a => a.options
  | .keyValue a => a.options

/-- The virtual member `Arg::description`. -/
def AnyArg.description : AnyArg → String
  | .value a => a.description
  | .key a => a.description
  | .keyValue a => a.description

/-! ## Synopsis of groups and parsers -/

/-- The side table `std::map<const void *, std::string>` of `Parser::synopsis`
and `Parser::description`: the entries are kept in the order of their keys, as
the iteration over a `std::map` gives them. -/
abbrev Table := List (Nat × String)

/-- The test `table.find(key) != table.end()`. -/
def Table.contains (t : Table) (key : Nat) : Bool := (List.lookup key t).isSome

/-- The assignment `table[key] = val`: the entry is replaced when the key is
present and inserted at its place otherwise. -/
def Table.assign : Table → Nat → String → Table
  | [], key, val => [(key, val)]
  | (k, v) :: rest, key, val =>
    if key < k then (key, val) :: (k, v) :: rest
    else if key = k then (key, val) :: rest
    else (k, v) :: Table.assign rest key val

/-- The statement `s[0] = c` on a `std::string`.  On an empty string the write
falls on the terminator, outside the characters of the string, and the
characters are unchanged. -/
def setFirstChar (s : String) (c : Char) : String :=
  match s.data with
  | [] => s
  | _ :: cs => String.mk (c :: cs)

/-- The loop over the key-only arguments in `ArgGroup::synopsis` (lines
894-909), on the four strings `keyRequiredGluedSynopsis`,
`keyOptionalGluedSynopsis`, `keyRequiredSynopsis`, `keyOptionalSynopsis`. -/
def keyAttrsSynopsis : List KeyArg → String × String × String × String →
    String × String × String × String
  | [], acc => acc
  | k :: ks, (rg, og, r, o) =>
    if k.gluableChar ≠ '\x00' then
      if k.m_required then
        keyAttrsSynopsis ks ((if rg.isEmpty then rg ++ " -" else rg).push k.gluableChar, og, r, o)
      else
        keyAttrsSynopsis ks (rg, (if og.isEmpty then og ++ " [-" else og).push k.gluableChar, r, o)
    else if k.m_required then keyAttrsSynopsis ks (rg, og, r ++ " " ++ k.synopsis, o)
    else keyAttrsSynopsis ks (rg, og, r, o ++ " " ++ k.synopsis)

/-- The loop over the key-value arguments in `ArgGroup::synopsis` (lines
913-918), on `keyValRequiredSynopsis` and `keyValOptionalSynopsis`. -/
def keyValueAttrsSynopsis : List KeyValueArg → String × String → String × String
  | [], acc => acc
  | k :: ks, (r, o) =>
    if k.m_required then keyValueAttrsSynopsis ks (r ++ " " ++ k.synopsis, o)
    else keyValueAttrsSynopsis ks (r, o ++ " [" ++ k.synopsis ++ "]")

/-- The loop over the value-only arguments in `ArgGroup::synopsis` (lines
920-925), on `valRequiredSynopsis` and `valOptionalSynopsis`. -/
def valueAttrsSynopsis : List ValueArg → String × String → String × String
  | [], acc => acc
  | v :: vs, (r, o) =>
    if v.m_required then valueAttrsSynopsis vs (r ++ " " ++ v.synopsis, o)
    else valueAttrsSynopsis vs (r, o ++ " [" ++ v.synopsis ++ "]")

/-- The end of `ArgGroup::synopsis` (lines 887-934) once the two loops over the
sub-commands have produced `subParserRequiredSynopsis` and
`parsersSynopsisString`. -/
def composeSynopsis (optionRequired : Bool) (ks : List KeyArg) (kvs : List KeyValueArg)
    (vs : List ValueArg) (subParserRequiredSynopsis parsersSynopsisString : String) : String :=
  let subParserOptionalSynopsis :=
    if !parsersSynopsisString.isEmpty then
      if optionRequired then " " ++ parsersSynopsisString
      else " [" ++ parsersSynopsisString ++ "]"
    else ""
  match keyAttrsSynopsis ks ("", "", "", "") with
  | (keyRequiredGlued, keyOptionalGlued0, keyRequired, keyOptional) =>
    let keyOptionalGlued :=
      if !keyOptionalGlued0.isEmpty then keyOptionalGlued0 ++ "]" else keyOptionalGlued0
    match keyValueAttrsSynopsis kvs ("", "") with
    | (keyValRequired, keyValOptional) =>
      match valueAttrsSynopsis vs ("", "") with
      | (valRequired, valOptional) =>
        let subParserOptional :=
          if !subParserRequiredSynopsis.isEmpty then setFirstChar subParserOptionalSynopsis '|'
          else subParserOptionalSynopsis
        subParserRequiredSynopsis ++ subParserOptional
          ++ keyRequiredGlued ++ keyOptionalGlued ++ keyRequired ++ keyOptional
          ++ keyValRequired ++ keyValOptional
          ++ valRequired ++ valOptional

mutual

/-- The member `Parser::synopsis`. -/
def Parser.synopsis : Parser → Table → String × Table
  | .mk cmd gs, synopsisLines => synopsisGroups gs cmd.synopsis synopsisLines

/-- The loop of `Parser::synopsis` over `m_argGroups` (lines 1218-1226): an
unnamed group is expanded in place, a named group gives ` (name)` and, when
its address is not in the table yet, an entry of the table. -/
def synopsisGroups : List (ArgGroupOf Parser) → String → Table → String × Table
  | [], result, synopsisLines => (result, synopsisLines)
  | g :: gs, result, synopsisLines =>
    if g.m_name.isEmpty then
      match ArgGroupOf.synopsis g synopsisLines with
      | (s, lines1) => synopsisGroups gs (result ++ s) lines1
    else if synopsisLines.contains g.addr then
      synopsisGroups gs (result ++ " (" ++ g.m_name ++ ")") synopsisLines
    else
      match ArgGroupOf.synopsis g synopsisLines with
      | (s, lines1) =>
        synopsisGroups gs (result ++ " (" ++ g.m_name ++ ")")
          (lines1.assign g.addr ("(" ++ g.m_name ++ ") :=" ++ s))

/-- The member `ArgGroup::synopsis`. -/
def ArgGroupOf.synopsis : ArgGroupOf Parser → Table → String × Table
  | ⟨_, optionRequired, _, ps, vs, ks, kvs, _⟩, synopsisLines =>
    match synopsisRequiredCmds ps "" synopsisLines with
    | (subParserRequiredSynopsis, lines1) =>
      match synopsisOptionalCmds ps "" lines1 with
      | (parsersSynopsisString, lines2) =>
        (composeSynopsis optionRequired ks kvs vs subParserRequiredSynopsis
          parsersSynopsisString, lines2)

/-- The first loop of `ArgGroup::synopsis` (lines 877-879), over the required
sub-commands. -/
def synopsisRequiredCmds : List Parser → String → Table → String × Table
  | [], acc, synopsisLines => (acc, synopsisLines)
  | p :: ps, acc, synopsisLines =>
    if p.cmd.required then
      match Parser.synopsis p synopsisLines with
      | (s, lines1) => synopsisRequiredCmds ps (acc ++ " " ++ s) lines1
    else synopsisRequiredCmds ps acc synopsisLines

/-- The second loop of `ArgGroup::synopsis` (lines 881-886), over the optional
sub-commands: a `|` goes before an entry when the string is not empty. -/
def synopsisOptionalCmds : List Parser → String → Table → String × Table
  | [], acc, synopsisLines => (acc, synopsisLines)
  | p :: ps, acc, synopsisLines =>
    if !p.cmd.required then
      match Parser.synopsis p synopsisLines with
      | (s, lines1) =>
        synopsisOptionalCmds ps ((if !acc.isEmpty then acc.push '|' else acc) ++ s) lines1
    else synopsisOptionalCmds ps acc synopsisLines

end

/-! ## Description of groups and parsers -/

/-- The difference `a - b` of two `std::size_t` values: it wraps around when
`b` is greater than `a`. -/
def sizeSub (a b : Nat) : Nat := if b ≤ a then a - b else a + 2 ^ 64 - b

/-- One of the four loops of `ArgGroup::description` that compute the width
(lines 946-953): `maxWide = std::max(options().length(), maxWide)`. -/
def maxWideOver {α : Type} (options : α → String) : List α → Nat → Nat
  | [], maxWide => maxWide
  | x :: xs, maxWide => maxWideOver options xs (max (options x).length maxWide)

/-- The line appended for one entry (lines 962, 972, 982, 992): the options,
`maxWide - options.length()` spaces, ` - `, the description and a newline. -/
def descriptionLine (maxWide : Nat) (options description : String) : String :=
  options ++ String.mk (List.replicate (sizeSub maxWide options.length) ' ') ++ " - "
    ++ description ++ "\n"

/-- One of the four loops of `ArgGroup::description` that append the lines
(lines 955-993), on `requiredDescription` and `optionalDescription`. -/
def describeOver {α : Type} (options : α → String) (required : α → Bool)
    (description : α → String) (maxWide : Nat) : List α → String × String → String × String
  | [], acc => acc
  | x :: xs, (req, opt) =>
    if required x then
      describeOver options required description maxWide xs
        (req ++ descriptionLine maxWide (options x) (description x), opt)
    else
      describeOver options required description maxWide xs
        (req, opt ++ descriptionLine maxWide (options x) (description x))

/-- The variable `maxWide` of `ArgGroup::description` after the four loops over
the sub-commands, the key-only, the key-value and the value-only arguments. -/
def maxWide (ps : List Parser) (ks : List KeyArg) (kvs : List KeyValueArg)
    (vs : List ValueArg) : Nat :=
  maxWideOver ValueArg.options vs
    (maxWideOver KeyValueArg.options kvs
      (maxWideOver KeyArg.options ks
        (maxWideOver (fun p : Parser => p.cmd.options) ps 0)))

/-- The strings `requiredDescription` and `optionalDescription` of
`ArgGroup::description` after the four loops that append the lines. -/
def descriptionEntries (ps : List Parser) (ks : List KeyArg) (kvs : List KeyValueArg)
    (vs : List ValueArg) : String × String :=
  describeOver ValueArg.options (fun v => v.m_required) ValueArg.description
    (maxWide ps ks kvs vs) vs
    (describeOver KeyValueArg.options (fun k => k.m_required) KeyValueArg.description
      (maxWide ps ks kvs vs) kvs
      (describeOver KeyArg.options (fun k => k.m_required) KeyArg.description
        (maxWide ps ks kvs vs) ks
        (describeOver (fun p : Parser => p.cmd.options) (fun p => p.cmd.required)
          (fun p => p.cmd.description) (maxWide ps ks kvs vs) ps ("", ""))))

mutual

/-- The member `Parser::description`. -/
def Parser.description : Parser → Table → String × Table
  | .mk cmd gs, descriptionParagraphs =>
    match descriptionGroups gs "" descriptionParagraphs with
    | (description, paragraphs1) =>
      (if !description.isEmpty then cmd.synopsis ++ " options:\n" ++ description
        else description, paragraphs1)

/-- The loop of `Parser::description` over `m_argGroups` (lines 1234-1240). -/
def descriptionGroups : List (ArgGroupOf Parser) → String → Table → String × Table
  | [], description, descriptionParagraphs => (description, descriptionParagraphs)
  | g :: gs, description, descriptionParagraphs =>
    if g.m_name.isEmpty then
      match ArgGroupOf.description g descriptionParagraphs with
      | (s, paragraphs1) => descriptionGroups gs (description ++ s) paragraphs1
    else if descriptionParagraphs.contains g.addr then
      descriptionGroups gs description descriptionParagraphs
    else
      match ArgGroupOf.description g descriptionParagraphs with
      | (s, paragraphs1) =>
        descriptionGroups gs description
          (paragraphs1.assign g.addr ("(" ++ g.m_name ++ "):\n" ++ s))

/-- The member `ArgGroup::description`: the lines of the required entries, the
lines of the optional entries, then the descriptions of the sub-commands. -/
def ArgGroupOf.description : ArgGroupOf Parser → Table → String × Table
  | ⟨_, _, _, ps, vs, ks, kvs, _⟩, descriptionParagraphs =>
    descriptionCmds ps
      ((descriptionEntries ps ks kvs vs).1 ++ (descriptionEntries ps ks kvs vs).2)
      descriptionParagraphs

/-- The last loop of `ArgGroup::description` (lines 996-997):
`result += (*it)->description(descriptionParagraphs)`. -/
def descriptionCmds : List Parser → String → Table → String × Table
  | [], result, descriptionParagraphs => (result, descriptionParagraphs)
  | p :: ps, result, descriptionParagraphs =>
    match Parser.description p descriptionParagraphs with
    | (s, paragraphs1) => descriptionCmds ps (result ++ s) paragraphs1

end

/-! ## The declaration of `example/example.cpp` -/

/-- The member `Arg::setRequired`, on a key-only argument. -/
def KeyArg.setRequired (k : KeyArg) (required : Bool) : KeyArg :=
  { k with m_required := required }

/-- The member `Arg::setRequired`, on a key-value argument. -/
def KeyValueArg.setRequired (k : KeyValueArg) (required : Bool) : KeyValueArg :=
  { k with m_required := required }

/-- The member `Arg::setRequired`, on a value-only argument. -/
def ValueArg.setRequired (v : ValueArg) (required : Bool) : ValueArg :=
  { v with m_required := required }

/-- The constructor `ValueArg::ValueArg(valueName, help)`. -/
def ValueArg.new (valueName help : String) : ValueArg :=
  { m_help := help, m_valueName := valueName }

/-- The member `ValueArg::setDefaultValue`. -/
def ValueArg.setDefaultValue (v : ValueArg) (val : String) : ValueArg :=
  { v with m_defaultValue := val }

/-- The member `KeyValueArg::setDefaultValue`. -/
def KeyValueArg.setDefaultValue (k : KeyValueArg) (val : String) : KeyValueArg :=
  { k with m_defaultValue := val }

namespace Example

/-- The argument `programArg` of `main`, built from `argv[0]`. -/
def programArg (argv0 : String) : KeyArg := (KeyArg.new argv0 "").setRequired true

/-- The argument `verboseArg` of `main`. -/
def verboseArg : KeyArg := (KeyArg.new "--verbose" "Print verbose messages.").addAlias "-v"

/-- The argument `pNameArg` of `main`. -/
def pNameArg : KeyValueArg :=
  (KeyValueArg.new "pname" "name" "Pyramid name.").setDefaultValue "Cheops"

/-- The argument `pStonesArg` of `main`. -/
def pStonesArg : KeyValueArg :=
  (KeyValueArg.new "pstones" "number"
    "Specifies <number> of stones used to build a pyramid.").setRequired true

/-- The group `pyramidArgsGroup` of `main`.  The addresses given to the named
groups are arbitrary and distinct. -/
def pyramidArgsGroup : ArgGroup :=
  { m_name := "pyramid_options", m_keyValueAttrs := [pNameArg, pStonesArg], addr := 1 }

/-- The argument `initArg` of `main`. -/
def initArg : KeyArg := KeyArg.new "init" "Initialize pyramid construction site."

/-- The argument `employArg` of `main`. -/
def employArg : KeyValueArg :=
  (KeyValueArg.new "employ" "amount" "Employ <amount> of slaves.").setDefaultValue "1000"

/-- The argument `oldPyramidArg` of `main`. -/
def oldPyramidArg : ValueArg := (ValueArg.new "old_name" "Old pyramid name.").setRequired true

/-- The argument `newPyramidArg` of `main`. -/
def newPyramidArg : ValueArg := (ValueArg.new "new_name" "New pyramid name.").setRequired true

/-- The group `renameArgsGroup` of `main`. -/
def renameArgsGroup : ArgGroup :=
  { m_name := "rename_options", m_valueAttrs := [oldPyramidArg, newPyramidArg], addr := 2 }

/-- The argument `renameArg` of `main`. -/
def renameArg : KeyArg := KeyArg.new "rename" "Rename pyramid"

/-- The argument `buildArg` of `main`. -/
def buildArg : KeyArg := KeyArg.new "build" "Build a pyramid."

/-- The argument `helpArg` of `main`. -/
def helpArg : KeyArg :=
  ((KeyArg.new "help" "Print this information.").addAlias "--help").addAlias "-h"

/-- The sub-commands added to the root parser by `addSubCmd`, in the order of
the calls: `init`, `employ`, `rename`, `build`, `help`. -/
def subCmds : List Parser :=
  [ .mk (.key initArg) [{}, pyramidArgsGroup],
    .mk (.keyValue employArg) [{}],
    .mk (.key renameArg) [{}, renameArgsGroup],
    .mk (.key buildArg) [{}],
    .mk (.key helpArg) [{}] ]

/-- The default group of the root parser: `setOptionRequired(true)`, the
attribute `verboseArg` and the sub-commands. -/
def rootGroup : ArgGroup :=
  { m_optionRequired := true, m_keyAttrs := [verboseArg], m_parsers := subCmds }

/-- The object `parser` of `main` as declared before `parse` is called. -/
def parser (argv0 : String) : Parser :=
  .mk (.key (programArg argv0)) [rootGroup]

/-- The state of `parser "prog"` expected after parsing
`prog init pstones v -v`: `prog`, `init`, `pstones` and `--verbose` are set,
`pstones` holds `v`, and `init` (position 0) is the option recorded by the
root group. -/
def parsed (v : String) : Parser :=
  .mk (.key { programArg "prog" with m_set := true })
    [ { m_optionRequired := true
        m_optionSet := some 0
        m_keyAttrs := [{ verboseArg with m_set := true }]
        m_parsers :=
          [ .mk (.key { initArg with m_set := true })
              [{}, { pyramidArgsGroup with
                      m_keyValueAttrs := [pNameArg, { pStonesArg with m_set := true, m_value := v }] }],
            .mk (.keyValue employArg) [{}],
            .mk (.key renameArg) [{}, renameArgsGroup],
            .mk (.key buildArg) [{}],
            .mk (.key helpArg) [{}] ] } ]

end Example

/-! ## Notions used in the statements -/

/-- The left part of a token split at its first `=` (the whole token when it
holds none): the string that `KeyValueArg::match` compares with the aliases. -/
def keyPart (tok : String) : String :=
  match find_first_of tok.data '=' with
  | some p => substrTo tok p
  | none => tok

/-- An outcome other than a thrown `UnrecognizedArgException`. -/
def Outcome.plain (o : Outcome) : Prop := ∀ n, o ≠ .thrown (.unrecognizedArg n)

/-- The state of a key-only argument after a successful glue treatment of the
characters `cs`: it is set when one of its aliases is `-c` for a `c` of `cs`. -/
def markGlued (cs : List Char) (k : KeyArg) : KeyArg :=
  if ∃ c ∈ cs, String.mk ['-', c] ∈ k.m_aliases then { k with m_set := true } else k

/-- The string that a sub-command puts into a synopsis: what its
`Parser::synopsis` returns (the returned string does not depend on the side
table, see `parser_synopsis_indep`). -/
def Parser.synopsisText (p : Parser) : String := (p.synopsis []).1

/-- Spec: the segment of the required sub-commands, each entry after a blank. -/
def segRequiredCmds (g : ArgGroup) : String :=
  String.join ((g.m_parsers.filter fun p => p.cmd.required).map fun p => " " ++ p.synopsisText)

/-- Spec: the optional sub-commands joined by `|`.  Entries with an empty text
at the front get no bar (the code puts a bar only behind a non-empty string). -/
def optionalCmdsAlternation (g : ArgGroup) : String :=
  String.intercalate "|"
    (((g.m_parsers.filter fun p => !p.cmd.required).map Parser.synopsisText).dropWhile
      String.isEmpty)

/-- Spec: the segment of the optional sub-commands: the alternation after a
blank, in brackets unless the group has `optionRequired`; its first character
is replaced by `|` when the segment of the required sub-commands is not empty. -/
def segOptionalCmds (g : ArgGroup) : String :=
  let seg :=
    if (optionalCmdsAlternation g).isEmpty then ""
    else if g.m_optionRequired then " " ++ optionalCmdsAlternation g
    else " [" ++ optionalCmdsAlternation g ++ "]"
  if (segRequiredCmds g).isEmpty then seg else setFirstChar seg '|'

/-- Spec: the glue chars of the flags of the group that have one and whose
`required` is `required`, in declaration order. -/
def gluedChars (required : Bool) (g : ArgGroup) : List Char :=
  (g.m_keyAttrs.filter fun k =>
    decide (k.gluableChar ≠ '\x00') && (k.m_required == required)).map KeyArg.gluableChar

/-- Spec: the segment of the required glued flags. -/
def segRequiredGlued (g : ArgGroup) : String :=
  if gluedChars true g = [] then "" else " -" ++ String.mk (gluedChars true g)

/-- Spec: the segment of the optional glued flags. -/
def segOptionalGlued (g : ArgGroup) : String :=
  if gluedChars false g = [] then "" else " [-" ++ String.mk (gluedChars false g) ++ "]"

/-- Spec: the segment of the flags without glue char whose `required` is
`required`. -/
def segKeys (required : Bool) (g : ArgGroup) : String :=
  String.join ((g.m_keyAttrs.filter fun k =>
    decide (k.gluableChar = '\x00') && (k.m_required == required)).map fun k =>
      " " ++ k.synopsis)

/-- Spec: the segment of the required key-value arguments. -/
def segRequiredKeyValues (g : ArgGroup) : String :=
  String.join ((g.m_keyValueAttrs.filter fun k => k.m_required).map fun k => " " ++ k.synopsis)

/-- Spec: the segment of the optional key-value arguments. -/
def segOptionalKeyValues (g : ArgGroup) : String :=
  String.join ((g.m_keyValueAttrs.filter fun k => !k.m_required).map fun k =>
    " [" ++ k.synopsis ++ "]")

/-- Spec: the segment of the required positionals. -/
def segRequiredValues (g : ArgGroup) : String :=
  String.join ((g.m_valueAttrs.filter fun v => v.m_required).map fun v => " " ++ v.synopsis)

/-- Spec: the segment of the optional positionals. -/
def segOptionalValues (g : ArgGroup) : String :=
  String.join ((g.m_valueAttrs.filter fun v => !v.m_required).map fun v =>
    " [" ++ v.synopsis ++ "]")

/-- Spec: the entries described by a group, each with its `options()`, its
`required()` and its `description()`: the discriminators of the sub-commands,
the flags, the key-value arguments and the positionals, in declaration order. -/
def descriptionEntryList (g : ArgGroup) : List (String × Bool × String) :=
  (g.m_parsers.map fun p => (p.cmd.options, p.cmd.required, p.cmd.description))
  ++ (g.m_keyAttrs.map fun k => (k.options, k.m_required, k.description))
  ++ (g.m_keyValueAttrs.map fun k => (k.options, k.m_required, k.description))
  ++ (g.m_valueAttrs.map fun v => (v.options, v.m_required, v.description))

/-- Spec: the line of an entry in a column of width `w`. -/
def alignedLine (w : Nat) (e : String × Bool × String) : String :=
  e.1 ++ String.mk (List.replicate (w - e.1.length) ' ') ++ " - " ++ e.2.2 ++ "\n"

/-- The string `acc` of glued flags after the glue chars `cs` have been added
by the loop of `ArgGroup::synopsis`: the opening `pre` is put in front of the
first character when `acc` is empty. -/
def gluedAppend (pre acc : String) (cs : List Char) : String :=
  if cs = [] then acc else (if acc.isEmpty then acc ++ pre else acc) ++ String.mk cs

/-- The string `parsersSynopsisString` after the texts `ss` have been added by
the second loop of `ArgGroup::synopsis`. -/
def barFold : String → List String → String
  | acc, [] => acc
  | acc, s :: ss => barFold ((if !acc.isEmpty then acc.push '|' else acc) ++ s) ss

/-- The loop of `Parser::parse`, started at the token index `n` with the groups
`gs`, reaches the index `m` with the groups `gsm`: every iteration on the way
consumed at least one token, and the index moved by what was consumed. -/
inductive LoopReaches (sub : Parser → List String → Parser × Outcome) (argv : List String) :
    Nat → List ArgGroup → Nat → List ArgGroup → Prop where
  | here (n : Nat) (gs : List ArgGroup) : LoopReaches sub argv n gs n gs
  | step (n : Nat) (gs : List ArgGroup) (adv : Nat) (gs1 : List ArgGroup) (m : Nat)
      (gsm : List ArgGroup) (hlt : n < argv.length)
      (hd : dispatchGroups sub (argv.drop n) gs = (gs1, .returned (adv + 1)))
      (hr : LoopReaches sub argv (n + (adv + 1)) gs1 m gsm) : LoopReaches sub argv n gs m gsm

/-- A flag as the declarations build it: the constructor `KeyArg(name, help)`
followed by the calls `addAlias(al)` for the strings `als`, in order. -/
def KeyArg.build (name help : String) (als : List String) : KeyArg :=
  als.foldl KeyArg.addAlias (KeyArg.new name help)

/-- The test `gluableChar() != '\0'` that `ArgGroup::synopsis` makes on a flag
(line 895): the flag has a glue char. -/
def KeyArg.hasGlueChar (k : KeyArg) : Bool := decide (k.gluableChar ≠ '\x00')

/-- The test made by `KeyArg::addAlias` on an alias: it is the glue character
followed by exactly one character. -/
def gluableAlias (al : String) : Bool := decide (al.length = 2 ∧ charAt al 0 = GLUE_CHAR)

/-- Spec: the glue char fixed by a list of aliases: the second character of the
last alias that is the glue character followed by one character, NUL (no glue
char) when there is none. -/
def glueCharOf (aliases : List String) : Char :=
  match (aliases.filter gluableAlias).getLast? with
  | some al => charAt al 1
  | none => '\x00'

/-- The value that `KeyValueArg::match` hands to `setValue` for the tokens
`argv`: the part of `argv[0]` after its first `=`, or `argv[1]` when `argv[0]`
holds no `=`. -/
def carriedValue (argv : List String) : String :=
  match argv with
  | [] => ""
  | a0 :: rest =>
    match find_first_of a0.data '=' with
    | some p => substrFrom a0 (p + 1)
    | none => rest.headD ""

/-- The string `subParserOptionalSynopsis` of `ArgGroup::synopsis` after lines
887-892, from `parsersSynopsisString`. -/
def optionalCmdsSegment (optionRequired : Bool) (parsersSynopsisString : String) : String :=
  if !parsersSynopsisString.isEmpty then
    if optionRequired then " " ++ parsersSynopsisString
    else " [" ++ parsersSynopsisString ++ "]"
  else ""

/-- The strings `subParserRequiredSynopsis` and `subParserOptionalSynopsis` of
`ArgGroup::synopsis` on the group `g` when line 928 is reached, the table being
`synopsisLines` at the call. -/
def ArgGroupOf.separatorOperands (g : ArgGroup) (synopsisLines : Table) : String × String :=
  ((synopsisRequiredCmds g.m_parsers "" synopsisLines).1,
    optionalCmdsSegment g.m_optionRequired
      (synopsisOptionalCmds g.m_parsers ""
        (synopsisRequiredCmds g.m_parsers "" synopsisLines).2).1)

/-- The statement `subParserOptionalSynopsis[0] = '|'` of line 929 is executed
on the group `g` and writes outside the characters of the string: the string
of the required sub-commands is not empty and the string written to is empty. -/
def ArgGroupOf.separatorWriteOutOfBounds (g : ArgGroup) (synopsisLines : Table) : Bool :=
  !(g.separatorOperands synopsisLines).1.isEmpty
    && decide ((g.separatorOperands synopsisLines).2.length ≤ 0)

/-- The bound that the proofs about the index need on the recursive call: what
a sub-command returns, or the index of the `UnrecognizedArgException` that is
caught, is at most the length of its slice. -/
def SubBounded (sub : Parser → List String → Parser × Outcome) (argv : List String) : Prop :=
  ∀ (k : Nat) (p : Parser) (n : Nat),
    catchUnrecognized (sub p (argv.drop k)).2 = .returned n → n ≤ (argv.drop k).length

/-- The state of the group `g` after its sub-command at position `ps.length`
has consumed tokens and ended in the state `b'`: the sub-command is kept as it
is left, and it is recorded as the option of the group when it is optional. -/
def withChild (g : ArgGroup) (ps qs : List Parser) (b' : Parser) : ArgGroup :=
  { g with
    m_parsers := ps ++ b' :: qs
    m_optionSet := if b'.cmd.required then g.m_optionSet else some ps.length }

mutual

/-- The named groups met by a traversal of the command `p`: those of its
groups, in the order of the declaration. -/
def Parser.namedGroups : Parser → List (ArgGroupOf Parser)
  | .mk _ gs => namedGroupsOfGroups gs

/-- The named groups met in a list of groups: every group that has a name,
and the named groups below each group. -/
def namedGroupsOfGroups : List (ArgGroupOf Parser) → List (ArgGroupOf Parser)
  | [] => []
  | g :: gs =>
    (if g.m_name.isEmpty then [] else [g]) ++ (ArgGroupOf.namedGroups g ++ namedGroupsOfGroups gs)

/-- The named groups below a group: those of its sub-commands. -/
def ArgGroupOf.namedGroups : ArgGroupOf Parser → List (ArgGroupOf Parser)
  | ⟨_, _, _, ps, _, _, _, _⟩ => namedGroupsOfCmds ps

/-- The named groups met in a list of sub-commands. -/
def namedGroupsOfCmds : List Parser → List (ArgGroupOf Parser)
  | [] => []
  | p :: ps => Parser.namedGroups p ++ namedGroupsOfCmds ps

end

/-- The string that `ArgGroup::synopsis` returns for a group (it does not
depend on the side table, see `group_synopsis_indep`). -/
def ArgGroupOf.synopsisText (g : ArgGroup) : String := (ArgGroupOf.synopsis g []).1

/-- Spec: the entry of the side table for a named group: `(name) :=` followed
by the synopsis of the group. -/
def ArgGroupOf.synopsisEntry (g : ArgGroup) : String :=
  "(" ++ g.m_name ++ ") :=" ++ g.synopsisText

/-- Spec: what a group adds to the main line of the synopsis of its command:
its own synopsis when it has no name, the reference ` (name)` when it has. -/
def ArgGroupOf.mainLinePart (g : ArgGroup) : String :=
  if g.m_name.isEmpty then g.synopsisText else " (" ++ g.m_name ++ ")"

/-- The keys of a side table, in the order of the table. -/
def Table.keys (t : Table) : List Nat := t.map Prod.fst

/-- The state of the side table during a traversal of a declaration whose
named groups are `U`: the keys are in increasing order (one entry per key),
every entry is the entry of a group of `U` under the address of that group,
and with the address of a group the table holds the addresses of the named
groups below that group. -/
def TableInv (U : List ArgGroup) (t : Table) : Prop :=
  t.keys.Pairwise (· < ·)
  ∧ (∀ kv ∈ t, ∃ g ∈ U, kv.1 = g.addr ∧ kv.2 = g.synopsisEntry)
  ∧ (∀ h ∈ U, h.addr ∈ t.keys → ∀ g ∈ h.namedGroups, g.addr ∈ t.keys)

/-- Group objects are told apart by their addresses: two named groups of `U`
with the same address are the same group.  A group attached to several
commands appears in `U` once per command, each time with its address. -/
def AddressesIdentify (U : List ArgGroup) : Prop :=
  ∀ g1 ∈ U, ∀ g2 ∈ U, g1.addr = g2.addr → g1 = g2

/-- The option recorded by a group agrees with the state of its sub-commands:
a recorded option is an optional sub-command of the group whose discriminator
is set (it has been matched), and when no option is recorded no optional
sub-command of the group has its discriminator set.  It holds of a group as
declared (nothing recorded, nothing set). -/
def OptionConsistent (g : ArgGroup) : Prop :=
  (∀ i, g.m_optionSet = some i →
    ∃ p, g.m_parsers.get? i = some p ∧ p.cmd.required = false ∧ p.cmd.isSet = true)
  ∧ (g.m_optionSet = none → ∀ p ∈ g.m_parsers, p.cmd.required = false → p.cmd.isSet = false)

/-! ## Small declarations used as inputs -/

namespace Inputs

/-- A sub-command without arguments whose discriminator is the optional flag
`name`. -/
def flagCmd (name : String) : Parser := .mk (.key (KeyArg.new name "")) [{}]

/-- A root command `root` whose default group holds the optional
sub-commands `A` and `B`. -/
def twoOptions : Parser :=
  .mk (.key (KeyArg.new "root" "")) [{ m_parsers := [flagCmd "A", flagCmd "B"] }]

/-- The default group of `twoOptions` after the token `A` has been consumed:
`A` is set and recorded as the option of the group. -/
def twoOptionsAfterA : ArgGroup :=
  { m_optionSet := some 0
    m_parsers := [.mk (.key { KeyArg.new "A" "" with m_set := true }) [{}], flagCmd "B"] }

/-- A group with the flags `-v` and `-x`. -/
def flagsVX : ArgGroup := { m_keyAttrs := [KeyArg.new "-v" "", KeyArg.new "-x" ""] }

/-- A group with a flag that has the two short aliases `-v` and `-x` (its glue
char is `x`) and a flag `--verbose` with the alias `-v`. -/
def twoShortAliases : ArgGroup :=
  { m_keyAttrs := [(KeyArg.new "-v" "").addAlias "-x", (KeyArg.new "--verbose" "").addAlias "-v"] }

/-- A group with the flags `-k` and `-=` and a key-value argument `-k`. -/
def flagsAndKeyValue : ArgGroup :=
  { m_keyAttrs := [KeyArg.new "-k" "", KeyArg.new "-=" ""]
    m_keyValueAttrs := [KeyValueArg.new "-k" "n" ""] }

/-- A group in which the key-value argument and the flag have the same alias
`a=b`, an alias that holds a `=`. -/
def sameAliasWithAssign : ArgGroup :=
  { m_keyAttrs := [KeyArg.new "a=b" ""], m_keyValueAttrs := [KeyValueArg.new "a=b" "n" ""] }

/-- A group in which the key-value argument and the flag have the same alias
`--opt`. -/
def sameAlias : ArgGroup :=
  { m_keyAttrs := [KeyArg.new "--opt" ""], m_keyValueAttrs := [KeyValueArg.new "--opt" "n" ""] }

/-- A group whose only sub-command is the required command `run`. -/
def requiredOnly : ArgGroup :=
  { m_parsers := [.mk (.key ((KeyArg.new "run" "").setRequired true)) [{}]] }

/-- A named group `opts`, at the address 7, with the flag `-q`. -/
def sharedOptions : ArgGroup :=
  { m_name := "opts", m_keyAttrs := [KeyArg.new "-q" ""], addr := 7 }

/-- A root command `prog` with the optional sub-commands `a` and `b`; the
group `sharedOptions` is attached to both. -/
def twoCmdsSharing : Parser :=
  .mk (.key (KeyArg.new "prog" ""))
    [{ m_parsers := [.mk (.key (KeyArg.new "a" "")) [{}, sharedOptions],
        .mk (.key (KeyArg.new "b" "")) [{}, sharedOptions]] }]

end Inputs

/-! ## Evaluation of the example declaration -/

section ExampleFacts
open Example

theorem programArg_prog : programArg "prog" =
    { m_required := true, m_aliases := ["prog"] } := by decide

theorem verboseArg_eq : verboseArg =
    { m_help := "Print verbose messages.", m_gluableChar := 'v',
      m_aliases := ["--verbose", "-v"] } := by decide

theorem initArg_eq : initArg =
    { m_help := "Initialize pyramid construction site.", m_aliases := ["init"] } := by decide

theorem renameArg_eq : renameArg = { m_help := "Rename pyramid", m_aliases := ["rename"] } := by
  decide

theorem buildArg_eq : buildArg = { m_help := "Build a pyramid.", m_aliases := ["build"] } := by
  decide

theorem helpArg_eq : helpArg =
    { m_help := "Print this information.", m_gluableChar := 'h',
      m_aliases := ["help", "--help", "-h"] } := by decide

end ExampleFacts

/-! ## The end-to-end scenario -/

section Scenario
open Example

/-- C1.  On the declaration of `example.cpp` with program name `prog`, parsing
`prog init pstones v -v`, for every value `v` that does not begin with the glue
character, returns 5 and leaves the tree in the state `parsed v`: `init` is the
option recorded by the root group, `pstones` is set and holds `v`, the verbose
flag is set, `build` is unset. -/
theorem example_init_scenario (v : String) (hv : charAt v 0 ≠ GLUE_CHAR) :
    Parser.parse (parser "prog") ["prog", "init", "pstones", v, "-v"] = (parsed v, .returned 5)
    ∧ (parsed v).argGroups.map ArgGroupOf.optionSet = [some (.key { initArg with m_set := true })]
    ∧ (parsed v).argGroups.map (fun g => g.m_parsers.map fun p =>
          p.argGroups.map fun h => h.m_keyValueAttrs.map fun k => (k.m_aliases, k.m_set, k.m_value))
        = [[[[], [(["pname"], false, ""), (["pstones"], true, v)]], [[]], [[], []], [[]], [[]]]]
    ∧ (parsed v).argGroups.map (fun g => g.m_keyAttrs.map fun k => (k.m_aliases, k.m_set))
        = [[(["--verbose", "-v"], true)]]
    ∧ (parsed v).argGroups.map (fun g => g.m_parsers.map fun p => (p.cmd == .key buildArg, p.cmd.isSet))
        = [[(false, true), (false, false), (false, false), (true, false), (false, false)]] := by
  have hv2 : ¬ (v.data[0]?.getD '\x00' = '-') := by simpa [charAt, GLUE_CHAR] using hv
  refine ⟨?_, ?_, ?_, ?_, ?_⟩
  · simp [Parser.parse, parseAux, parseFrom, dispatchGroups, dispatchGroup, dispatchParsers,
      matchFirst, parser, parsed, rootGroup, subCmds, AnyArg.match_, KeyArg.match_, KeyValueArg.match_,
      ValueArg.match_, programArg_prog, verboseArg_eq, initArg_eq, renameArg_eq, buildArg_eq,
      helpArg_eq, Arg.markSet, Outcome.ofVoid, employArg, pyramidArgsGroup, renameArgsGroup,
      pNameArg, pStonesArg, oldPyramidArg, newPyramidArg, KeyValueArg.new,
      KeyValueArg.setDefaultValue, KeyValueArg.setRequired, ValueArg.new, ValueArg.setRequired,
      find_first_of, charAt, GLUE_CHAR, ArgGroupOf.gluedKeyArgs, glueChars, glueChar, validGroup, allRequiredSet,
      KeyValueArg.setValue, substrFrom, substrTo, Parser.cmd, AnyArg.required, AnyArg.toArg,
      AnyArg.isSet, hv2, dispatchAttrs, dispatchGlueValue, validate, catchUnrecognized]
  · rfl
  · rfl
  · rfl
  · rfl

/-- C1, at the value `500` of the specification. -/
theorem example_init_scenario_witness :
    charAt "500" 0 ≠ GLUE_CHAR
    ∧ Parser.parse (parser "prog") ["prog", "init", "pstones", "500", "-v"]
        = (parsed "500", .returned 5) :=
  ⟨by decide, (example_init_scenario "500" (by decide)).1⟩

end Scenario

/-! ## Key-value arguments -/

theorem find_first_of_eq_none (l : List Char) (c : Char) :
    find_first_of l c = none ↔ c ∉ l := by
  induction l with
  | nil => simp [find_first_of]
  | cons x xs ih =>
    by_cases h : x = c
    · simp [find_first_of, h]
    · have h2 : ¬ c = x := fun e => h e.symm
      simp [find_first_of, h, h2, ih]

theorem find_first_of_append (l r : List Char) (c : Char) (h : c ∉ l) :
    find_first_of (l ++ c :: r) c = some l.length := by
  induction l with
  | nil => simp [find_first_of]
  | cons x xs ih =>
    have hx : ¬ x = c := fun e => h (by simp [e])
    have hxs : c ∉ xs := fun e => h (by simp [e])
    simp [find_first_of, hx, ih hxs]

theorem keyValueArg_setValue_unset (k : KeyValueArg) (v : String) (h : k.m_set = false) :
    k.setValue v = ({ k with m_set := true, m_value := v }, none) := by
  simp [KeyValueArg.setValue, Arg.markSet, h]

theorem keyValueArg_setValue_snd_ne (k : KeyValueArg) (v : String) (n : Nat) :
    Outcome.ofVoid (k.setValue v).2 n ≠ .thrown .argRequiresValue := by
  cases h : k.m_set <;> simp [KeyValueArg.setValue, Arg.markSet, h, Outcome.ofVoid]

/-- C6.  For an unset key-value argument `k`, an alias `a` of `k` without `=`
and a value `v` that does not begin with the glue character, matching the one
token `a=v` and matching the two tokens `a`, `v` both succeed and leave `k` in
the same state (set, holding `v`); the counts are 1 and 2.  Further tokens
`rest` may follow. -/
theorem keyValue_equivalence (k : KeyValueArg) (a v : String) (rest : List String)
    (hunset : k.m_set = false) (ha : a ∈ k.m_aliases) (hnoeq : '=' ∉ a.data)
    (hv : charAt v 0 ≠ GLUE_CHAR) :
    k.match_ ((a ++ "=" ++ v) :: rest) = ({ k with m_set := true, m_value := v }, .returned 1)
    ∧ k.match_ (a :: v :: rest) = ({ k with m_set := true, m_value := v }, .returned 2) := by
  constructor
  · have hpos : find_first_of (a.data ++ '=' :: v.data) '=' = some a.length :=
      find_first_of_append a.data v.data '=' hnoeq
    have harg : substrTo (a ++ "=" ++ v) a.length = a := by
      show (⟨(a ++ "=" ++ v).data.take a.data.length⟩ : String) = a
      simp [String.data_append]
    have hval : substrFrom (a ++ "=" ++ v) (a.length + 1) = v := by
      have hd : (a ++ "=" ++ v).data = a.data ++ '=' :: v.data := by
        simp [String.data_append]
      show (⟨(a ++ "=" ++ v).data.drop (a.data.length + 1)⟩ : String) = v
      simp [hd, List.drop_append_eq_append_drop, List.drop_eq_nil_of_le]
    simp [KeyValueArg.match_, hpos, harg, hval, ha, keyValueArg_setValue_unset k v hunset,
      Outcome.ofVoid]
  · have hpos : find_first_of a.data '=' = none := (find_first_of_eq_none _ _).2 hnoeq
    simp [KeyValueArg.match_, hpos, ha, hv, keyValueArg_setValue_unset k v hunset, Outcome.ofVoid]

/-- C6, for `--opt=5` against `--opt 5`. -/
theorem keyValue_equivalence_witness :
    (KeyValueArg.new "--opt" "n" "").match_ ["--opt=5"]
      = ({ KeyValueArg.new "--opt" "n" "" with m_set := true, m_value := "5" }, .returned 1)
    ∧ (KeyValueArg.new "--opt" "n" "").match_ ["--opt", "5"]
      = ({ KeyValueArg.new "--opt" "n" "" with m_set := true, m_value := "5" }, .returned 2) :=
  keyValue_equivalence (KeyValueArg.new "--opt" "n" "") "--opt" "5" [] (by decide) (by decide)
    (by decide) (by decide)

/-- C7.  When the current token equals an alias of the key-value argument `k`
(so it holds no `=`) and the next token begins with the glue character, the
match throws the plain `Exception` about a loose value and `k` is left as it
was. -/
theorem keyValue_glue_value_rejected (k : KeyValueArg) (a next : String) (rest : List String)
    (ha : a ∈ k.m_aliases) (hnoeq : '=' ∉ a.data) (hnext : charAt next 0 = GLUE_CHAR) :
    k.match_ (a :: next :: rest) = (k, .thrown .exception) := by
  have hpos : find_first_of a.data '=' = none := (find_first_of_eq_none _ _).2 hnoeq
  simp [KeyValueArg.match_, hpos, ha, hnext]

/-- C7, for `--opt -v` on an argument that is set already: it keeps its value. -/
theorem keyValue_glue_value_rejected_witness :
    ({ KeyValueArg.new "--opt" "n" "" with m_set := true, m_value := "1" }).match_ ["--opt", "-v"]
      = ({ KeyValueArg.new "--opt" "n" "" with m_set := true, m_value := "1" }, .thrown .exception) :=
  keyValue_glue_value_rejected _ "--opt" "-v" [] (by decide) (by decide) (by decide)

/-- C8.  `KeyValueArg::match` throws `ArgRequiresValueException` exactly when
the current token holds no `=`, equals one of the aliases and is the last token
of the slice; the argument is then left as it was. -/
theorem keyValue_requires_value (k : KeyValueArg) (tok : String) (rest : List String) :
    ((k.match_ (tok :: rest)).2 = .thrown .argRequiresValue
      ↔ '=' ∉ tok.data ∧ tok ∈ k.m_aliases ∧ rest = [])
    ∧ ((k.match_ (tok :: rest)).2 = .thrown .argRequiresValue → (k.match_ (tok :: rest)).1 = k) := by
  cases hpos : find_first_of tok.data '=' with
  | some p =>
    have hin : ¬ '=' ∉ tok.data := by
      rw [← find_first_of_eq_none, hpos]; simp
    have hne := keyValueArg_setValue_snd_ne k (substrFrom tok (p + 1)) 1
    by_cases ha : substrTo tok p ∈ k.m_aliases
    · simp [KeyValueArg.match_, hpos, ha, hin, hne]
    · simp [KeyValueArg.match_, hpos, ha, hin]
  | none =>
    have hin : '=' ∉ tok.data := (find_first_of_eq_none _ _).1 hpos
    by_cases ha : tok ∈ k.m_aliases
    · cases rest with
      | nil => simp [KeyValueArg.match_, hpos, ha, hin]
      | cons a1 rest1 =>
        have hne := keyValueArg_setValue_snd_ne k a1 2
        by_cases hg : charAt a1 0 = GLUE_CHAR
        · simp [KeyValueArg.match_, hpos, ha, hin, hg]
        · simp [KeyValueArg.match_, hpos, ha, hin, hg, hne]
    · simp [KeyValueArg.match_, hpos, ha, hin]

/-- C8, for the lone token `--opt`. -/
theorem keyValue_requires_value_witness :
    ((KeyValueArg.new "--opt" "n" "").match_ ["--opt"]).2 = .thrown .argRequiresValue
    ∧ ((KeyValueArg.new "--opt" "n" "").match_ ["--opt"]).1 = KeyValueArg.new "--opt" "n" "" :=
  ⟨((keyValue_requires_value (KeyValueArg.new "--opt" "n" "") "--opt" []).1).2
      ⟨by decide, by decide, rfl⟩,
    (keyValue_requires_value (KeyValueArg.new "--opt" "n" "") "--opt" []).2
      (((keyValue_requires_value (KeyValueArg.new "--opt" "n" "") "--opt" []).1).2
        ⟨by decide, by decide, rfl⟩)⟩

/-! ## Arguments that do not match -/

theorem keyArg_match_of_not_mem (k : KeyArg) (t : String) (rest : List String)
    (h : t ∉ k.m_aliases) : k.match_ (t :: rest) = (k, .returned 0) := by
  simp [KeyArg.match_, h]

theorem keyArg_match_of_mem_unset (k : KeyArg) (t : String) (rest : List String)
    (h : t ∈ k.m_aliases) (hs : k.m_set = false) :
    k.match_ (t :: rest) = ({ k with m_set := true }, .returned 1) := by
  simp [KeyArg.match_, h, Arg.markSet, hs, Outcome.ofVoid]

theorem keyValueArg_match_of_not_mem (k : KeyValueArg) (t : String) (rest : List String)
    (h : keyPart t ∉ k.m_aliases) : k.match_ (t :: rest) = (k, .returned 0) := by
  unfold keyPart at h
  cases hp : find_first_of t.data '=' with
  | none => rw [hp] at h; simp [KeyValueArg.match_, hp, h]
  | some p => rw [hp] at h; simp [KeyValueArg.match_, hp, h]

theorem ofVoid_succ_ne (r : Option Error) (n : Nat) :
    Outcome.ofVoid r (n + 1) ≠ .returned 0 := by
  cases r <;> simp [Outcome.ofVoid]

theorem keyArg_match_zero (k : KeyArg) (argv : List String)
    (h : (k.match_ argv).2 = .returned 0) : (k.match_ argv).1 = k := by
  cases argv with
  | nil => rfl
  | cons t rest =>
    by_cases ht : t ∈ k.m_aliases
    · have := ofVoid_succ_ne k.toArg.markSet.2 0
      simp [KeyArg.match_, ht] at h
      exact absurd h this
    · simp [KeyArg.match_, ht]

theorem valueArg_match_zero (v : ValueArg) (argv : List String)
    (h : (v.match_ argv).2 = .returned 0) : (v.match_ argv).1 = v := by
  cases argv with
  | nil => rfl
  | cons t rest =>
    cases hs : v.m_set with
    | true => simp [ValueArg.match_, hs]
    | false =>
      have := ofVoid_succ_ne (v.setValue t).2 0
      simp [ValueArg.match_, hs] at h
      exact absurd h this

theorem keyValueArg_match_zero (k : KeyValueArg) (argv : List String)
    (h : (k.match_ argv).2 = .returned 0) : (k.match_ argv).1 = k := by
  cases argv with
  | nil => rfl
  | cons t rest =>
    by_cases hk : keyPart t ∈ k.m_aliases
    · exfalso
      unfold keyPart at hk
      cases hp : find_first_of t.data '=' with
      | some p =>
        rw [hp] at hk
        have := ofVoid_succ_ne (k.setValue (substrFrom t (p + 1))).2 0
        simp [KeyValueArg.match_, hp, hk] at h
        exact this h
      | none =>
        rw [hp] at hk
        cases rest with
        | nil => simp [KeyValueArg.match_, hp, hk] at h
        | cons a1 rest1 =>
          have := ofVoid_succ_ne (k.setValue a1).2 1
          by_cases hg : charAt a1 0 = GLUE_CHAR
          · simp [KeyValueArg.match_, hp, hk, hg] at h
          · simp [KeyValueArg.match_, hp, hk, hg] at h
            exact this h
    · rw [keyValueArg_match_of_not_mem k t rest hk]

theorem anyArg_match_zero (a : AnyArg) (argv : List String)
    (h : (a.match_ argv).2 = .returned 0) : (a.match_ argv).1 = a := by
  cases a with
  | value v =>
    have := valueArg_match_zero v argv
    simp only [AnyArg.match_] at h ⊢
    rw [this h]
  | key k =>
    have := keyArg_match_zero k argv
    simp only [AnyArg.match_] at h ⊢
    rw [this h]
  | keyValue k =>
    have := keyValueArg_match_zero k argv
    simp only [AnyArg.match_] at h ⊢
    rw [this h]

/-! ## The loops over attributes and sub-commands -/

theorem matchFirst_all_zero {α : Type} (m : α → List String → α × Outcome) (argv : List String)
    (xs : List α) (h : ∀ x ∈ xs, m x argv = (x, .returned 0)) :
    matchFirst m argv xs = (xs, .returned 0) := by
  induction xs with
  | nil => rfl
  | cons x xs ih =>
    have hx := h x (by simp)
    have hxs := ih (fun y hy => h y (by simp [hy]))
    simp [matchFirst, hx, hxs]

theorem matchFirst_cons_stop {α : Type} (m : α → List String → α × Outcome) (argv : List String)
    (x x' : α) (xs : List α) (o : Outcome) (h : m x argv = (x', o)) (ho : o ≠ .returned 0) :
    matchFirst m argv (x :: xs) = (x' :: xs, o) := by
  cases o with
  | returned n =>
    cases n with
    | zero => exact absurd rfl ho
    | succ n => simp [matchFirst, h]
  | thrown e => simp [matchFirst, h]
  | noFuel => simp [matchFirst, h]

theorem matchFirst_append_zero {α : Type} (m : α → List String → α × Outcome)
    (argv : List String) (xs xs' ys : List α) (h : matchFirst m argv xs = (xs', .returned 0)) :
    matchFirst m argv (xs ++ ys) = (xs' ++ (matchFirst m argv ys).1, (matchFirst m argv ys).2) := by
  induction xs generalizing xs' with
  | nil =>
    simp [matchFirst] at h
    simp [h]
  | cons x xs ih =>
    rcases hx : m x argv with ⟨x1, o⟩
    cases o with
    | returned n =>
      cases n with
      | zero =>
        rcases hr : matchFirst m argv xs with ⟨xs1, o1⟩
        simp only [matchFirst, hx, hr] at h
        cases h
        simp [matchFirst, hx, ih _ hr]
      | succ n => simp [matchFirst, hx] at h
    | thrown e => simp [matchFirst, hx] at h
    | noFuel => simp [matchFirst, hx] at h

theorem catchUnrecognized_zero (o : Outcome) (h : catchUnrecognized o = .returned 0) :
    o = .returned 0 ∨ o = .thrown (.unrecognizedArg 0) := by
  cases o with
  | returned n => left; simpa [catchUnrecognized] using h
  | thrown e =>
    cases e <;> simp [catchUnrecognized] at h
    right; rw [h]
  | noFuel => simp [catchUnrecognized] at h

theorem dispatchParsers_all_zero (sub : Parser → List String → Parser × Outcome)
    (argv : List String) (optionSet : Option Nat) (ps : List Parser) (i : Nat)
    (h : ∀ c ∈ ps, catchUnrecognized (sub c argv).2 = .returned 0) :
    dispatchParsers sub argv i optionSet ps
      = (ps.map fun c => (sub c argv).1, optionSet, .returned 0) := by
  induction ps generalizing i with
  | nil => rfl
  | cons c cs ih =>
    have hc := h c (by simp)
    have hcs := ih (i + 1) (fun d hd => h d (by simp [hd]))
    rcases hr : sub c argv with ⟨c1, o⟩
    rw [hr] at hc
    simp only [dispatchParsers, hr, hc, hcs, List.map_cons]

theorem dispatchParsers_append_zero (sub : Parser → List String → Parser × Outcome)
    (argv : List String) (optionSet : Option Nat) (ps qs : List Parser) (i : Nat)
    (h : ∀ c ∈ ps, catchUnrecognized (sub c argv).2 = .returned 0) :
    dispatchParsers sub argv i optionSet (ps ++ qs)
      = ((ps.map fun c => (sub c argv).1)
          ++ (dispatchParsers sub argv (i + ps.length) optionSet qs).1,
        (dispatchParsers sub argv (i + ps.length) optionSet qs).2) := by
  induction ps generalizing i with
  | nil => simp
  | cons c cs ih =>
    have hc := h c (by simp)
    have hcs := ih (i + 1) (fun d hd => h d (by simp [hd]))
    rcases hr : sub c argv with ⟨c1, o⟩
    rw [hr] at hc
    have hi : i + 1 + cs.length = i + (cs.length + 1) := by omega
    rw [hi] at hcs
    simp only [List.cons_append, dispatchParsers, hr, hc, List.map_cons, List.length_cons,
      List.append_eq]
    rw [hcs]

theorem dispatchParsers_excessive (sub : Parser → List String → Parser × Outcome)
    (argv : List String) (a i : Nat) (b b' : Parser) (o : Outcome) (n : Nat) (qs : List Parser)
    (hb : sub b argv = (b', o)) (ho : catchUnrecognized o = .returned (n + 1))
    (hopt : b'.cmd.required = false) :
    dispatchParsers sub argv i (some a) (b :: qs) = (b' :: qs, some a, .thrown .excessiveCmd) := by
  simp [dispatchParsers, hb, ho, hopt]

theorem dispatchParsers_records (sub : Parser → List String → Parser × Outcome)
    (argv : List String) (i : Nat) (b b' : Parser) (o : Outcome) (n : Nat) (qs : List Parser)
    (hb : sub b argv = (b', o)) (ho : catchUnrecognized o = .returned (n + 1))
    (hopt : b'.cmd.required = false) :
    dispatchParsers sub argv i none (b :: qs) = (b' :: qs, some i, .returned (n + 1)) := by
  simp [dispatchParsers, hb, ho, hopt]

/-! ## `UnrecognizedArgException` is thrown by `Parser::parse` only -/

theorem ofVoid_markSet_plain (a : Arg) (n : Nat) :
    (Outcome.ofVoid a.markSet.2 n).plain := by
  intro m
  cases h : a.m_set <;> simp [Arg.markSet, h, Outcome.ofVoid]

theorem catchUnrecognized_plain (o : Outcome) : (catchUnrecognized o).plain := by
  intro m
  cases o with
  | returned n => simp [catchUnrecognized]
  | thrown e => cases e <;> simp [catchUnrecognized]
  | noFuel => simp [catchUnrecognized]

theorem keyArg_match_plain (k : KeyArg) (argv : List String) : (k.match_ argv).2.plain := by
  cases argv with
  | nil => intro m; simp [KeyArg.match_]
  | cons t rest =>
    by_cases ht : t ∈ k.m_aliases
    · have := ofVoid_markSet_plain k.toArg 1
      simpa [KeyArg.match_, ht] using this
    · intro m; simp [KeyArg.match_, ht]

theorem valueArg_match_plain (v : ValueArg) (argv : List String) : (v.match_ argv).2.plain := by
  cases argv with
  | nil => intro m; simp [ValueArg.match_]
  | cons t rest =>
    cases hs : v.m_set with
    | true => intro m; simp [ValueArg.match_, hs]
    | false => intro m; simp [ValueArg.match_, hs, ValueArg.setValue, Arg.markSet, Outcome.ofVoid]

theorem keyValueArg_setValue_plain (k : KeyValueArg) (v : String) (n : Nat) :
    (Outcome.ofVoid (k.setValue v).2 n).plain := by
  have := ofVoid_markSet_plain k.toArg n
  simpa [KeyValueArg.setValue] using this

theorem keyValueArg_match_plain (k : KeyValueArg) (argv : List String) :
    (k.match_ argv).2.plain := by
  cases argv with
  | nil => intro m; simp [KeyValueArg.match_]
  | cons t rest =>
    intro m
    simp only [KeyValueArg.match_]
    split
    · split
      · split
        · split
          · simp
          · exact keyValueArg_setValue_plain k _ 2 m
        · simp
      · exact keyValueArg_setValue_plain k _ 1 m
    · simp

theorem matchFirst_plain {α : Type} (m : α → List String → α × Outcome) (argv : List String)
    (hm : ∀ x, (m x argv).2.plain) (xs : List α) : (matchFirst m argv xs).2.plain := by
  induction xs with
  | nil => intro n; simp [matchFirst]
  | cons x xs ih =>
    have hx := hm x
    rcases hr : m x argv with ⟨x1, o⟩
    rw [hr] at hx
    cases o with
    | returned n =>
      cases n with
      | zero => simpa [matchFirst, hr] using ih
      | succ n => simpa [matchFirst, hr] using hx
    | thrown e => simpa [matchFirst, hr] using hx
    | noFuel => simpa [matchFirst, hr] using hx

theorem dispatchParsers_plain (sub : Parser → List String → Parser × Outcome)
    (argv : List String) (optionSet : Option Nat) (ps : List Parser) (i : Nat) :
    (dispatchParsers sub argv i optionSet ps).2.2.plain := by
  induction ps generalizing i with
  | nil => intro n; simp [dispatchParsers]
  | cons c cs ih =>
    rcases hr : sub c argv with ⟨c1, o⟩
    have hc := catchUnrecognized_plain o
    cases hco : catchUnrecognized o with
    | returned n =>
      cases n with
      | zero => simpa [dispatchParsers, hr, hco] using ih (i + 1)
      | succ n =>
        intro m
        simp only [dispatchParsers, hr, hco]
        split
        · split <;> simp
        · simp
    | thrown e =>
      rw [hco] at hc
      simpa [dispatchParsers, hr, hco] using hc
    | noFuel =>
      intro m
      simp [dispatchParsers, hr, hco]

theorem glueChar_plain (c : Char) (ks : List KeyArg) :
    ∀ n, (glueChar c ks).2 ≠ some (.unrecognizedArg n) := by
  induction ks with
  | nil => intro n; simp [glueChar]
  | cons k ks ih =>
    intro n
    have hk := keyArg_match_plain k [String.mk ['-', c]]
    rcases hr : k.match_ [String.mk ['-', c]] with ⟨k1, o⟩
    rw [hr] at hk
    cases o with
    | returned m => simpa [glueChar, hr] using ih n
    | thrown e =>
      have := hk n
      simp [glueChar, hr]
      intro h; exact this (by rw [h])
    | noFuel => simpa [glueChar, hr] using ih n

theorem glueChars_plain (cs : List Char) (ks : List KeyArg) :
    ∀ n, (glueChars cs ks).2 ≠ some (.unrecognizedArg n) := by
  induction cs generalizing ks with
  | nil => intro n; simp [glueChars]
  | cons c cs ih =>
    intro n
    have hc := glueChar_plain c ks n
    rcases hr : glueChar c ks with ⟨ks1, r⟩
    rw [hr] at hc
    cases r with
    | none => simpa [glueChars, hr] using ih ks1 n
    | some e => simpa [glueChars, hr] using hc

theorem dispatchGlueValue_plain (argv : List String) (g : ArgGroup) :
    (dispatchGlueValue argv g).2.plain := by
  intro n
  simp only [dispatchGlueValue]
  split
  · have := glueChars_plain ((argv.headD "").data.drop 1) g.m_keyAttrs n
    cases hr : (glueChars ((argv.headD "").data.drop 1) g.m_keyAttrs).2 with
    | none => simp [Outcome.ofVoid, hr]
    | some e =>
      rw [hr] at this
      simp [Outcome.ofVoid, hr]
      intro h; exact this (by rw [h])
  · split
    · exact matchFirst_plain _ _ (fun x => valueArg_match_plain x argv) _ n
    · simp

theorem dispatchAttrs_plain (argv : List String) (g : ArgGroup) :
    (dispatchAttrs argv g).2.plain := by
  have h1 := matchFirst_plain _ argv (fun x => keyValueArg_match_plain x argv) g.m_keyValueAttrs
  have h2 := matchFirst_plain _ argv (fun x => keyArg_match_plain x argv) g.m_keyAttrs
  rcases hr1 : matchFirst KeyValueArg.match_ argv g.m_keyValueAttrs with ⟨kvs, o1⟩
  rcases hr2 : matchFirst KeyArg.match_ argv g.m_keyAttrs with ⟨ks, o2⟩
  rw [hr1] at h1
  rw [hr2] at h2
  cases o1 with
  | returned n =>
    cases n with
    | zero =>
      cases o2 with
      | returned m =>
        cases m with
        | zero =>
          simp only [dispatchAttrs, hr1, hr2]
          exact dispatchGlueValue_plain _ _
        | succ m => simpa [dispatchAttrs, hr1, hr2] using h2
      | thrown e => simpa [dispatchAttrs, hr1, hr2] using h2
      | noFuel => simpa [dispatchAttrs, hr1, hr2] using h2
    | succ n => simpa [dispatchAttrs, hr1] using h1
  | thrown e => simpa [dispatchAttrs, hr1] using h1
  | noFuel => simpa [dispatchAttrs, hr1] using h1

theorem dispatchGroup_plain (sub : Parser → List String → Parser × Outcome)
    (argv : List String) (g : ArgGroup) : (dispatchGroup sub argv g).2.plain := by
  have h1 := dispatchParsers_plain sub argv g.m_optionSet g.m_parsers 0
  rcases hr : dispatchParsers sub argv 0 g.m_optionSet g.m_parsers with ⟨ps, os, o⟩
  rw [hr] at h1
  cases o with
  | returned n =>
    cases n with
    | zero =>
      simp only [dispatchGroup, hr]
      exact dispatchAttrs_plain _ _
    | succ n => simpa [dispatchGroup, hr] using h1
  | thrown e => simpa [dispatchGroup, hr] using h1
  | noFuel => simpa [dispatchGroup, hr] using h1

theorem dispatchGroups_plain (sub : Parser → List String → Parser × Outcome)
    (argv : List String) (gs : List ArgGroup) : (dispatchGroups sub argv gs).2.plain :=
  matchFirst_plain _ argv (fun g => dispatchGroup_plain sub argv g) gs

theorem parseFrom_catch_ne_zero (sub : Parser → List String → Parser × Outcome)
    (argv : List String) :
    ∀ (fuel argNum : Nat) (gs : List ArgGroup), 0 < argNum →
      catchUnrecognized (parseFrom sub argv fuel argNum gs).2 ≠ .returned 0 := by
  intro fuel
  induction fuel with
  | zero => intro argNum gs _; simp [parseFrom, catchUnrecognized]
  | succ fuel ih =>
    intro argNum gs hpos
    by_cases hlt : argNum < argv.length
    · have hp := dispatchGroups_plain sub (argv.drop argNum) gs
      rcases hd : dispatchGroups sub (argv.drop argNum) gs with ⟨gs1, o⟩
      rw [hd] at hp
      cases o with
      | returned adv =>
        cases adv with
        | zero =>
          simp only [parseFrom, hlt, hd, if_true, catchUnrecognized]
          intro h
          cases h
          omega
        | succ adv =>
          simp only [parseFrom, hlt, hd, if_true]
          exact ih _ _ (by omega)
      | thrown e =>
        simp only [parseFrom, hlt, hd, if_true]
        cases e with
        | unrecognizedArg n => exact absurd rfl (hp n)
        | exception => simp [catchUnrecognized]
        | excessiveCmd => simp [catchUnrecognized]
        | argAlreadySet => simp [catchUnrecognized]
        | argRequiresValue => simp [catchUnrecognized]
        | missingArg => simp [catchUnrecognized]
      | noFuel => simp [parseFrom, hlt, hd, catchUnrecognized]
    · by_cases hv : gs.all validGroup = true
      · simp only [parseFrom, hlt, if_false, validate, hv, if_true, catchUnrecognized]
        intro h
        cases h
        omega
      · simp [parseFrom, hlt, validate, hv, catchUnrecognized]

/-- A sub-command whose parse consumes nothing (it returns 0 or throws
`UnrecognizedArgException` with index 0) is left as it was: its discriminator
did not match. -/
theorem parseAux_zero_unchanged (fuel : Nat) (p : Parser) (argv : List String)
    (h : catchUnrecognized (parseAux fuel p argv).2 = .returned 0) :
    (parseAux fuel p argv).1 = p := by
  cases fuel with
  | zero => simp [parseAux, catchUnrecognized] at h
  | succ fuel =>
    rcases p with ⟨cmd, gs⟩
    have hz := anyArg_match_zero cmd argv
    have hpl : (cmd.match_ argv).2.plain := by
      cases cmd with
      | value v => simpa [AnyArg.match_] using valueArg_match_plain v argv
      | key k => simpa [AnyArg.match_] using keyArg_match_plain k argv
      | keyValue k => simpa [AnyArg.match_] using keyValueArg_match_plain k argv
    rcases hm : cmd.match_ argv with ⟨cmd', o⟩
    rw [hm] at hz hpl
    cases o with
    | returned k =>
      cases k with
      | zero =>
        have : cmd' = cmd := hz rfl
        simp [parseAux, hm, this]
      | succ k =>
        exfalso
        have hne := parseFrom_catch_ne_zero (parseAux fuel) argv (argv.length + 1) (k + 1) gs
          (by omega)
        rcases hl : parseFrom (parseAux fuel) argv (argv.length + 1) (k + 1) gs with ⟨gs', o'⟩
        rw [hl] at hne
        simp only [parseAux, hm, hl] at h
        exact hne h
    | thrown e =>
      exfalso
      simp only [parseAux, hm] at h
      rcases catchUnrecognized_zero _ h with h1 | h1
      · cases h1
      · cases h1
        exact hpl 0 rfl
    | noFuel => simp [parseAux, hm, catchUnrecognized] at h

theorem dispatchParsers_none_consumes (fuel : Nat) (argv : List String)
    (optionSet : Option Nat) (ps : List Parser) (i : Nat)
    (h : ∀ c ∈ ps, catchUnrecognized (parseAux fuel c argv).2 = .returned 0) :
    dispatchParsers (parseAux fuel) argv i optionSet ps = (ps, optionSet, .returned 0) := by
  rw [dispatchParsers_all_zero _ _ _ _ _ h]
  have : (ps.map fun c => (parseAux fuel c argv).1) = ps := by
    conv_rhs => rw [← List.map_id ps]
    exact List.map_congr_left fun c hc => parseAux_zero_unchanged fuel c argv (h c hc)
  rw [this]

/-! ## The fuel of `Parser.parse` is never used up -/

theorem ofVoid_ne_noFuel (r : Option Error) (n : Nat) : Outcome.ofVoid r n ≠ .noFuel := by
  cases r <;> simp [Outcome.ofVoid]

theorem keyArg_match_ne_noFuel (k : KeyArg) (argv : List String) :
    (k.match_ argv).2 ≠ .noFuel := by
  cases argv with
  | nil => simp [KeyArg.match_]
  | cons t rest =>
    by_cases ht : t ∈ k.m_aliases
    · simpa [KeyArg.match_, ht] using ofVoid_ne_noFuel k.toArg.markSet.2 1
    · simp [KeyArg.match_, ht]

theorem valueArg_match_ne_noFuel (v : ValueArg) (argv : List String) :
    (v.match_ argv).2 ≠ .noFuel := by
  cases argv with
  | nil => simp [ValueArg.match_]
  | cons t rest =>
    cases hs : v.m_set with
    | true => simp [ValueArg.match_, hs]
    | false => simpa [ValueArg.match_, hs] using ofVoid_ne_noFuel (v.setValue t).2 1

theorem keyValueArg_match_ne_noFuel (k : KeyValueArg) (argv : List String) :
    (k.match_ argv).2 ≠ .noFuel := by
  cases argv with
  | nil => simp [KeyValueArg.match_]
  | cons t rest =>
    simp only [KeyValueArg.match_]
    split
    · split
      · split
        · split
          · simp
          · exact ofVoid_ne_noFuel _ 2
        · simp
      · exact ofVoid_ne_noFuel _ 1
    · simp

theorem anyArg_match_ne_noFuel (a : AnyArg) (argv : List String) :
    (a.match_ argv).2 ≠ .noFuel := by
  cases a with
  | value v => simpa [AnyArg.match_] using valueArg_match_ne_noFuel v argv
  | key k => simpa [AnyArg.match_] using keyArg_match_ne_noFuel k argv
  | keyValue k => simpa [AnyArg.match_] using keyValueArg_match_ne_noFuel k argv

theorem matchFirst_ne_noFuel {α : Type} (m : α → List String → α × Outcome)
    (argv : List String) (hm : ∀ x, (m x argv).2 ≠ .noFuel) (xs : List α) :
    (matchFirst m argv xs).2 ≠ .noFuel := by
  induction xs with
  | nil => simp [matchFirst]
  | cons x xs ih =>
    have hx := hm x
    rcases hr : m x argv with ⟨x1, o⟩
    rw [hr] at hx
    cases o with
    | returned n =>
      cases n with
      | zero => simpa [matchFirst, hr] using ih
      | succ n => simp [matchFirst, hr]
    | thrown e => simp [matchFirst, hr]
    | noFuel => exact absurd rfl hx

theorem dispatchParsers_ne_noFuel (sub : Parser → List String → Parser × Outcome)
    (argv : List String) (hsub : ∀ p, (sub p argv).2 ≠ .noFuel) (optionSet : Option Nat)
    (ps : List Parser) (i : Nat) : (dispatchParsers sub argv i optionSet ps).2.2 ≠ .noFuel := by
  induction ps generalizing i with
  | nil => simp [dispatchParsers]
  | cons c cs ih =>
    have hc := hsub c
    rcases hr : sub c argv with ⟨c1, o⟩
    rw [hr] at hc
    cases hco : catchUnrecognized o with
    | returned n =>
      cases n with
      | zero => simpa [dispatchParsers, hr, hco] using ih (i + 1)
      | succ n =>
        simp only [dispatchParsers, hr, hco]
        split
        · split <;> simp
        · simp
    | thrown e => simp [dispatchParsers, hr, hco]
    | noFuel =>
      exfalso
      cases o with
      | returned n => simp [catchUnrecognized] at hco
      | thrown e => cases e <;> simp [catchUnrecognized] at hco
      | noFuel => exact hc rfl

theorem dispatchGlueValue_ne_noFuel (argv : List String) (g : ArgGroup) :
    (dispatchGlueValue argv g).2 ≠ .noFuel := by
  simp only [dispatchGlueValue]
  split
  · exact ofVoid_ne_noFuel _ 1
  · split
    · exact matchFirst_ne_noFuel _ _ (fun x => valueArg_match_ne_noFuel x argv) _
    · simp

theorem dispatchAttrs_ne_noFuel (argv : List String) (g : ArgGroup) :
    (dispatchAttrs argv g).2 ≠ .noFuel := by
  have h1 := matchFirst_ne_noFuel _ argv (fun x => keyValueArg_match_ne_noFuel x argv)
    g.m_keyValueAttrs
  have h2 := matchFirst_ne_noFuel _ argv (fun x => keyArg_match_ne_noFuel x argv) g.m_keyAttrs
  rcases hr1 : matchFirst KeyValueArg.match_ argv g.m_keyValueAttrs with ⟨kvs, o1⟩
  rcases hr2 : matchFirst KeyArg.match_ argv g.m_keyAttrs with ⟨ks, o2⟩
  rw [hr1] at h1
  rw [hr2] at h2
  cases o1 with
  | returned n =>
    cases n with
    | zero =>
      cases o2 with
      | returned m =>
        cases m with
        | zero =>
          simp only [dispatchAttrs, hr1, hr2]
          exact dispatchGlueValue_ne_noFuel _ _
        | succ m => simp [dispatchAttrs, hr1, hr2]
      | thrown e => simp [dispatchAttrs, hr1, hr2]
      | noFuel => exact absurd rfl h2
    | succ n => simp [dispatchAttrs, hr1]
  | thrown e => simp [dispatchAttrs, hr1]
  | noFuel => exact absurd rfl h1

theorem dispatchGroup_ne_noFuel (sub : Parser → List String → Parser × Outcome)
    (argv : List String) (hsub : ∀ p, (sub p argv).2 ≠ .noFuel) (g : ArgGroup) :
    (dispatchGroup sub argv g).2 ≠ .noFuel := by
  have h1 := dispatchParsers_ne_noFuel sub argv hsub g.m_optionSet g.m_parsers 0
  rcases hr : dispatchParsers sub argv 0 g.m_optionSet g.m_parsers with ⟨ps, os, o⟩
  rw [hr] at h1
  cases o with
  | returned n =>
    cases n with
    | zero =>
      simp only [dispatchGroup, hr]
      exact dispatchAttrs_ne_noFuel _ _
    | succ n => simp [dispatchGroup, hr]
  | thrown e => simp [dispatchGroup, hr]
  | noFuel => exact absurd rfl h1

theorem parseFrom_ne_noFuel (sub : Parser → List String → Parser × Outcome)
    (argv : List String)
    (hsub : ∀ n p, 0 < n → n < argv.length → (sub p (argv.drop n)).2 ≠ .noFuel) :
    ∀ (fuel argNum : Nat) (gs : List ArgGroup), 0 < argNum → 0 < fuel →
      argv.length < argNum + fuel → (parseFrom sub argv fuel argNum gs).2 ≠ .noFuel := by
  intro fuel
  induction fuel with
  | zero => intro argNum gs _ h0 _; omega
  | succ fuel ih =>
    intro argNum gs hpos _ hf
    by_cases hlt : argNum < argv.length
    · have hd0 : (dispatchGroups sub (argv.drop argNum) gs).2 ≠ .noFuel :=
        matchFirst_ne_noFuel _ _
          (fun g => dispatchGroup_ne_noFuel sub _ (fun p => hsub argNum p hpos hlt) g) gs
      rcases hd : dispatchGroups sub (argv.drop argNum) gs with ⟨gs1, o⟩
      rw [hd] at hd0
      cases o with
      | returned adv =>
        cases adv with
        | zero => simp [parseFrom, hlt, hd]
        | succ adv =>
          simp only [parseFrom, hlt, hd, if_true]
          exact ih _ _ (by omega) (by omega) (by omega)
      | thrown e => simp [parseFrom, hlt, hd]
      | noFuel => exact absurd rfl hd0
    · by_cases hv : gs.all validGroup = true
      · simp [parseFrom, hlt, validate, hv]
      · simp [parseFrom, hlt, validate, hv]

/-- With more fuel than tokens, `parseAux` does not run out of fuel. -/
theorem parseAux_ne_noFuel :
    ∀ (fuel : Nat) (p : Parser) (argv : List String), argv.length < fuel →
      (parseAux fuel p argv).2 ≠ .noFuel := by
  intro fuel
  induction fuel with
  | zero => intro p argv h; omega
  | succ fuel ih =>
    intro p argv hlen
    rcases p with ⟨cmd, gs⟩
    have hm0 := anyArg_match_ne_noFuel cmd argv
    rcases hm : cmd.match_ argv with ⟨cmd', o⟩
    rw [hm] at hm0
    cases o with
    | returned k =>
      cases k with
      | zero => simp [parseAux, hm]
      | succ k =>
        have hl := parseFrom_ne_noFuel (parseAux fuel) argv
          (fun n p hn hlt => ih p (argv.drop n) (by rw [List.length_drop]; omega))
          (argv.length + 1) (k + 1) gs (by omega) (by omega) (by omega)
        rcases hr : parseFrom (parseAux fuel) argv (argv.length + 1) (k + 1) gs with ⟨gs', o'⟩
        rw [hr] at hl
        simpa [parseAux, hm, hr] using hl
    | thrown e => simp [parseAux, hm]
    | noFuel => exact absurd rfl hm0

/-- The member `Parser::parse` always ends with a count or an exception: the
fuel given by `Parser.parse` is never used up. -/
theorem parse_ne_noFuel (p : Parser) (argv : List String) :
    (Parser.parse p argv).2 ≠ .noFuel :=
  parseAux_ne_noFuel (argv.length + 1) p argv (by omega)

/-! ## Mutual exclusion of the optional sub-commands of a group -/

theorem markSet_required (a : Arg) : a.markSet.1.m_required = a.m_required := by
  cases h : a.m_set <;> simp [Arg.markSet, h]

theorem anyArg_match_required (a : AnyArg) (argv : List String) :
    (a.match_ argv).1.required = a.required := by
  cases argv with
  | nil => cases a <;> rfl
  | cons t rest =>
    cases a with
    | value v =>
      cases h : v.m_set <;>
        simp [AnyArg.match_, ValueArg.match_, ValueArg.setValue, Arg.markSet, h, AnyArg.required,
          AnyArg.toArg]
    | key k =>
      by_cases ht : t ∈ k.m_aliases
      · cases h : k.m_set <;>
          simp [AnyArg.match_, KeyArg.match_, ht, Arg.markSet, h, AnyArg.required, AnyArg.toArg]
      · simp [AnyArg.match_, KeyArg.match_, ht]
    | keyValue k =>
      have hset : ∀ v, (k.setValue v).1.m_required = k.m_required := by
        intro v
        cases h : k.m_set <;> simp [KeyValueArg.setValue, Arg.markSet, h]
      simp only [AnyArg.match_, KeyValueArg.match_, AnyArg.required, AnyArg.toArg]
      split
      · split
        · split
          · split <;> simp [hset]
          · rfl
        · simp [hset]
      · rfl

theorem parseAux_cmd_required (fuel : Nat) (p : Parser) (argv : List String) :
    (parseAux fuel p argv).1.cmd.required = p.cmd.required := by
  cases fuel with
  | zero => rfl
  | succ fuel =>
    rcases p with ⟨cmd, gs⟩
    have hreq := anyArg_match_required cmd argv
    rcases hm : cmd.match_ argv with ⟨cmd', o⟩
    rw [hm] at hreq
    cases o with
    | returned k =>
      cases k with
      | zero => simpa [parseAux, hm, Parser.cmd] using hreq
      | succ k => simpa [parseAux, hm, Parser.cmd] using hreq
    | thrown e => simpa [parseAux, hm, Parser.cmd] using hreq
    | noFuel => simpa [parseAux, hm, Parser.cmd] using hreq

/-- C4.  In an iteration of the loop of `Parser::parse` at the token index
`argNum`: when the groups `pre` before the group `g` consume nothing, `g` has
an option recorded already, the sub-commands `ps` of `g` that come before `b`
consume nothing, and the optional sub-command `b` consumes at least one token
(its parse returns a count, or throws `UnrecognizedArgException` at an index
past 0), the parse throws `ExcessiveCmdException` and returns no count. -/
theorem excessive_command (fuel : Nat) (argv : List String) (steps argNum : Nat)
    (pre pre' post : List ArgGroup) (g : ArgGroup) (a : Nat) (ps qs : List Parser) (b : Parser)
    (n : Nat)
    (hlt : argNum < argv.length)
    (hpre : dispatchGroups (parseAux fuel) (argv.drop argNum) pre = (pre', .returned 0))
    (hsel : g.m_optionSet = some a)
    (hps : g.m_parsers = ps ++ b :: qs)
    (hzero : ∀ c ∈ ps, catchUnrecognized (parseAux fuel c (argv.drop argNum)).2 = .returned 0)
    (hcons : catchUnrecognized (parseAux fuel b (argv.drop argNum)).2 = .returned (n + 1))
    (hopt : b.cmd.required = false) :
    parseFrom (parseAux fuel) argv (steps + 1) argNum (pre ++ g :: post)
      = (pre' ++ { g with
            m_parsers := (ps.map fun c => (parseAux fuel c (argv.drop argNum)).1)
              ++ (parseAux fuel b (argv.drop argNum)).1 :: qs } :: post,
          .thrown .excessiveCmd) := by
  have hb' : (parseAux fuel b (argv.drop argNum)).1.cmd.required = false := by
    rw [parseAux_cmd_required]; exact hopt
  have hdp : dispatchParsers (parseAux fuel) (argv.drop argNum) 0 g.m_optionSet g.m_parsers
      = ((ps.map fun c => (parseAux fuel c (argv.drop argNum)).1)
            ++ (parseAux fuel b (argv.drop argNum)).1 :: qs, some a, .thrown .excessiveCmd) := by
    rw [hps, hsel, dispatchParsers_append_zero _ _ _ _ _ _ hzero,
      dispatchParsers_excessive _ _ a _ b _ _ n qs rfl hcons hb']
  have hg : dispatchGroup (parseAux fuel) (argv.drop argNum) g
      = ({ g with
            m_parsers := (ps.map fun c => (parseAux fuel c (argv.drop argNum)).1)
              ++ (parseAux fuel b (argv.drop argNum)).1 :: qs }, .thrown .excessiveCmd) := by
    simp only [dispatchGroup, hdp]
    rw [← hsel]
  have hgs : dispatchGroups (parseAux fuel) (argv.drop argNum) (pre ++ g :: post)
      = (pre' ++ { g with
            m_parsers := (ps.map fun c => (parseAux fuel c (argv.drop argNum)).1)
              ++ (parseAux fuel b (argv.drop argNum)).1 :: qs } :: post,
          .thrown .excessiveCmd) := by
    unfold dispatchGroups at hpre ⊢
    rw [matchFirst_append_zero _ _ _ _ _ hpre,
      matchFirst_cons_stop _ _ g _ post _ hg (by simp)]
  simp [parseFrom, hlt, hgs]

/-- C4, on the root `root` with the optional sub-commands `A` and `B` and the
tokens `root A B`: the whole parse throws `ExcessiveCmdException`; after `A`
has been consumed the loop is at index 2 with `A` recorded, and `B` raises the
exception there. -/
theorem excessive_command_witness :
    (Parser.parse Inputs.twoOptions ["root", "A", "B"]).2 = .thrown .excessiveCmd
    ∧ parseFrom (parseAux 3) ["root", "A", "B"] 3 2 [Inputs.twoOptionsAfterA]
      = ([{ Inputs.twoOptionsAfterA with
            m_parsers := [.mk (.key { KeyArg.new "A" "" with m_set := true }) [{}],
              .mk (.key { KeyArg.new "B" "" with m_set := true }) [{}]] }],
          .thrown .excessiveCmd) :=
  ⟨by decide,
    excessive_command 3 ["root", "A", "B"] 2 2 [] [] [] Inputs.twoOptionsAfterA 0
      [.mk (.key { KeyArg.new "A" "" with m_set := true }) [{}]] [] (Inputs.flagCmd "B") 0
      (by decide) rfl rfl rfl
      (by intro c hc; rw [List.mem_singleton.1 hc]; decide) (by decide) (by decide)⟩

/-! ## Glued key-only arguments -/

theorem glueChar_unset (c : Char) (ks : List KeyArg)
    (h : ∀ k ∈ ks, String.mk ['-', c] ∈ k.m_aliases → k.m_set = false) :
    glueChar c ks = (ks.map (markGlued [c]), none) := by
  induction ks with
  | nil => rfl
  | cons k ks ih =>
    have hks := ih (fun j hj => h j (by simp [hj]))
    by_cases hk : String.mk ['-', c] ∈ k.m_aliases
    · have hs := h k (by simp) hk
      simp [glueChar, keyArg_match_of_mem_unset k _ [] hk hs, hks, markGlued, hk]
    · simp [glueChar, keyArg_match_of_not_mem k _ [] hk, hks, markGlued, hk]

theorem markGlued_aliases (cs : List Char) (k : KeyArg) :
    (markGlued cs k).m_aliases = k.m_aliases := by
  unfold markGlued
  split <;> rfl

theorem markGlued_cons (c : Char) (cs : List Char) (k : KeyArg) :
    markGlued cs (markGlued [c] k) = markGlued (c :: cs) k := by
  by_cases hc : String.mk ['-', c] ∈ k.m_aliases
  · by_cases hcs : ∃ d ∈ cs, String.mk ['-', d] ∈ k.m_aliases
    · simp [markGlued, hc, hcs]
    · simp [markGlued, hc, hcs]
  · by_cases hcs : ∃ d ∈ cs, String.mk ['-', d] ∈ k.m_aliases
    · simp [markGlued, hc, hcs]
    · simp [markGlued, hc, hcs]

theorem glueChars_unset (cs : List Char) :
    ∀ ks : List KeyArg, cs.Nodup →
      (∀ k ∈ ks, ∀ c ∈ cs, ∀ d ∈ cs,
        String.mk ['-', c] ∈ k.m_aliases → String.mk ['-', d] ∈ k.m_aliases → c = d) →
      (∀ k ∈ ks, ∀ c ∈ cs, String.mk ['-', c] ∈ k.m_aliases → k.m_set = false) →
      glueChars cs ks = (ks.map (markGlued cs), none) := by
  induction cs with
  | nil =>
    intro ks _ _ _
    have : ks.map (markGlued []) = ks := by
      conv_rhs => rw [← List.map_id ks]
      exact List.map_congr_left fun k _ => by simp [markGlued]
    simp [glueChars, this]
  | cons c cs ih =>
    intro ks hnd hone hunset
    have hc : c ∉ cs := (List.nodup_cons.1 hnd).1
    have hstep := glueChar_unset c ks (fun k hk => hunset k hk c (by simp))
    have hrest := ih (ks.map (markGlued [c])) (List.nodup_cons.1 hnd).2
      (by
        intro k hk x hx y hy h1 h2
        obtain ⟨j, hj, rfl⟩ := List.mem_map.1 hk
        rw [markGlued_aliases] at h1 h2
        exact hone j hj x (by simp [hx]) y (by simp [hy]) h1 h2)
      (by
        intro k hk d hd h1
        obtain ⟨j, hj, rfl⟩ := List.mem_map.1 hk
        rw [markGlued_aliases] at h1
        by_cases hjc : String.mk ['-', c] ∈ j.m_aliases
        · exfalso
          have := hone j hj c (by simp) d (by simp [hd]) hjc h1
          exact hc (this ▸ hd)
        · have := hunset j hj d (by simp [hd]) h1
          simpa [markGlued, hjc] using this)
    simp only [glueChars, hstep, hrest, List.map_map]
    congr 1
    exact List.map_congr_left fun k _ => markGlued_cons c cs k

theorem gluedKeyArgs_true {P : Type} (g : ArgGroupOf P) (cs : List Char) (hne : cs ≠ [])
    (hglue : ∀ c ∈ cs, ∃ k ∈ g.m_keyAttrs, k.gluableChar = c) :
    g.gluedKeyArgs (String.mk ('-' :: cs)) = true := by
  have hlen : (String.mk ('-' :: cs)).length ≠ 1 := by
    cases cs with
    | nil => exact absurd rfl hne
    | cons c cs => simp [String.length]
  have hall : (cs.all fun c => g.m_keyAttrs.any fun k => decide (c = k.gluableChar)) = true := by
    rw [List.all_eq_true]
    intro c hc
    obtain ⟨k, hk, hkc⟩ := hglue c hc
    rw [List.any_eq_true]
    exact ⟨k, hk, by simp [hkc]⟩
  simp [ArgGroupOf.gluedKeyArgs, charAt, GLUE_CHAR, hlen, hall, hne]

/-- C9 (as amended).  Let the token be `-` followed by the pairwise distinct
characters `cs` (at least one), each the glue char of some flag of the group
`g`, all flags of `g` being unset.  If no sub-command of `g` consumes the
token, the part of the token before its first `=` is no alias of a key-value
argument of `g`, the token is no alias of a flag of `g`, and no flag of `g` has
the aliases `-c` and `-d` for two different characters of the token, then the
dispatch of the token in `g` sets exactly the flags that have an alias `-c` for
a character `c` of the token, changes nothing else and advances by 1. -/
theorem glue_acceptance (fuel : Nat) (g : ArgGroup) (cs : List Char) (rest : List String)
    (hne : cs ≠ []) (hnd : cs.Nodup)
    (hglue : ∀ c ∈ cs, ∃ k ∈ g.m_keyAttrs, k.gluableChar = c)
    (hunset : ∀ k ∈ g.m_keyAttrs, k.m_set = false)
    (hchild : ∀ p ∈ g.m_parsers,
      catchUnrecognized (parseAux fuel p (String.mk ('-' :: cs) :: rest)).2 = .returned 0)
    (hkv : ∀ k ∈ g.m_keyValueAttrs, keyPart (String.mk ('-' :: cs)) ∉ k.m_aliases)
    (hflag : ∀ k ∈ g.m_keyAttrs, String.mk ('-' :: cs) ∉ k.m_aliases)
    (hone : ∀ k ∈ g.m_keyAttrs, ∀ c ∈ cs, ∀ d ∈ cs,
      String.mk ['-', c] ∈ k.m_aliases → String.mk ['-', d] ∈ k.m_aliases → c = d) :
    dispatchGroup (parseAux fuel) (String.mk ('-' :: cs) :: rest) g
      = ({ g with
            m_keyAttrs := g.m_keyAttrs.map fun k =>
              if ∃ c ∈ cs, String.mk ['-', c] ∈ k.m_aliases then { k with m_set := true } else k },
          .returned 1) := by
  have h1 := dispatchParsers_none_consumes fuel (String.mk ('-' :: cs) :: rest) g.m_optionSet
    g.m_parsers 0 hchild
  have h2 := matchFirst_all_zero KeyValueArg.match_ (String.mk ('-' :: cs) :: rest)
    g.m_keyValueAttrs (fun k hk => keyValueArg_match_of_not_mem k _ rest (hkv k hk))
  have h3 := matchFirst_all_zero KeyArg.match_ (String.mk ('-' :: cs) :: rest)
    g.m_keyAttrs (fun k hk => keyArg_match_of_not_mem k _ rest (hflag k hk))
  have h4 := gluedKeyArgs_true g cs hne hglue
  have h5 := glueChars_unset cs g.m_keyAttrs hnd hone (fun k hk c _ _ => hunset k hk)
  have hdg : dispatchGlueValue (String.mk ('-' :: cs) :: rest) g
      = ({ g with m_keyAttrs := g.m_keyAttrs.map (markGlued cs) }, .returned 1) := by
    unfold dispatchGlueValue
    rw [List.headD_cons, if_pos h4]
    show (match glueChars cs g.m_keyAttrs with
      | (ks, r) => (({ g with m_keyAttrs := ks } : ArgGroup), Outcome.ofVoid r 1)) = _
    rw [h5]
    rfl
  have hda : dispatchAttrs (String.mk ('-' :: cs) :: rest) g
      = ({ g with m_keyAttrs := g.m_keyAttrs.map (markGlued cs) }, .returned 1) := by
    simp only [dispatchAttrs, h2, h3]
    exact hdg
  simp only [dispatchGroup, h1]
  exact hda

/-- C9 (as amended), for the flags `-v` and `-x` and the token `-vx`: both
flags are set and the advance is 1. -/
theorem glue_acceptance_witness :
    dispatchGroup (parseAux 1) ["-vx"] Inputs.flagsVX
      = ({ m_keyAttrs := [{ KeyArg.new "-v" "" with m_set := true },
            { KeyArg.new "-x" "" with m_set := true }] }, .returned 1) :=
  glue_acceptance 1 Inputs.flagsVX ['v', 'x'] [] (by decide) (by decide) (by decide) (by decide)
    (by intro p hp; cases hp) (by intro k hk; cases hk) (by decide) (by decide)

/-- C9 fails as stated, at two inputs that meet its hypotheses (flags unset,
distinct characters that are all glue chars, a token that is no alias, no
sub-command).  With a flag that has both short aliases `-v` and `-x`, the token
`-vx` offers that flag twice and the dispatch throws `ArgAlreadySetException`.
With a key-value argument `-k`, the token `-k=` is taken by the key-value step
(value empty) and no flag is set. -/
theorem glue_acceptance_counterexample :
    ((∀ k ∈ Inputs.twoShortAliases.m_keyAttrs, k.m_set = false)
      ∧ Inputs.twoShortAliases.m_parsers.length = 0
      ∧ Inputs.twoShortAliases.m_keyValueAttrs = []
      ∧ ['v', 'x'].Nodup
      ∧ (∀ c ∈ ['v', 'x'], ∃ k ∈ Inputs.twoShortAliases.m_keyAttrs, k.gluableChar = c)
      ∧ (∀ k ∈ Inputs.twoShortAliases.m_keyAttrs, "-vx" ∉ k.m_aliases)
      ∧ (dispatchGroup (parseAux 1) ["-vx"] Inputs.twoShortAliases).2 = .thrown .argAlreadySet)
    ∧ ((∀ k ∈ Inputs.flagsAndKeyValue.m_keyAttrs, k.m_set = false)
      ∧ Inputs.flagsAndKeyValue.m_parsers.length = 0
      ∧ ['k', '='].Nodup
      ∧ (∀ c ∈ ['k', '='], ∃ k ∈ Inputs.flagsAndKeyValue.m_keyAttrs, k.gluableChar = c)
      ∧ (∀ k ∈ Inputs.flagsAndKeyValue.m_keyAttrs, "-k=" ∉ k.m_aliases)
      ∧ (∀ k ∈ Inputs.flagsAndKeyValue.m_keyValueAttrs, "-k=" ∉ k.m_aliases)
      ∧ (dispatchGroup (parseAux 1) ["-k="] Inputs.flagsAndKeyValue).2 = .returned 1
      ∧ (dispatchGroup (parseAux 1) ["-k="] Inputs.flagsAndKeyValue).1.m_keyAttrs
          = Inputs.flagsAndKeyValue.m_keyAttrs
      ∧ (dispatchGroup (parseAux 1) ["-k="] Inputs.flagsAndKeyValue).1.m_keyValueAttrs
          = [{ KeyValueArg.new "-k" "n" "" with m_set := true }]) := by
  decide

theorem dispatchGlueValue_not_glued (g : ArgGroup) (t : String) (rest : List String)
    (hdash : charAt t 0 = GLUE_CHAR) (hg : g.gluedKeyArgs t = false) :
    dispatchGlueValue (t :: rest) g = (g, .returned 0) := by
  simp [dispatchGlueValue, hg, hdash]

theorem dispatchGroup_no_match (fuel : Nat) (g : ArgGroup) (t : String) (rest : List String)
    (hdash : charAt t 0 = GLUE_CHAR)
    (hchild : ∀ p ∈ g.m_parsers, catchUnrecognized (parseAux fuel p (t :: rest)).2 = .returned 0)
    (hkv : ∀ k ∈ g.m_keyValueAttrs, keyPart t ∉ k.m_aliases)
    (hflag : ∀ k ∈ g.m_keyAttrs, t ∉ k.m_aliases)
    (hg : g.gluedKeyArgs t = false) :
    dispatchGroup (parseAux fuel) (t :: rest) g = (g, .returned 0) := by
  have h1 := dispatchParsers_none_consumes fuel (t :: rest) g.m_optionSet g.m_parsers 0 hchild
  have h2 := matchFirst_all_zero KeyValueArg.match_ (t :: rest)
    g.m_keyValueAttrs (fun k hk => keyValueArg_match_of_not_mem k _ rest (hkv k hk))
  have h3 := matchFirst_all_zero KeyArg.match_ (t :: rest)
    g.m_keyAttrs (fun k hk => keyArg_match_of_not_mem k _ rest (hflag k hk))
  have hda : dispatchAttrs (t :: rest) g = (g, .returned 0) := by
    simp only [dispatchAttrs, h2, h3]
    exact dispatchGlueValue_not_glued g t rest hdash hg
  simp only [dispatchGroup, h1]
  exact hda

theorem parseFrom_exit (sub : Parser → List String → Parser × Outcome) (argv : List String)
    (fuel argNum : Nat) (gs : List ArgGroup) (h : argv.length ≤ argNum) :
    parseFrom sub argv (fuel + 1) argNum gs = validate argNum gs := by
  have hlt : ¬ argNum < argv.length := by omega
  simp [parseFrom, hlt]

theorem parseFrom_returned (sub : Parser → List String → Parser × Outcome) (argv : List String) :
    ∀ (fuel argNum : Nat) (gs gs' : List ArgGroup) (n : Nat),
      parseFrom sub argv fuel argNum gs = (gs', .returned n) → gs'.all validGroup = true := by
  intro fuel
  induction fuel with
  | zero => intro argNum gs gs' n h; simp [parseFrom] at h
  | succ fuel ih =>
    intro argNum gs gs' n h
    by_cases hlt : argNum < argv.length
    · rcases hd : dispatchGroups sub (argv.drop argNum) gs with ⟨gs1, o⟩
      cases o with
      | returned adv =>
        cases adv with
        | zero => simp [parseFrom, hlt, hd] at h
        | succ adv =>
          simp only [parseFrom, hlt, hd, if_true] at h
          exact ih _ _ _ _ h
      | thrown e => simp [parseFrom, hlt, hd] at h
      | noFuel => simp [parseFrom, hlt, hd] at h
    · by_cases hv : gs.all validGroup = true
      · simp only [parseFrom, hlt, if_false, validate, hv, if_true] at h
        cases h
        exact hv
      · simp [parseFrom, hlt, validate, hv] at h

theorem parseAux_returned (fuel : Nat) (p p' : Parser) (argv : List String) (n : Nat)
    (h : parseAux fuel p argv = (p', .returned n)) : p'.argGroups.all validGroup = true := by
  cases fuel with
  | zero => simp [parseAux] at h
  | succ fuel =>
    rcases p with ⟨cmd, gs⟩
    rcases hm : cmd.match_ argv with ⟨cmd', o⟩
    cases o with
    | returned k =>
      cases k with
      | zero => simp [parseAux, hm] at h
      | succ k =>
        rcases hl : parseFrom (parseAux fuel) argv (argv.length + 1) (k + 1) gs with ⟨gs', o'⟩
        simp only [parseAux, hm, hl] at h
        cases h
        exact parseFrom_returned _ _ _ _ _ _ _ hl
    | thrown e => simp [parseAux, hm] at h
    | noFuel => simp [parseAux, hm] at h

theorem validGroup_iff (g : ArgGroup) :
    validGroup g = true ↔
      (g.m_optionRequired = true → g.m_optionSet.isSome = true) ∧ allRequiredSet g = true := by
  cases h1 : g.m_optionRequired <;> cases h2 : g.m_optionSet.isSome <;>
    simp [validGroup, h1, h2]

theorem allRequiredSet_iff (g : ArgGroup) :
    allRequiredSet g = true ↔
      (∀ k ∈ g.m_keyAttrs, k.m_required = true → k.m_set = true)
      ∧ (∀ k ∈ g.m_keyValueAttrs, k.m_required = true → k.m_set = true)
      ∧ (∀ v ∈ g.m_valueAttrs, v.m_required = true → v.m_set = true)
      ∧ (∀ c ∈ g.m_parsers, c.cmd.required = true → c.cmd.isSet = true) := by
  simp only [allRequiredSet, Bool.and_eq_true, List.all_eq_true, Bool.not_eq_true',
    Bool.and_eq_false_imp, Bool.not_eq_false']
  tauto

/-- C3.  `Parser::parse` on a command (at any depth of the recursion) returns
normally only if, in every group of the command, every required flag, every
required key-value argument, every required positional and the discriminator of
every required sub-command is set; and when the loop has consumed all tokens
while one of these is unset in some group, the parse fails with
`MissingArgException`. -/
theorem parse_validates_required (fuel : Nat) (p : Parser) (argv : List String) :
    (∀ p' n, parseAux fuel p argv = (p', .returned n) →
      ∀ g ∈ p'.argGroups,
        (∀ k ∈ g.m_keyAttrs, k.m_required = true → k.m_set = true)
        ∧ (∀ k ∈ g.m_keyValueAttrs, k.m_required = true → k.m_set = true)
        ∧ (∀ v ∈ g.m_valueAttrs, v.m_required = true → v.m_set = true)
        ∧ (∀ c ∈ g.m_parsers, c.cmd.required = true → c.cmd.isSet = true))
    ∧ (∀ (steps argNum : Nat) (gs : List ArgGroup), argv.length ≤ argNum →
        (∃ g ∈ gs,
          (∃ k ∈ g.m_keyAttrs, k.m_required = true ∧ k.m_set = false)
          ∨ (∃ k ∈ g.m_keyValueAttrs, k.m_required = true ∧ k.m_set = false)
          ∨ (∃ v ∈ g.m_valueAttrs, v.m_required = true ∧ v.m_set = false)
          ∨ (∃ c ∈ g.m_parsers, c.cmd.required = true ∧ c.cmd.isSet = false)) →
        parseFrom (parseAux fuel) argv (steps + 1) argNum gs = (gs, .thrown .missingArg)) := by
  constructor
  · intro p' n h g hg
    have hall := parseAux_returned fuel p p' argv n h
    rw [List.all_eq_true] at hall
    exact (allRequiredSet_iff g).1 ((validGroup_iff g).1 (hall g hg)).2
  · intro steps argNum gs hlen ⟨g, hg, hbad⟩
    rw [parseFrom_exit _ _ _ _ _ hlen]
    have hnot : ¬ gs.all validGroup = true := by
      intro hall
      rw [List.all_eq_true] at hall
      obtain ⟨h1, h2, h3, h4⟩ := (allRequiredSet_iff g).1 ((validGroup_iff g).1 (hall g hg)).2
      rcases hbad with ⟨k, hk, hr, hs⟩ | ⟨k, hk, hr, hs⟩ | ⟨k, hk, hr, hs⟩ | ⟨k, hk, hr, hs⟩
      · simp [h1 k hk hr] at hs
      · simp [h2 k hk hr] at hs
      · simp [h3 k hk hr] at hs
      · simp [h4 k hk hr] at hs
    simp [validate, hnot]

/-- C3, on the sub-command `init` of `example.cpp` with the lone token `init`:
the required `pstones` is unset when the loop ends, and the parse throws
`MissingArgException`. -/
theorem parse_validates_required_witness :
    parseFrom (parseAux 1) ["init"] 2 1 [{}, Example.pyramidArgsGroup]
      = ([{}, Example.pyramidArgsGroup], .thrown .missingArg) :=
  (parse_validates_required 1 (.mk (.key Example.initArg) [{}, Example.pyramidArgsGroup])
      ["init"]).2 1 1 [{}, Example.pyramidArgsGroup] (by decide)
    ⟨Example.pyramidArgsGroup, by simp,
      Or.inr (Or.inl ⟨Example.pStonesArg, by simp [Example.pyramidArgsGroup], by decide, by decide⟩)⟩

/-! ## Required arguments of a sub-command that stops early -/

/-- C2 (evaluation at the failing input).  On the declaration of `example.cpp`
the tokens `prog init -v` are parsed without error: `Parser::parse` returns 3
although `init` is set and recorded while its required argument `pstones` is
unset.  The parse of `init` stops at `-v` with `UnrecognizedArgException`, which
the root catches, so the validation pass of `init` is never run.  When nothing
follows (`prog init`) the same declaration does throw `MissingArgException`. -/
theorem subcommand_required_skipped :
    (Parser.parse (Example.parser "prog") ["prog", "init", "-v"]).2 = .returned 3
    ∧ (Parser.parse (Example.parser "prog") ["prog", "init", "-v"]).1.argGroups.map
        (fun g => (g.m_optionSet, (g.m_parsers.take 1).map fun p =>
          (p.cmd.isSet, p.argGroups.map fun h =>
            h.m_keyValueAttrs.map fun k => (k.m_aliases, k.m_required, k.m_set))))
      = [(some 0, [(true, [[], [(["pname"], false, false), (["pstones"], true, false)]])])]
    ∧ (Parser.parse (Example.parser "prog") ["prog", "init"]).2 = .thrown .missingArg :=
  ⟨by decide, by rfl, by decide⟩

/-! ## The glue qualification predicate -/

/-- C11.  `ArgGroup::gluedKeyArgs(t)` is true exactly when `t` starts with the
glue character, is longer than one character, and every character after the
first is the glue char of some key-only argument of the group.  The member is
`const`: in the embedding it is a function into `Bool` and returns no state. -/
theorem gluedKeyArgs_iff {P : Type} (g : ArgGroupOf P) (t : String) :
    g.gluedKeyArgs t = true ↔
      charAt t 0 = GLUE_CHAR ∧ 1 < t.length
        ∧ ∀ c ∈ t.data.drop 1, ∃ k ∈ g.m_keyAttrs, k.gluableChar = c := by
  have hall : ((t.data.drop 1).all fun c =>
      g.m_keyAttrs.any fun k => decide (c = k.gluableChar)) = true
      ↔ ∀ c ∈ t.data.drop 1, ∃ k ∈ g.m_keyAttrs, k.gluableChar = c := by
    rw [List.all_eq_true]
    constructor
    · intro h c hc
      have := h c hc
      rw [List.any_eq_true] at this
      obtain ⟨k, hk, hkc⟩ := this
      exact ⟨k, hk, (of_decide_eq_true hkc).symm⟩
    · intro h c hc
      obtain ⟨k, hk, hkc⟩ := h c hc
      rw [List.any_eq_true]
      exact ⟨k, hk, decide_eq_true hkc.symm⟩
  by_cases h0 : charAt t 0 = GLUE_CHAR
  · have hpos : 0 < t.length := by
      rcases t with ⟨l⟩
      cases l with
      | nil => exact absurd h0 (by decide)
      | cons c cs => simp [String.length]
    by_cases h1 : t.length = 1
    · simp [ArgGroupOf.gluedKeyArgs, h0, h1]
    · have hlt : 1 < t.length := by omega
      simp only [ArgGroupOf.gluedKeyArgs, h0, h1, ne_eq, not_true_eq_false, if_false, hall,
        hlt, true_and]
  · simp [ArgGroupOf.gluedKeyArgs, h0]

/-! ## The guard against setting an argument twice -/

/-- C14 (amended).  On an argument that is set already, every attempt to set it throws
`ArgAlreadySetException` and leaves it set: `markSet` itself, `KeyArg::match`
on an alias, `KeyValueArg::match` on an alias in the forms `key=value` and
`key value` (the value not starting with the glue character), and
`ValueArg::setValue`.  The two `setValue` paths store the new value before
the exception is thrown. -/
theorem reset_guard :
    (∀ a : Arg, a.m_set = true → a.markSet = (a, some .argAlreadySet))
    ∧ (∀ (k : KeyArg) (t : String) (rest : List String), k.m_set = true → t ∈ k.m_aliases →
        k.match_ (t :: rest) = (k, .thrown .argAlreadySet))
    ∧ (∀ (k : KeyValueArg) (a v : String) (rest : List String), k.m_set = true →
        a ∈ k.m_aliases → '=' ∉ a.data →
        k.match_ ((a ++ "=" ++ v) :: rest) = ({ k with m_value := v }, .thrown .argAlreadySet)
        ∧ ({ k with m_value := v } : KeyValueArg).m_set = true)
    ∧ (∀ (k : KeyValueArg) (a v : String) (rest : List String), k.m_set = true →
        a ∈ k.m_aliases → '=' ∉ a.data → charAt v 0 ≠ GLUE_CHAR →
        k.match_ (a :: v :: rest) = ({ k with m_value := v }, .thrown .argAlreadySet)
        ∧ ({ k with m_value := v } : KeyValueArg).m_set = true)
    ∧ (∀ (p : ValueArg) (v : String), p.m_set = true →
        p.setValue v = ({ p with m_value := v }, some .argAlreadySet)
        ∧ ({ p with m_value := v } : ValueArg).m_set = true) := by
  refine ⟨?_, ?_, ?_, ?_, ?_⟩
  · intro a h
    simp [Arg.markSet, h]
  · intro k t rest h ht
    simp [KeyArg.match_, ht, Arg.markSet, h, Outcome.ofVoid]
  · intro k a v rest h ha hnoeq
    have hpos : find_first_of (a.data ++ '=' :: v.data) '=' = some a.length :=
      find_first_of_append a.data v.data '=' hnoeq
    have harg : substrTo (a ++ "=" ++ v) a.length = a := by
      show (⟨(a ++ "=" ++ v).data.take a.data.length⟩ : String) = a
      simp [String.data_append]
    have hval : substrFrom (a ++ "=" ++ v) (a.length + 1) = v := by
      have hd : (a ++ "=" ++ v).data = a.data ++ '=' :: v.data := by
        simp [String.data_append]
      show (⟨(a ++ "=" ++ v).data.drop (a.data.length + 1)⟩ : String) = v
      simp [hd, List.drop_append_eq_append_drop, List.drop_eq_nil_of_le]
    refine ⟨?_, h⟩
    simp [KeyValueArg.match_, hpos, harg, hval, ha, KeyValueArg.setValue, Arg.markSet, h,
      Outcome.ofVoid]
  · intro k a v rest h ha hnoeq hv
    have hpos : find_first_of a.data '=' = none := (find_first_of_eq_none _ _).2 hnoeq
    refine ⟨?_, h⟩
    simp [KeyValueArg.match_, hpos, ha, hv, KeyValueArg.setValue, Arg.markSet, h, Outcome.ofVoid]
  · intro p v h
    refine ⟨?_, h⟩
    simp [ValueArg.setValue, Arg.markSet, h]

/-- C14, on a flag `-v` and a key-value argument `--opt` that are set already:
`-v`, `--opt=5` and `--opt 5` all throw `ArgAlreadySetException`. -/
theorem reset_guard_witness :
    ({ KeyArg.new "-v" "" with m_set := true }).match_ ["-v"]
      = ({ KeyArg.new "-v" "" with m_set := true }, .thrown .argAlreadySet)
    ∧ ({ KeyValueArg.new "--opt" "n" "" with m_set := true, m_value := "1" }).match_ ["--opt=5"]
      = ({ KeyValueArg.new "--opt" "n" "" with m_set := true, m_value := "5" },
          .thrown .argAlreadySet)
    ∧ ({ KeyValueArg.new "--opt" "n" "" with m_set := true, m_value := "1" }).match_
        ["--opt", "5"]
      = ({ KeyValueArg.new "--opt" "n" "" with m_set := true, m_value := "5" },
          .thrown .argAlreadySet) :=
  ⟨reset_guard.2.1 _ "-v" [] rfl (by decide),
    (reset_guard.2.2.1 _ "--opt" "5" [] rfl (by decide) (by decide)).1,
    (reset_guard.2.2.2.1 _ "--opt" "5" [] rfl (by decide) (by decide) (by decide)).1⟩

/-- C14 as stated fails for the form `key value` when the value starts with the
glue character: on `--opt` set by `--opt=1`, the tokens `--opt -5` do not throw
`ArgAlreadySetException` but the plain `Exception` of lines 686-687, which is
thrown before `setValue` is called; the argument stays set and keeps `1`. -/
theorem reset_guard_counterexample :
    ((KeyValueArg.new "--opt" "n" "").match_ ["--opt=1"]).1.m_set = true
    ∧ (((KeyValueArg.new "--opt" "n" "").match_ ["--opt=1"]).1.match_ ["--opt", "-5"]).2
        = .thrown .exception
    ∧ (((KeyValueArg.new "--opt" "n" "").match_ ["--opt=1"]).1.match_ ["--opt", "-5"]).2
        ≠ .thrown .argAlreadySet
    ∧ (((KeyValueArg.new "--opt" "n" "").match_ ["--opt=1"]).1.match_ ["--opt", "-5"]).1
        = ((KeyValueArg.new "--opt" "n" "").match_ ["--opt=1"]).1 :=
  ⟨by decide, by decide, by decide, by decide⟩

/-! ## Value-only arguments -/

theorem valueArg_match_set (v : ValueArg) (argv : List String) (h : v.m_set = true) :
    v.match_ argv = (v, .returned 0) := by
  cases argv with
  | nil => rfl
  | cons a rest => simp [ValueArg.match_, h]

theorem valueArg_match_unset (v : ValueArg) (a : String) (rest : List String)
    (h : v.m_set = false) :
    v.match_ (a :: rest) = ({ v with m_set := true, m_value := a }, .returned 1) := by
  simp [ValueArg.match_, h, ValueArg.setValue, Arg.markSet, Outcome.ofVoid]

theorem matchFirst_value_first_unset (a : String) (rest : List String)
    (pre post : List ValueArg) (v : ValueArg) (hpre : ∀ p ∈ pre, p.m_set = true)
    (hv : v.m_set = false) :
    matchFirst ValueArg.match_ (a :: rest) (pre ++ v :: post)
      = (pre ++ { v with m_set := true, m_value := a } :: post, .returned 1) := by
  have h1 := matchFirst_all_zero ValueArg.match_ (a :: rest) pre
    (fun p hp => valueArg_match_set p _ (hpre p hp))
  rw [matchFirst_append_zero _ _ _ _ _ h1,
    matchFirst_cons_stop _ _ v _ post _ (valueArg_match_unset v a rest hv) (by simp)]

theorem gluedKeyArgs_of_not_dash {P : Type} (g : ArgGroupOf P) (t : String)
    (h : charAt t 0 ≠ GLUE_CHAR) : g.gluedKeyArgs t = false := by
  simp [ArgGroupOf.gluedKeyArgs, h]

theorem dispatchGroup_bare (fuel : Nat) (g : ArgGroup) (a : String) (rest : List String)
    (hbare : charAt a 0 ≠ GLUE_CHAR)
    (hchild : ∀ p ∈ g.m_parsers, catchUnrecognized (parseAux fuel p (a :: rest)).2 = .returned 0)
    (hkv : ∀ k ∈ g.m_keyValueAttrs, keyPart a ∉ k.m_aliases)
    (hflag : ∀ k ∈ g.m_keyAttrs, a ∉ k.m_aliases) :
    dispatchGroup (parseAux fuel) (a :: rest) g
      = ({ g with m_valueAttrs := (matchFirst ValueArg.match_ (a :: rest) g.m_valueAttrs).1 },
          (matchFirst ValueArg.match_ (a :: rest) g.m_valueAttrs).2) := by
  have h1 := dispatchParsers_none_consumes fuel (a :: rest) g.m_optionSet g.m_parsers 0 hchild
  have h2 := matchFirst_all_zero KeyValueArg.match_ (a :: rest)
    g.m_keyValueAttrs (fun k hk => keyValueArg_match_of_not_mem k _ rest (hkv k hk))
  have h3 := matchFirst_all_zero KeyArg.match_ (a :: rest)
    g.m_keyAttrs (fun k hk => keyArg_match_of_not_mem k _ rest (hflag k hk))
  have hg := gluedKeyArgs_of_not_dash g a hbare
  have hdg : dispatchGlueValue (a :: rest) g
      = ({ g with m_valueAttrs := (matchFirst ValueArg.match_ (a :: rest) g.m_valueAttrs).1 },
          (matchFirst ValueArg.match_ (a :: rest) g.m_valueAttrs).2) := by
    simp [dispatchGlueValue, hg, hbare]
  have hda : dispatchAttrs (a :: rest) g
      = ({ g with m_valueAttrs := (matchFirst ValueArg.match_ (a :: rest) g.m_valueAttrs).1 },
          (matchFirst ValueArg.match_ (a :: rest) g.m_valueAttrs).2) := by
    simp only [dispatchAttrs, h2, h3]
    exact hdg
  simp only [dispatchGroup, h1]
  exact hda

/-- C12.  A bare token `a` (not starting with the glue character) that no
sub-command, key-value argument or flag of the group takes is stored in the
first value-only argument, in declaration order, that is still unset: with the
arguments `pre` before it all set and `v` unset, the dispatch sets `v` to `a`,
leaves every other argument as it is and advances by 1.  For two unset
arguments `p1`, `p2` a first token sets `p1` only and a second one sets `p2`.
`ValueArg::match` on an argument that is set returns 0 and changes nothing. -/
theorem first_unset_wins (fuel : Nat) (g : ArgGroup) (a : String) (rest : List String)
    (pre post : List ValueArg) (v : ValueArg)
    (hbare : charAt a 0 ≠ GLUE_CHAR)
    (hchild : ∀ p ∈ g.m_parsers, catchUnrecognized (parseAux fuel p (a :: rest)).2 = .returned 0)
    (hkv : ∀ k ∈ g.m_keyValueAttrs, keyPart a ∉ k.m_aliases)
    (hflag : ∀ k ∈ g.m_keyAttrs, a ∉ k.m_aliases)
    (hvals : g.m_valueAttrs = pre ++ v :: post)
    (hpre : ∀ p ∈ pre, p.m_set = true) (hv : v.m_set = false) :
    dispatchGroup (parseAux fuel) (a :: rest) g
      = ({ g with m_valueAttrs := pre ++ { v with m_set := true, m_value := a } :: post },
          .returned 1)
    ∧ (∀ (p1 p2 : ValueArg) (b : String) (rest2 : List String),
        p1.m_set = false → p2.m_set = false →
        matchFirst ValueArg.match_ (a :: rest) [p1, p2]
          = ([{ p1 with m_set := true, m_value := a }, p2], .returned 1)
        ∧ matchFirst ValueArg.match_ (b :: rest2) [{ p1 with m_set := true, m_value := a }, p2]
          = ([{ p1 with m_set := true, m_value := a }, { p2 with m_set := true, m_value := b }],
              .returned 1))
    ∧ (∀ (w : ValueArg) (argv : List String), w.m_set = true → w.match_ argv = (w, .returned 0)) := by
  refine ⟨?_, ?_, ?_⟩
  · rw [dispatchGroup_bare fuel g a rest hbare hchild hkv hflag, hvals,
      matchFirst_value_first_unset a rest pre post v hpre hv]
  · intro p1 p2 b rest2 h1 h2
    constructor
    · exact matchFirst_value_first_unset a rest [] [p2] p1 (by simp) h1
    · exact matchFirst_value_first_unset b rest2 [{ p1 with m_set := true, m_value := a }] [] p2
        (by simp) h2
  · intro w argv hw
    exact valueArg_match_set w argv hw

/-- C12, on the group `rename_options` of `example.cpp` (positionals `old_name`,
`new_name`): the token `a` sets `old_name` only; with `old_name` set, the token
`b` sets `new_name`. -/
theorem first_unset_wins_witness :
    dispatchGroup (parseAux 1) ["a", "b"] Example.renameArgsGroup
      = ({ Example.renameArgsGroup with
            m_valueAttrs := [{ Example.oldPyramidArg with m_set := true, m_value := "a" },
              Example.newPyramidArg] }, .returned 1)
    ∧ dispatchGroup (parseAux 1) ["b"]
        { Example.renameArgsGroup with
            m_valueAttrs := [{ Example.oldPyramidArg with m_set := true, m_value := "a" },
              Example.newPyramidArg] }
      = ({ Example.renameArgsGroup with
            m_valueAttrs := [{ Example.oldPyramidArg with m_set := true, m_value := "a" },
              { Example.newPyramidArg with m_set := true, m_value := "b" }] }, .returned 1) :=
  ⟨(first_unset_wins 1 Example.renameArgsGroup "a" ["b"] [] [Example.newPyramidArg]
      Example.oldPyramidArg (by decide) (by intro p hp; cases hp) (by intro k hk; cases hk)
      (by intro k hk; cases hk) rfl (by intro p hp; cases hp) rfl).1,
    (first_unset_wins 1 _ "b" [] [{ Example.oldPyramidArg with m_set := true, m_value := "a" }] []
      Example.newPyramidArg (by decide) (by intro p hp; cases hp) (by intro k hk; cases hk)
      (by intro k hk; cases hk) rfl
      (by intro p hp; rw [List.mem_singleton.1 hp]) rfl).1⟩

theorem matchFirst_preserves {α β : Type} (m : α → List String → α × Outcome)
    (argv : List String) (f : α → β) (hm : ∀ x, f (m x argv).1 = f x) (xs : List α) :
    (matchFirst m argv xs).1.map f = xs.map f := by
  induction xs with
  | nil => rfl
  | cons x xs ih =>
    have hx := hm x
    rcases hr : m x argv with ⟨x1, o⟩
    rw [hr] at hx
    cases o with
    | returned n =>
      cases n with
      | zero => simp [matchFirst, hr, hx, ih]
      | succ n => simp [matchFirst, hr, hx]
    | thrown e => simp [matchFirst, hr, hx]
    | noFuel => simp [matchFirst, hr, hx]

theorem dispatchGlueValue_valueAttrs_dash (g : ArgGroup) (t : String) (rest : List String)
    (hdash : charAt t 0 = GLUE_CHAR) :
    (dispatchGlueValue (t :: rest) g).1.m_valueAttrs = g.m_valueAttrs := by
  simp only [dispatchGlueValue, List.headD_cons]
  split
  · rfl
  · simp [hdash]

theorem dispatchAttrs_valueAttrs_dash (g : ArgGroup) (t : String) (rest : List String)
    (hdash : charAt t 0 = GLUE_CHAR) :
    (dispatchAttrs (t :: rest) g).1.m_valueAttrs = g.m_valueAttrs := by
  rcases hr1 : matchFirst KeyValueArg.match_ (t :: rest) g.m_keyValueAttrs with ⟨kvs, o1⟩
  rcases hr2 : matchFirst KeyArg.match_ (t :: rest) g.m_keyAttrs with ⟨ks, o2⟩
  cases o1 with
  | returned n =>
    cases n with
    | zero =>
      cases o2 with
      | returned m =>
        cases m with
        | zero =>
          simp only [dispatchAttrs, hr1, hr2]
          exact dispatchGlueValue_valueAttrs_dash _ t rest hdash
        | succ m => simp [dispatchAttrs, hr1, hr2]
      | thrown e => simp [dispatchAttrs, hr1, hr2]
      | noFuel => simp [dispatchAttrs, hr1, hr2]
    | succ n => simp [dispatchAttrs, hr1]
  | thrown e => simp [dispatchAttrs, hr1]
  | noFuel => simp [dispatchAttrs, hr1]

theorem dispatchGroup_valueAttrs_dash (sub : Parser → List String → Parser × Outcome)
    (g : ArgGroup) (t : String) (rest : List String) (hdash : charAt t 0 = GLUE_CHAR) :
    (dispatchGroup sub (t :: rest) g).1.m_valueAttrs = g.m_valueAttrs := by
  rcases hr : dispatchParsers sub (t :: rest) 0 g.m_optionSet g.m_parsers with ⟨ps, os, o⟩
  cases o with
  | returned n =>
    cases n with
    | zero =>
      simp only [dispatchGroup, hr]
      exact dispatchAttrs_valueAttrs_dash _ t rest hdash
    | succ n => simp [dispatchGroup, hr]
  | thrown e => simp [dispatchGroup, hr]
  | noFuel => simp [dispatchGroup, hr]

/-- C13.  For a token `t` that begins with the glue character, the dispatch in
a group leaves the value-only arguments of the group as they are, whatever the
outcome, and so does the pass over all groups of a command.  When `t` is the
token at index `argNum` and, in every group of the command, no sub-command
consumes it, no key-value argument and no flag matches it and the glue
treatment does not apply, the parse throws `UnrecognizedArgException` with
`argNum` and changes nothing, whether or not unset positionals remain. -/
theorem glue_prefixed_never_positional (fuel : Nat) (argv : List String) (steps argNum : Nat)
    (gs : List ArgGroup) (t : String) (rest : List String)
    (htok : argv.drop argNum = t :: rest) (hdash : charAt t 0 = GLUE_CHAR) :
    (∀ (sub : Parser → List String → Parser × Outcome) (g : ArgGroup),
        (dispatchGroup sub (t :: rest) g).1.m_valueAttrs = g.m_valueAttrs)
    ∧ (∀ (sub : Parser → List String → Parser × Outcome) (hs : List ArgGroup),
        (dispatchGroups sub (t :: rest) hs).1.map (fun g => g.m_valueAttrs)
          = hs.map (fun g => g.m_valueAttrs))
    ∧ ((∀ g ∈ gs,
          (∀ p ∈ g.m_parsers, catchUnrecognized (parseAux fuel p (t :: rest)).2 = .returned 0)
          ∧ (∀ k ∈ g.m_keyValueAttrs, keyPart t ∉ k.m_aliases)
          ∧ (∀ k ∈ g.m_keyAttrs, t ∉ k.m_aliases)
          ∧ g.gluedKeyArgs t = false) →
        parseFrom (parseAux fuel) argv (steps + 1) argNum gs
          = (gs, .thrown (.unrecognizedArg argNum))) := by
  refine ⟨?_, ?_, ?_⟩
  · intro sub g
    exact dispatchGroup_valueAttrs_dash sub g t rest hdash
  · intro sub hs
    unfold dispatchGroups
    exact matchFirst_preserves _ _ _
      (fun g => dispatchGroup_valueAttrs_dash sub g t rest hdash) hs
  · intro h
    have hlt : argNum < argv.length := by
      by_contra hge
      rw [List.drop_eq_nil_of_le (by omega)] at htok
      cases htok
    have hgs : dispatchGroups (parseAux fuel) (t :: rest) gs = (gs, .returned 0) := by
      unfold dispatchGroups
      apply matchFirst_all_zero
      intro g hg
      obtain ⟨hc, hkv, hf, hgl⟩ := h g hg
      exact dispatchGroup_no_match fuel g t rest hdash hc hkv hf hgl
    simp [parseFrom, hlt, htok, hgs]

/-- C13, on the sub-command `rename` of `example.cpp` with the tokens
`rename -x`: both positionals are unset, yet `-x` is not stored in one of them
and the parse throws `UnrecognizedArgException` with index 1. -/
theorem glue_prefixed_never_positional_witness :
    (Parser.parse (.mk (.key Example.renameArg) [{}, Example.renameArgsGroup])
        ["rename", "-x"]).2 = .thrown (.unrecognizedArg 1)
    ∧ parseFrom (parseAux 2) ["rename", "-x"] 3 1 [{}, Example.renameArgsGroup]
      = ([{}, Example.renameArgsGroup], .thrown (.unrecognizedArg 1)) :=
  ⟨by decide,
    (glue_prefixed_never_positional 2 ["rename", "-x"] 2 1 [{}, Example.renameArgsGroup] "-x" []
      rfl (by decide)).2.2
      (by
        intro g hg
        simp only [List.mem_cons, List.mem_singleton, List.not_mem_nil, or_false] at hg
        rcases hg with rfl | rfl
        · exact ⟨(by intro p hp; cases hp), (by intro k hk; cases hk),
            (by intro k hk; cases hk), (by decide)⟩
        · exact ⟨(by intro p hp; cases hp), (by intro k hk; cases hk),
            (by intro k hk; cases hk), (by decide)⟩)⟩

/-! ## The effective value -/

theorem keyValueArg_match_assign (k : KeyValueArg) (a v : String) (rest : List String)
    (ha : a ∈ k.m_aliases) (hnoeq : '=' ∉ a.data) :
    k.match_ ((a ++ "=" ++ v) :: rest) = ((k.setValue v).1, Outcome.ofVoid (k.setValue v).2 1) := by
  have hpos : find_first_of (a.data ++ '=' :: v.data) '=' = some a.length :=
    find_first_of_append a.data v.data '=' hnoeq
  have harg : substrTo (a ++ "=" ++ v) a.length = a := by
    show (⟨(a ++ "=" ++ v).data.take a.data.length⟩ : String) = a
    simp [String.data_append]
  have hval : substrFrom (a ++ "=" ++ v) (a.length + 1) = v := by
    have hd : (a ++ "=" ++ v).data = a.data ++ '=' :: v.data := by
      simp [String.data_append]
    show (⟨(a ++ "=" ++ v).data.drop (a.data.length + 1)⟩ : String) = v
    simp [hd, List.drop_append_eq_append_drop, List.drop_eq_nil_of_le]
  simp [KeyValueArg.match_, hpos, harg, hval, ha]

theorem valueArg_value_eq (p : ValueArg) :
    p.value = if p.m_value = "" then p.m_defaultValue else p.m_value := by
  unfold ValueArg.value
  by_cases h : p.m_value = ""
  · have he : ("" : String).isEmpty = true := rfl
    simp [h, he]
  · have : p.m_value.isEmpty = false := by
      cases hb : p.m_value.isEmpty with
      | false => rfl
      | true => exact absurd ((String.isEmpty_iff _).1 hb) h
    simp [h, this]

theorem keyValueArg_value_eq (k : KeyValueArg) :
    k.value = if k.m_value = "" then k.m_defaultValue else k.m_value := by
  unfold KeyValueArg.value
  by_cases h : k.m_value = ""
  · have he : ("" : String).isEmpty = true := rfl
    simp [h, he]
  · have : k.m_value.isEmpty = false := by
      cases hb : k.m_value.isEmpty with
      | false => rfl
      | true => exact absurd ((String.isEmpty_iff _).1 hb) h
    simp [h, this]

/-- C15 (as amended).  `value()` of a value-only or key-value argument returns
the stored string when that string is not empty and `defaultValue` when it is
empty.  So an argument that was never written returns `defaultValue`; after a
successful match of `a=v` (or of the positional token `v`) on an unset
argument, `value()` is `v` when `v` is not empty and is `defaultValue` when `v`
is the empty string, although the argument is then set. -/
theorem effective_value :
    (∀ p : ValueArg, p.value = if p.m_value = "" then p.m_defaultValue else p.m_value)
    ∧ (∀ k : KeyValueArg, k.value = if k.m_value = "" then k.m_defaultValue else k.m_value)
    ∧ (∀ (k : KeyValueArg) (a v : String) (rest : List String), k.m_set = false →
        a ∈ k.m_aliases → '=' ∉ a.data →
        (k.match_ ((a ++ "=" ++ v) :: rest)).1.m_set = true
        ∧ (k.match_ ((a ++ "=" ++ v) :: rest)).1.m_value = v
        ∧ (k.match_ ((a ++ "=" ++ v) :: rest)).1.value = if v = "" then k.m_defaultValue else v)
    ∧ (∀ (p : ValueArg) (v : String) (rest : List String), p.m_set = false →
        (p.match_ (v :: rest)).1.m_set = true
        ∧ (p.match_ (v :: rest)).1.m_value = v
        ∧ (p.match_ (v :: rest)).1.value = if v = "" then p.m_defaultValue else v) := by
  refine ⟨valueArg_value_eq, keyValueArg_value_eq, ?_, ?_⟩
  · intro k a v rest hs ha hnoeq
    rw [keyValueArg_match_assign k a v rest ha hnoeq, keyValueArg_setValue_unset k v hs]
    refine ⟨rfl, rfl, ?_⟩
    rw [keyValueArg_value_eq]
  · intro p v rest hs
    rw [valueArg_match_unset p v rest hs]
    refine ⟨rfl, rfl, ?_⟩
    rw [valueArg_value_eq]

/-- C15 (as amended), on `pNameArg` of `example.cpp` (default `Cheops`): after
`pname=Giza` the value is `Giza`. -/
theorem effective_value_witness :
    (Example.pNameArg.match_ ["pname=Giza"]).1.m_set = true
    ∧ (Example.pNameArg.match_ ["pname=Giza"]).1.m_value = "Giza"
    ∧ (Example.pNameArg.match_ ["pname=Giza"]).1.value = "Giza" :=
  effective_value.2.2.1 Example.pNameArg "pname" "Giza" [] rfl (by decide) (by decide)

/-- C15 fails as stated for an empty stored value.  On `pNameArg` of
`example.cpp` (default `Cheops`) the token `pname=` sets the argument and
stores the empty string, and `value()` then returns `Cheops`, not the stored
value.  The same holds for a positional with default `d` and the empty token. -/
theorem effective_value_counterexample :
    ((Example.pNameArg.match_ ["pname="]).2 = .returned 1
      ∧ (Example.pNameArg.match_ ["pname="]).1.m_set = true
      ∧ (Example.pNameArg.match_ ["pname="]).1.m_value = ""
      ∧ (Example.pNameArg.match_ ["pname="]).1.value = "Cheops")
    ∧ ((((ValueArg.new "x" "").setDefaultValue "d").match_ [""]).2 = .returned 1
      ∧ (((ValueArg.new "x" "").setDefaultValue "d").match_ [""]).1.m_set = true
      ∧ (((ValueArg.new "x" "").setDefaultValue "d").match_ [""]).1.m_value = ""
      ∧ (((ValueArg.new "x" "").setDefaultValue "d").match_ [""]).1.value = "d") := by
  decide

/-! ## The order of the steps of the dispatch -/

theorem matchFirst_zero_unchanged {α : Type} (m : α → List String → α × Outcome)
    (argv : List String) (hm : ∀ x, (m x argv).2 = .returned 0 → (m x argv).1 = x)
    (xs : List α) (h : (matchFirst m argv xs).2 = .returned 0) :
    (matchFirst m argv xs).1 = xs := by
  induction xs with
  | nil => rfl
  | cons x xs ih =>
    have hx := hm x
    rcases hr : m x argv with ⟨x1, o⟩
    rw [hr] at hx
    cases o with
    | returned n =>
      cases n with
      | zero =>
        have h1 : x1 = x := hx rfl
        simp only [matchFirst, hr] at h ⊢
        rw [ih h, h1]
      | succ n => simp [matchFirst, hr] at h
    | thrown e => simp [matchFirst, hr] at h
    | noFuel => simp [matchFirst, hr] at h

theorem matchFirst_ne_zero {α : Type} (m : α → List String → α × Outcome)
    (argv : List String) (xs : List α) (h : ∃ x ∈ xs, (m x argv).2 ≠ .returned 0) :
    (matchFirst m argv xs).2 ≠ .returned 0 := by
  induction xs with
  | nil => obtain ⟨x, hx, _⟩ := h; cases hx
  | cons y ys ih =>
    rcases hr : m y argv with ⟨y1, o⟩
    cases o with
    | returned n =>
      cases n with
      | zero =>
        obtain ⟨x, hx, hne⟩ := h
        have hx2 : x ∈ ys := by
          rcases List.mem_cons.1 hx with rfl | hx2
          · rw [hr] at hne; exact absurd rfl hne
          · exact hx2
        simpa [matchFirst, hr] using ih ⟨x, hx2, hne⟩
      | succ n => simp [matchFirst, hr]
    | thrown e => simp [matchFirst, hr]
    | noFuel => simp [matchFirst, hr]

theorem keyArg_match_ne_zero (k : KeyArg) (t : String) (rest : List String)
    (h : t ∈ k.m_aliases) : (k.match_ (t :: rest)).2 ≠ .returned 0 := by
  have := ofVoid_succ_ne k.toArg.markSet.2 0
  simpa [KeyArg.match_, h] using this

theorem keyPart_of_no_assign (t : String) (h : '=' ∉ t.data) : keyPart t = t := by
  simp [keyPart, (find_first_of_eq_none _ _).2 h]

theorem keyValueArg_match_ne_zero (k : KeyValueArg) (t : String) (rest : List String)
    (h : keyPart t ∈ k.m_aliases) : (k.match_ (t :: rest)).2 ≠ .returned 0 := by
  intro hz
  unfold keyPart at h
  cases hp : find_first_of t.data '=' with
  | some p =>
    rw [hp] at h
    have := ofVoid_succ_ne (k.setValue (substrFrom t (p + 1))).2 0
    simp [KeyValueArg.match_, hp, h] at hz
    exact this hz
  | none =>
    rw [hp] at h
    cases rest with
    | nil => simp [KeyValueArg.match_, hp, h] at hz
    | cons a1 rest1 =>
      have := ofVoid_succ_ne (k.setValue a1).2 1
      by_cases hg : charAt a1 0 = GLUE_CHAR
      · simp [KeyValueArg.match_, hp, h, hg] at hz
      · simp [KeyValueArg.match_, hp, h, hg] at hz
        exact this hz

theorem dispatchParsers_zero_unchanged (fuel : Nat) (argv : List String)
    (optionSet : Option Nat) (ps : List Parser) (i : Nat)
    (h : (dispatchParsers (parseAux fuel) argv i optionSet ps).2.2 = .returned 0) :
    dispatchParsers (parseAux fuel) argv i optionSet ps = (ps, optionSet, .returned 0) := by
  induction ps generalizing i with
  | nil => rfl
  | cons c cs ih =>
    rcases hr : parseAux fuel c argv with ⟨c1, o⟩
    cases hco : catchUnrecognized o with
    | returned n =>
      cases n with
      | zero =>
        have hc : (parseAux fuel c argv).1 = c :=
          parseAux_zero_unchanged fuel c argv (by rw [hr]; exact hco)
        rw [hr] at hc
        simp only [dispatchParsers, hr, hco] at h ⊢
        rw [ih (i + 1) h]
        simp only at hc
        rw [hc]
      | succ n =>
        exfalso
        simp only [dispatchParsers, hr, hco] at h
        split at h
        · split at h <;> simp at h
        · simp at h
    | thrown e => simp [dispatchParsers, hr, hco] at h
    | noFuel => simp [dispatchParsers, hr, hco] at h

theorem dispatchParsers_stop (sub : Parser → List String → Parser × Outcome)
    (argv : List String) (i : Nat) (optionSet : Option Nat) (b : Parser) (qs : List Parser)
    (h : catchUnrecognized (sub b argv).2 ≠ .returned 0) :
    (dispatchParsers sub argv i optionSet (b :: qs)).1 = (sub b argv).1 :: qs := by
  rcases hr : sub b argv with ⟨b1, o⟩
  rw [hr] at h
  cases hco : catchUnrecognized o with
  | returned n =>
    cases n with
    | zero => exact absurd hco h
    | succ n =>
      simp only [dispatchParsers, hr, hco]
      split
      · split <;> rfl
      · rfl
  | thrown e => simp [dispatchParsers, hr, hco]
  | noFuel => simp [dispatchParsers, hr, hco]

theorem dispatchGroup_of_cmds (sub : Parser → List String → Parser × Outcome)
    (argv : List String) (g : ArgGroup)
    (h : (dispatchParsers sub argv 0 g.m_optionSet g.m_parsers).2.2 ≠ .returned 0) :
    dispatchGroup sub argv g
      = ({ g with
            m_parsers := (dispatchParsers sub argv 0 g.m_optionSet g.m_parsers).1
            m_optionSet := (dispatchParsers sub argv 0 g.m_optionSet g.m_parsers).2.1 },
          (dispatchParsers sub argv 0 g.m_optionSet g.m_parsers).2.2) := by
  rcases hr : dispatchParsers sub argv 0 g.m_optionSet g.m_parsers with ⟨ps, os, o⟩
  rw [hr] at h
  cases o with
  | returned n =>
    cases n with
    | zero => exact absurd rfl h
    | succ n => simp [dispatchGroup, hr]
  | thrown e => simp [dispatchGroup, hr]
  | noFuel => simp [dispatchGroup, hr]

theorem dispatchGroup_of_no_cmd (fuel : Nat) (argv : List String) (g : ArgGroup)
    (h : (dispatchParsers (parseAux fuel) argv 0 g.m_optionSet g.m_parsers).2.2 = .returned 0) :
    dispatchGroup (parseAux fuel) argv g = dispatchAttrs argv g := by
  have := dispatchParsers_zero_unchanged fuel argv g.m_optionSet g.m_parsers 0 h
  simp only [dispatchGroup, this]

theorem dispatchAttrs_of_keyValue (argv : List String) (g : ArgGroup)
    (h : (matchFirst KeyValueArg.match_ argv g.m_keyValueAttrs).2 ≠ .returned 0) :
    dispatchAttrs argv g
      = ({ g with m_keyValueAttrs := (matchFirst KeyValueArg.match_ argv g.m_keyValueAttrs).1 },
          (matchFirst KeyValueArg.match_ argv g.m_keyValueAttrs).2) := by
  rcases hr : matchFirst KeyValueArg.match_ argv g.m_keyValueAttrs with ⟨kvs, o⟩
  rw [hr] at h
  cases o with
  | returned n =>
    cases n with
    | zero => exact absurd rfl h
    | succ n => simp [dispatchAttrs, hr]
  | thrown e => simp [dispatchAttrs, hr]
  | noFuel => simp [dispatchAttrs, hr]

theorem dispatchAttrs_of_key (argv : List String) (g : ArgGroup)
    (hkv : (matchFirst KeyValueArg.match_ argv g.m_keyValueAttrs).2 = .returned 0)
    (h : (matchFirst KeyArg.match_ argv g.m_keyAttrs).2 ≠ .returned 0) :
    dispatchAttrs argv g
      = ({ g with m_keyAttrs := (matchFirst KeyArg.match_ argv g.m_keyAttrs).1 },
          (matchFirst KeyArg.match_ argv g.m_keyAttrs).2) := by
  have hkv1 := matchFirst_zero_unchanged KeyValueArg.match_ argv
    (fun x hx => keyValueArg_match_zero x argv hx) g.m_keyValueAttrs hkv
  rcases hr1 : matchFirst KeyValueArg.match_ argv g.m_keyValueAttrs with ⟨kvs, o1⟩
  rw [hr1] at hkv hkv1
  simp only at hkv hkv1
  subst hkv hkv1
  rcases hr : matchFirst KeyArg.match_ argv g.m_keyAttrs with ⟨ks, o⟩
  rw [hr] at h
  cases o with
  | returned n =>
    cases n with
    | zero => exact absurd rfl h
    | succ n => simp [dispatchAttrs, hr1, hr]
  | thrown e => simp [dispatchAttrs, hr1, hr]
  | noFuel => simp [dispatchAttrs, hr1, hr]

theorem dispatchAttrs_of_no_key (argv : List String) (g : ArgGroup)
    (hkv : (matchFirst KeyValueArg.match_ argv g.m_keyValueAttrs).2 = .returned 0)
    (hk : (matchFirst KeyArg.match_ argv g.m_keyAttrs).2 = .returned 0) :
    dispatchAttrs argv g = dispatchGlueValue argv g := by
  have hkv1 := matchFirst_zero_unchanged KeyValueArg.match_ argv
    (fun x hx => keyValueArg_match_zero x argv hx) g.m_keyValueAttrs hkv
  have hk1 := matchFirst_zero_unchanged KeyArg.match_ argv
    (fun x hx => keyArg_match_zero x argv hx) g.m_keyAttrs hk
  rcases hr1 : matchFirst KeyValueArg.match_ argv g.m_keyValueAttrs with ⟨kvs, o1⟩
  rcases hr2 : matchFirst KeyArg.match_ argv g.m_keyAttrs with ⟨ks, o2⟩
  rw [hr1] at hkv hkv1
  rw [hr2] at hk hk1
  simp only at hkv hkv1 hk hk1
  subst hkv hkv1 hk hk1
  simp only [dispatchAttrs, hr1, hr2]

/-- C16 (as amended).  The dispatch of the token `t` in a group tries the
steps in the order sub-commands, key-value arguments, flags, glue treatment,
positionals; a step is reached only when every earlier step consumed nothing,
and the step that consumes (or throws) leaves the arguments of the later steps
as they are.  Within a step the candidates are tried in declaration order and
the first that consumes wins; the candidates after it are untouched.  In
particular, when no sub-command consumes `t`, a token `t` without `=` that is
an alias of a key-value argument of the group is handled by the key-value step
even if it is also a flag alias, and a token that is a flag alias is never
given the glue treatment nor stored in a positional. -/
theorem dispatch_priority (fuel : Nat) (g : ArgGroup) (t : String) (rest : List String) :
    ((dispatchParsers (parseAux fuel) (t :: rest) 0 g.m_optionSet g.m_parsers).2.2 ≠ .returned 0 →
      dispatchGroup (parseAux fuel) (t :: rest) g
        = ({ g with
              m_parsers := (dispatchParsers (parseAux fuel) (t :: rest) 0 g.m_optionSet
                g.m_parsers).1
              m_optionSet := (dispatchParsers (parseAux fuel) (t :: rest) 0 g.m_optionSet
                g.m_parsers).2.1 },
            (dispatchParsers (parseAux fuel) (t :: rest) 0 g.m_optionSet g.m_parsers).2.2))
    ∧ ((dispatchParsers (parseAux fuel) (t :: rest) 0 g.m_optionSet g.m_parsers).2.2 = .returned 0 →
        (matchFirst KeyValueArg.match_ (t :: rest) g.m_keyValueAttrs).2 ≠ .returned 0 →
        dispatchGroup (parseAux fuel) (t :: rest) g
          = ({ g with
                m_keyValueAttrs := (matchFirst KeyValueArg.match_ (t :: rest) g.m_keyValueAttrs).1 },
              (matchFirst KeyValueArg.match_ (t :: rest) g.m_keyValueAttrs).2))
    ∧ ((dispatchParsers (parseAux fuel) (t :: rest) 0 g.m_optionSet g.m_parsers).2.2 = .returned 0 →
        (matchFirst KeyValueArg.match_ (t :: rest) g.m_keyValueAttrs).2 = .returned 0 →
        (matchFirst KeyArg.match_ (t :: rest) g.m_keyAttrs).2 ≠ .returned 0 →
        dispatchGroup (parseAux fuel) (t :: rest) g
          = ({ g with m_keyAttrs := (matchFirst KeyArg.match_ (t :: rest) g.m_keyAttrs).1 },
              (matchFirst KeyArg.match_ (t :: rest) g.m_keyAttrs).2))
    ∧ ((dispatchParsers (parseAux fuel) (t :: rest) 0 g.m_optionSet g.m_parsers).2.2 = .returned 0 →
        (matchFirst KeyValueArg.match_ (t :: rest) g.m_keyValueAttrs).2 = .returned 0 →
        (matchFirst KeyArg.match_ (t :: rest) g.m_keyAttrs).2 = .returned 0 →
        (g.gluedKeyArgs t = true →
          dispatchGroup (parseAux fuel) (t :: rest) g
            = ({ g with m_keyAttrs := (glueChars (t.data.drop 1) g.m_keyAttrs).1 },
                Outcome.ofVoid (glueChars (t.data.drop 1) g.m_keyAttrs).2 1))
        ∧ (g.gluedKeyArgs t = false → charAt t 0 ≠ GLUE_CHAR →
          dispatchGroup (parseAux fuel) (t :: rest) g
            = ({ g with m_valueAttrs := (matchFirst ValueArg.match_ (t :: rest) g.m_valueAttrs).1 },
                (matchFirst ValueArg.match_ (t :: rest) g.m_valueAttrs).2))
        ∧ (g.gluedKeyArgs t = false → charAt t 0 = GLUE_CHAR →
          dispatchGroup (parseAux fuel) (t :: rest) g = (g, .returned 0)))
    ∧ (∀ (α : Type) (m : α → List String → α × Outcome) (pre pre' post : List α) (x x' : α)
        (o : Outcome), matchFirst m (t :: rest) pre = (pre', .returned 0) →
        m x (t :: rest) = (x', o) → o ≠ .returned 0 →
        matchFirst m (t :: rest) (pre ++ x :: post) = (pre' ++ x' :: post, o))
    ∧ (∀ (ps qs : List Parser) (b : Parser) (i : Nat) (optionSet : Option Nat),
        (∀ c ∈ ps, catchUnrecognized (parseAux fuel c (t :: rest)).2 = .returned 0) →
        catchUnrecognized (parseAux fuel b (t :: rest)).2 ≠ .returned 0 →
        (dispatchParsers (parseAux fuel) (t :: rest) i optionSet (ps ++ b :: qs)).1
          = ps ++ (parseAux fuel b (t :: rest)).1 :: qs)
    ∧ ((dispatchParsers (parseAux fuel) (t :: rest) 0 g.m_optionSet g.m_parsers).2.2 = .returned 0 →
        '=' ∉ t.data → (∃ k ∈ g.m_keyValueAttrs, t ∈ k.m_aliases) →
        (matchFirst KeyValueArg.match_ (t :: rest) g.m_keyValueAttrs).2 ≠ .returned 0
        ∧ dispatchGroup (parseAux fuel) (t :: rest) g
          = ({ g with
                m_keyValueAttrs := (matchFirst KeyValueArg.match_ (t :: rest) g.m_keyValueAttrs).1 },
              (matchFirst KeyValueArg.match_ (t :: rest) g.m_keyValueAttrs).2))
    ∧ ((∃ k ∈ g.m_keyAttrs, t ∈ k.m_aliases) →
        (dispatchGroup (parseAux fuel) (t :: rest) g).1.m_valueAttrs = g.m_valueAttrs
        ∧ ((dispatchGroup (parseAux fuel) (t :: rest) g).1.m_keyAttrs = g.m_keyAttrs
          ∨ (dispatchGroup (parseAux fuel) (t :: rest) g).1.m_keyAttrs
              = (matchFirst KeyArg.match_ (t :: rest) g.m_keyAttrs).1)) := by
  refine ⟨?_, ?_, ?_, ?_, ?_, ?_, ?_, ?_⟩
  · exact dispatchGroup_of_cmds _ _ g
  · intro hp hkv
    rw [dispatchGroup_of_no_cmd fuel _ g hp, dispatchAttrs_of_keyValue _ g hkv]
  · intro hp hkv hk
    rw [dispatchGroup_of_no_cmd fuel _ g hp, dispatchAttrs_of_key _ g hkv hk]
  · intro hp hkv hk
    rw [dispatchGroup_of_no_cmd fuel _ g hp, dispatchAttrs_of_no_key _ g hkv hk]
    refine ⟨?_, ?_, ?_⟩
    · intro hg
      simp [dispatchGlueValue, hg]
    · intro hg hbare
      simp [dispatchGlueValue, hg, hbare]
    · intro hg hdash
      simp [dispatchGlueValue, hg, hdash]
  · intro α m pre pre' post x x' o hpre hx ho
    rw [matchFirst_append_zero _ _ _ _ _ hpre, matchFirst_cons_stop _ _ x _ post _ hx ho]
  · intro ps qs b i optionSet hzero hb
    have hmap : (ps.map fun c => (parseAux fuel c (t :: rest)).1) = ps := by
      conv_rhs => rw [← List.map_id ps]
      exact List.map_congr_left
        fun c hc => parseAux_zero_unchanged fuel c (t :: rest) (hzero c hc)
    rw [dispatchParsers_append_zero _ _ _ _ _ _ hzero, dispatchParsers_stop _ _ _ _ _ _ hb, hmap]
  · intro hp hnoeq ⟨k, hk, hkt⟩
    have hkv : (matchFirst KeyValueArg.match_ (t :: rest) g.m_keyValueAttrs).2 ≠ .returned 0 :=
      matchFirst_ne_zero _ _ _
        ⟨k, hk, keyValueArg_match_ne_zero k t rest (by rw [keyPart_of_no_assign t hnoeq]; exact hkt)⟩
    refine ⟨hkv, ?_⟩
    rw [dispatchGroup_of_no_cmd fuel _ g hp, dispatchAttrs_of_keyValue _ g hkv]
  · intro ⟨k, hk, hkt⟩
    have hkne : (matchFirst KeyArg.match_ (t :: rest) g.m_keyAttrs).2 ≠ .returned 0 :=
      matchFirst_ne_zero _ _ _ ⟨k, hk, keyArg_match_ne_zero k t rest hkt⟩
    by_cases hp : (dispatchParsers (parseAux fuel) (t :: rest) 0 g.m_optionSet g.m_parsers).2.2
        = .returned 0
    · by_cases hkv : (matchFirst KeyValueArg.match_ (t :: rest) g.m_keyValueAttrs).2 = .returned 0
      · rw [dispatchGroup_of_no_cmd fuel _ g hp, dispatchAttrs_of_key _ g hkv hkne]
        exact ⟨rfl, Or.inr rfl⟩
      · rw [dispatchGroup_of_no_cmd fuel _ g hp, dispatchAttrs_of_keyValue _ g hkv]
        exact ⟨rfl, Or.inl rfl⟩
    · rw [dispatchGroup_of_cmds _ _ g hp]
      exact ⟨rfl, Or.inl rfl⟩

/-- C16 (as amended), on a group whose key-value argument and flag share the
alias `--opt`: the tokens `--opt 5` are taken by the key-value argument (value
`5`, advance 2) and the flag stays unset. -/
theorem dispatch_priority_witness :
    dispatchGroup (parseAux 1) ["--opt", "5"] Inputs.sameAlias
      = ({ Inputs.sameAlias with
            m_keyValueAttrs := [{ KeyValueArg.new "--opt" "n" "" with m_set := true, m_value := "5" }] },
          .returned 2) :=
  ((dispatch_priority 1 Inputs.sameAlias "--opt" ["5"]).2.2.2.2.2.2.1 rfl (by decide)
    ⟨KeyValueArg.new "--opt" "n" "", by decide, by decide⟩).2

/-- C16 fails as stated when the shared alias holds a `=`: with the alias `a=b`
on both a key-value argument and a flag of the group, the key-value step
compares the part `a` before the `=` and consumes nothing, and the token `a=b`
is handled by the flag. -/
theorem dispatch_priority_counterexample :
    (∃ k ∈ Inputs.sameAliasWithAssign.m_keyValueAttrs, "a=b" ∈ k.m_aliases)
    ∧ (∃ k ∈ Inputs.sameAliasWithAssign.m_keyAttrs, "a=b" ∈ k.m_aliases)
    ∧ (dispatchGroup (parseAux 1) ["a=b"] Inputs.sameAliasWithAssign).2 = .returned 1
    ∧ (dispatchGroup (parseAux 1) ["a=b"] Inputs.sameAliasWithAssign).1.m_keyValueAttrs
        = Inputs.sameAliasWithAssign.m_keyValueAttrs
    ∧ (dispatchGroup (parseAux 1) ["a=b"] Inputs.sameAliasWithAssign).1.m_keyAttrs
        = [{ KeyArg.new "a=b" "" with m_set := true }] := by
  decide

/-! ## `UnrecognizedArgException` and its index -/

theorem keyArg_parse_mismatch (fuel : Nat) (k : KeyArg) (gs : List ArgGroup) (t : String)
    (rest : List String) (h : t ∉ k.m_aliases) :
    parseAux (fuel + 1) (.mk (.key k) gs) (t :: rest)
      = (.mk (.key k) gs, .thrown (.unrecognizedArg 0)) := by
  simp [parseAux, AnyArg.match_, keyArg_match_of_not_mem k t rest h]

theorem keyValueArg_parse_mismatch (fuel : Nat) (k : KeyValueArg) (gs : List ArgGroup)
    (t : String) (rest : List String) (h : keyPart t ∉ k.m_aliases) :
    parseAux (fuel + 1) (.mk (.keyValue k) gs) (t :: rest)
      = (.mk (.keyValue k) gs, .thrown (.unrecognizedArg 0)) := by
  simp [parseAux, AnyArg.match_, keyValueArg_match_of_not_mem k t rest h]

/-- C17.  When token 0 of the slice matches no alias of a flag discriminator
(or, for a key-value discriminator, its part before the first `=` matches no
alias), `Parser::parse` throws `UnrecognizedArgException` with index 0 and the
command is left exactly as it was.  The loop over the sub-commands of the
parent takes this as an advance of 0: the option recorded by the group is
unchanged and the loop goes on with the next sub-command. -/
theorem discriminator_mismatch (fuel : Nat) (gs : List ArgGroup) (t : String)
    (rest : List String) :
    (∀ k : KeyArg, t ∉ k.m_aliases →
      parseAux (fuel + 1) (.mk (.key k) gs) (t :: rest)
        = (.mk (.key k) gs, .thrown (.unrecognizedArg 0)))
    ∧ (∀ k : KeyValueArg, keyPart t ∉ k.m_aliases →
      parseAux (fuel + 1) (.mk (.keyValue k) gs) (t :: rest)
        = (.mk (.keyValue k) gs, .thrown (.unrecognizedArg 0)))
    ∧ (∀ (p : Parser) (ps : List Parser) (i : Nat) (optionSet : Option Nat),
        parseAux (fuel + 1) p (t :: rest) = (p, .thrown (.unrecognizedArg 0)) →
        dispatchParsers (parseAux (fuel + 1)) (t :: rest) i optionSet (p :: ps)
          = (p :: (dispatchParsers (parseAux (fuel + 1)) (t :: rest) (i + 1) optionSet ps).1,
              (dispatchParsers (parseAux (fuel + 1)) (t :: rest) (i + 1) optionSet ps).2.1,
              (dispatchParsers (parseAux (fuel + 1)) (t :: rest) (i + 1) optionSet ps).2.2)) := by
  refine ⟨?_, ?_, ?_⟩
  · intro k h
    exact keyArg_parse_mismatch fuel k gs t rest h
  · intro k h
    exact keyValueArg_parse_mismatch fuel k gs t rest h
  · intro p ps i optionSet h
    simp [dispatchParsers, h, catchUnrecognized]

/-- C17, on the sub-commands of `example.cpp` with the token `build`: `init`,
`employ` and `rename` do not match and are skipped unchanged, `build` is set
and recorded as the option (position 3). -/
theorem discriminator_mismatch_witness :
    parseAux 1 (.mk (.key Example.initArg) [{}, Example.pyramidArgsGroup]) ["build"]
      = (.mk (.key Example.initArg) [{}, Example.pyramidArgsGroup], .thrown (.unrecognizedArg 0))
    ∧ (dispatchParsers (parseAux 1) ["build"] 0 none Example.subCmds).2
      = (some 3, .returned 1) :=
  ⟨(discriminator_mismatch 0 [{}, Example.pyramidArgsGroup] "build" []).1 Example.initArg
      (by decide), by decide⟩

theorem loopReaches_le (sub : Parser → List String → Parser × Outcome) (argv : List String)
    (n m : Nat) (gs gsm : List ArgGroup) (h : LoopReaches sub argv n gs m gsm) : n ≤ m := by
  induction h with
  | here n gs => exact Nat.le_refl n
  | step n gs adv gs1 m gsm _ _ _ ih => omega

theorem parseFrom_unrecognized (sub : Parser → List String → Parser × Outcome)
    (argv : List String) :
    ∀ (steps argNum : Nat) (gs gs' : List ArgGroup) (i : Nat),
      parseFrom sub argv steps argNum gs = (gs', .thrown (.unrecognizedArg i)) →
      ∃ gsi, LoopReaches sub argv argNum gs i gsi ∧ i < argv.length
        ∧ dispatchGroups sub (argv.drop i) gsi = (gs', .returned 0) := by
  intro steps
  induction steps with
  | zero => intro argNum gs gs' i h; simp [parseFrom] at h
  | succ steps ih =>
    intro argNum gs gs' i h
    by_cases hlt : argNum < argv.length
    · have hp := dispatchGroups_plain sub (argv.drop argNum) gs
      rcases hd : dispatchGroups sub (argv.drop argNum) gs with ⟨gs1, o⟩
      rw [hd] at hp
      cases o with
      | returned adv =>
        cases adv with
        | zero =>
          simp only [parseFrom, hlt, hd, if_true] at h
          cases h
          exact ⟨gs, LoopReaches.here _ _, hlt, hd⟩
        | succ adv =>
          simp only [parseFrom, hlt, hd, if_true] at h
          obtain ⟨gsi, hr, hi, hdi⟩ := ih _ _ _ _ h
          exact ⟨gsi, LoopReaches.step _ _ adv gs1 _ _ hlt hd hr, hi, hdi⟩
      | thrown e =>
        simp only [parseFrom, hlt, hd, if_true] at h
        cases h
        exact absurd rfl (hp i)
      | noFuel => simp [parseFrom, hlt, hd] at h
    · by_cases hv : gs.all validGroup = true
      · simp [parseFrom, hlt, validate, hv] at h
      · simp [parseFrom, hlt, validate, hv] at h

/-- C18.  In the loop of `Parser::parse`, a pass over all groups at the index
`argNum` that consumes nothing makes the parse throw `UnrecognizedArgException`
with exactly `argNum`.  Conversely, when the parse of a command throws
`UnrecognizedArgException` with an index `i` other than 0, the discriminator
matched (consuming `k + 1` tokens), the loop went from `k + 1` to `i` by
iterations that each consumed what they advanced, `1 ≤ i < argc`, and the pass
over the groups at `i` consumed nothing. -/
theorem unrecognized_index (fuel : Nat) (argv : List String) :
    (∀ (steps argNum : Nat) (gs gs' : List ArgGroup), argNum < argv.length →
      dispatchGroups (parseAux fuel) (argv.drop argNum) gs = (gs', .returned 0) →
      parseFrom (parseAux fuel) argv (steps + 1) argNum gs
        = (gs', .thrown (.unrecognizedArg argNum)))
    ∧ (∀ (cmd : AnyArg) (gs : List ArgGroup) (p' : Parser) (i : Nat),
        parseAux (fuel + 1) (.mk cmd gs) argv = (p', .thrown (.unrecognizedArg i)) → i ≠ 0 →
        ∃ (cmd' : AnyArg) (k : Nat) (gsi gs' : List ArgGroup),
          cmd.match_ argv = (cmd', .returned (k + 1))
          ∧ LoopReaches (parseAux fuel) argv (k + 1) gs i gsi
          ∧ 1 ≤ i ∧ i < argv.length
          ∧ dispatchGroups (parseAux fuel) (argv.drop i) gsi = (gs', .returned 0)
          ∧ p' = .mk cmd' gs') := by
  constructor
  · intro steps argNum gs gs' hlt hd
    simp [parseFrom, hlt, hd]
  · intro cmd gs p' i h hi
    have hpl : (cmd.match_ argv).2.plain := by
      cases cmd with
      | value v => simpa [AnyArg.match_] using valueArg_match_plain v argv
      | key k => simpa [AnyArg.match_] using keyArg_match_plain k argv
      | keyValue k => simpa [AnyArg.match_] using keyValueArg_match_plain k argv
    rcases hm : cmd.match_ argv with ⟨cmd', o⟩
    rw [hm] at hpl
    cases o with
    | returned k =>
      cases k with
      | zero =>
        simp only [parseAux, hm] at h
        cases h
        exact absurd rfl hi
      | succ k =>
        rcases hl : parseFrom (parseAux fuel) argv (argv.length + 1) (k + 1) gs with ⟨gs', o'⟩
        simp only [parseAux, hm, hl] at h
        cases h
        obtain ⟨gsi, hr, hlen, hdi⟩ := parseFrom_unrecognized _ _ _ _ _ _ _ hl
        have hle := loopReaches_le _ _ _ _ _ _ hr
        exact ⟨cmd', k, gsi, gs', rfl, hr, by omega, hlen, hdi, rfl⟩
    | thrown e =>
      simp only [parseAux, hm] at h
      cases h
      exact absurd rfl (hpl i)
    | noFuel => simp [parseAux, hm] at h

/-- C18, on the root `prog` with the flags `-v` and `-x`: in `prog -v -vy` the
pass at index 2 consumes nothing and the parse throws with index 2. -/
theorem unrecognized_index_witness :
    (Parser.parse (.mk (.key (KeyArg.new "prog" "")) [Inputs.flagsVX]) ["prog", "-v", "-vy"]).2
      = .thrown (.unrecognizedArg 2)
    ∧ parseFrom (parseAux 3) ["prog", "-v", "-vy"] 3 2
        [{ m_keyAttrs := [{ KeyArg.new "-v" "" with m_set := true }, KeyArg.new "-x" ""] }]
      = ([{ m_keyAttrs := [{ KeyArg.new "-v" "" with m_set := true }, KeyArg.new "-x" ""] }],
          .thrown (.unrecognizedArg 2)) :=
  ⟨by decide,
    (unrecognized_index 3 ["prog", "-v", "-vy"]).1 2 2 _ _ (by decide) rfl⟩

/-! ## The synopsis of a group -/

theorem join_cons (a : String) (l : List String) : String.join (a :: l) = a ++ String.join l := by
  apply String.ext
  simp [String.data_join, String.data_append]

theorem join_nil : String.join [] = "" := rfl

theorem isEmpty_eq_decide (s : String) : s.isEmpty = decide (s = "") := by
  by_cases h : s = ""
  · subst h; rfl
  · cases hb : s.isEmpty with
    | false => simp [h]
    | true => exact absurd ((String.isEmpty_iff _).1 hb) h

theorem keyValueAttrsSynopsis_eq (kvs : List KeyValueArg) (r o : String) :
    keyValueAttrsSynopsis kvs (r, o)
      = (r ++ String.join ((kvs.filter fun k => k.m_required).map fun k => " " ++ k.synopsis),
          o ++ String.join ((kvs.filter fun k => !k.m_required).map fun k =>
            " [" ++ k.synopsis ++ "]")) := by
  induction kvs generalizing r o with
  | nil => simp [keyValueAttrsSynopsis, join_nil]
  | cons k ks ih =>
    cases h : k.m_required <;>
      simp [keyValueAttrsSynopsis, h, ih, join_cons, String.append_assoc]

theorem valueAttrsSynopsis_eq (vs : List ValueArg) (r o : String) :
    valueAttrsSynopsis vs (r, o)
      = (r ++ String.join ((vs.filter fun v => v.m_required).map fun v => " " ++ v.synopsis),
          o ++ String.join ((vs.filter fun v => !v.m_required).map fun v =>
            " [" ++ v.synopsis ++ "]")) := by
  induction vs generalizing r o with
  | nil => simp [valueAttrsSynopsis, join_nil]
  | cons v vs ih =>
    cases h : v.m_required <;>
      simp [valueAttrsSynopsis, h, ih, join_cons, String.append_assoc]

mutual

theorem parser_synopsis_indep : ∀ (p : Parser) (l1 l2 : Table),
    (p.synopsis l1).1 = (p.synopsis l2).1
  | .mk cmd gs, l1, l2 => by
    simp only [Parser.synopsis]
    exact synopsisGroups_indep gs cmd.synopsis l1 l2

theorem synopsisGroups_indep : ∀ (gs : List (ArgGroupOf Parser)) (r : String) (l1 l2 : Table),
    (synopsisGroups gs r l1).1 = (synopsisGroups gs r l2).1
  | [], r, l1, l2 => by simp [synopsisGroups]
  | g :: gs, r, l1, l2 => by
    have hg := group_synopsis_indep g l1 l2
    simp only [synopsisGroups]
    split
    · rw [hg]
      exact synopsisGroups_indep gs _ _ _
    · split <;> split <;> exact synopsisGroups_indep gs _ _ _

theorem group_synopsis_indep : ∀ (g : ArgGroupOf Parser) (l1 l2 : Table),
    (g.synopsis l1).1 = (g.synopsis l2).1
  | ⟨_, optionRequired, _, ps, vs, ks, kvs, _⟩, l1, l2 => by
    simp only [ArgGroupOf.synopsis]
    rw [synopsisRequiredCmds_indep ps "" l1 l2,
      synopsisOptionalCmds_indep ps "" (synopsisRequiredCmds ps "" l1).2
        (synopsisRequiredCmds ps "" l2).2]

theorem synopsisRequiredCmds_indep : ∀ (ps : List Parser) (acc : String) (l1 l2 : Table),
    (synopsisRequiredCmds ps acc l1).1 = (synopsisRequiredCmds ps acc l2).1
  | [], acc, l1, l2 => by simp [synopsisRequiredCmds]
  | p :: ps, acc, l1, l2 => by
    have hp := parser_synopsis_indep p l1 l2
    simp only [synopsisRequiredCmds]
    split
    · rw [hp]
      exact synopsisRequiredCmds_indep ps _ _ _
    · exact synopsisRequiredCmds_indep ps _ _ _

theorem synopsisOptionalCmds_indep : ∀ (ps : List Parser) (acc : String) (l1 l2 : Table),
    (synopsisOptionalCmds ps acc l1).1 = (synopsisOptionalCmds ps acc l2).1
  | [], acc, l1, l2 => by simp [synopsisOptionalCmds]
  | p :: ps, acc, l1, l2 => by
    have hp := parser_synopsis_indep p l1 l2
    simp only [synopsisOptionalCmds]
    split
    · rw [hp]
      exact synopsisOptionalCmds_indep ps _ _ _
    · exact synopsisOptionalCmds_indep ps _ _ _

end

theorem push_isEmpty (s : String) (c : Char) : (s.push c).isEmpty = false := by
  rw [isEmpty_eq_decide]
  have : s.push c ≠ "" := by
    intro h
    have := congrArg String.data h
    simp at this
  simp [this]

theorem gluedAppend_push (pre acc : String) (c : Char) (cs : List Char) :
    gluedAppend pre ((if acc.isEmpty then acc ++ pre else acc).push c) cs
      = gluedAppend pre acc (c :: cs) := by
  unfold gluedAppend
  rw [push_isEmpty]
  by_cases hcs : cs = []
  · subst hcs
    apply String.ext
    simp [String.data_append]
  · apply String.ext
    simp [hcs, String.data_append]

theorem keyAttrsSynopsis_eq (ks : List KeyArg) (rg og r o : String) :
    keyAttrsSynopsis ks (rg, og, r, o)
      = (gluedAppend " -" rg ((ks.filter fun k =>
            decide (k.gluableChar ≠ '\x00') && (k.m_required == true)).map KeyArg.gluableChar),
          gluedAppend " [-" og ((ks.filter fun k =>
            decide (k.gluableChar ≠ '\x00') && (k.m_required == false)).map KeyArg.gluableChar),
          r ++ String.join ((ks.filter fun k =>
            decide (k.gluableChar = '\x00') && (k.m_required == true)).map fun k =>
              " " ++ k.synopsis),
          o ++ String.join ((ks.filter fun k =>
            decide (k.gluableChar = '\x00') && (k.m_required == false)).map fun k =>
              " " ++ k.synopsis)) := by
  induction ks generalizing rg og r o with
  | nil => simp [keyAttrsSynopsis, gluedAppend, join_nil]
  | cons k ks ih =>
    by_cases hg : k.gluableChar = '\x00'
    · cases hr : k.m_required <;>
        simp [keyAttrsSynopsis, hg, hr, ih, join_cons, String.append_assoc]
    · cases hr : k.m_required
      · simp only [keyAttrsSynopsis, ne_eq, hg, not_false_eq_true, if_true, hr, ih,
          Bool.false_eq_true, if_false, List.filter_cons, decide_True, decide_False,
          Bool.true_and, Bool.false_and, beq_self_eq_true, List.map_cons,
          (by decide : (false == true) = false), gluedAppend_push]
      · simp only [keyAttrsSynopsis, ne_eq, hg, not_false_eq_true, if_true, hr, ih,
          Bool.false_eq_true, if_false, List.filter_cons, decide_True, decide_False,
          Bool.true_and, Bool.false_and, beq_self_eq_true, List.map_cons,
          (by decide : (true == false) = false), gluedAppend_push]

theorem synopsisRequiredCmds_fst (ps : List Parser) (acc : String) (l : Table) :
    (synopsisRequiredCmds ps acc l).1
      = acc ++ String.join ((ps.filter fun p => p.cmd.required).map fun p =>
          " " ++ p.synopsisText) := by
  induction ps generalizing acc l with
  | nil => simp [synopsisRequiredCmds, join_nil]
  | cons p ps ih =>
    cases hr : p.cmd.required
    · simp [synopsisRequiredCmds, hr, ih]
    · have hp := parser_synopsis_indep p l []
      simp [synopsisRequiredCmds, hr, ih, join_cons, String.append_assoc,
        Parser.synopsisText, hp]

theorem synopsisOptionalCmds_fst (ps : List Parser) (acc : String) (l : Table) :
    (synopsisOptionalCmds ps acc l).1
      = barFold acc ((ps.filter fun p => !p.cmd.required).map Parser.synopsisText) := by
  induction ps generalizing acc l with
  | nil => simp [synopsisOptionalCmds, barFold]
  | cons p ps ih =>
    cases hr : p.cmd.required
    · have hp := parser_synopsis_indep p l []
      simp [synopsisOptionalCmds, hr, ih, barFold, Parser.synopsisText, hp]
    · simp [synopsisOptionalCmds, hr, ih]

theorem barFold_go (acc : String) (ss : List String) (h : acc ≠ "") :
    barFold acc ss = String.intercalate.go acc "|" ss := by
  induction ss generalizing acc with
  | nil => simp [barFold, String.intercalate.go]
  | cons s ss ih =>
    have he : acc.isEmpty = false := by rw [isEmpty_eq_decide]; simp [h]
    have hne : acc.push '|' ++ s ≠ "" := by
      intro hh
      have := congrArg String.data hh
      simp [String.data_append] at this
    have hpush : acc.push '|' ++ s = acc ++ "|" ++ s := by
      apply String.ext
      simp [String.data_append]
    simp only [barFold, he, Bool.not_false, if_true, String.intercalate.go]
    rw [ih _ hne, hpush]

theorem barFold_empty (ss : List String) :
    barFold "" ss = String.intercalate "|" (ss.dropWhile String.isEmpty) := by
  induction ss with
  | nil => rfl
  | cons s ss ih =>
    have he : ("" : String).isEmpty = true := rfl
    by_cases hs : s = ""
    · subst hs
      have h0 : ("" : String) ++ "" = "" := rfl
      simp only [barFold, he, Bool.not_true, Bool.false_eq_true, if_false, h0,
        List.dropWhile_cons, if_true, ih]
    · have hse : s.isEmpty = false := by rw [isEmpty_eq_decide]; simp [hs]
      have h0 : ("" : String) ++ s = s := by apply String.ext; simp [String.data_append]
      simp only [barFold, he, Bool.not_true, Bool.false_eq_true, if_false, h0,
        List.dropWhile_cons, hse, String.intercalate]
      exact barFold_go s ss hs

theorem empty_append_str (s : String) : "" ++ s = s := by
  apply String.ext
  simp [String.data_append]

theorem gluedAppend_required (cs : List Char) :
    gluedAppend " -" "" cs = if cs = [] then "" else " -" ++ String.mk cs := by
  have he : ("" : String).isEmpty = true := rfl
  by_cases h : cs = []
  · simp [gluedAppend, h]
  · simp [gluedAppend, h, he, empty_append_str]

theorem gluedAppend_optional (cs : List Char) :
    (if !(gluedAppend " [-" "" cs).isEmpty then gluedAppend " [-" "" cs ++ "]"
      else gluedAppend " [-" "" cs)
      = if cs = [] then "" else " [-" ++ String.mk cs ++ "]" := by
  have he : ("" : String).isEmpty = true := rfl
  by_cases h : cs = []
  · simp [gluedAppend, h, he]
  · have hne : (" [-" ++ String.mk cs).isEmpty = false := by
      rw [isEmpty_eq_decide]
      have : " [-" ++ String.mk cs ≠ "" := by
        intro hh
        have := congrArg String.data hh
        simp [String.data_append] at this
      simp [this]
    simp [gluedAppend, h, he, empty_append_str, hne]

/-- C19.  The string returned by `ArgGroup::synopsis` is the concatenation, in
this order, of the segments of the required sub-commands, the optional
sub-commands (joined by `|`), the required glued flags, the optional glued
flags, the required flags without glue char, the optional flags without glue
char, the required key-value arguments, the optional key-value arguments, the
required positionals and the optional positionals.  Each segment lists its
entries in declaration order (it is a `filter` and `map` of the declared
list), and the string does not depend on the side table. -/
theorem synopsis_composition (g : ArgGroup) (synopsisLines : Table) :
    (g.synopsis synopsisLines).1
      = segRequiredCmds g ++ segOptionalCmds g
        ++ segRequiredGlued g ++ segOptionalGlued g ++ segKeys true g ++ segKeys false g
        ++ segRequiredKeyValues g ++ segOptionalKeyValues g
        ++ segRequiredValues g ++ segOptionalValues g := by
  rcases g with ⟨name, optionRequired, optionSet, ps, vs, ks, kvs, addr⟩
  simp only [ArgGroupOf.synopsis, composeSynopsis, keyAttrsSynopsis_eq,
    keyValueAttrsSynopsis_eq, valueAttrsSynopsis_eq, synopsisRequiredCmds_fst,
    synopsisOptionalCmds_fst, barFold_empty, gluedAppend_required, gluedAppend_optional,
    empty_append_str]
  simp only [segRequiredCmds, segOptionalCmds, optionalCmdsAlternation, segRequiredGlued,
    segOptionalGlued, gluedChars, segKeys, segRequiredKeyValues, segOptionalKeyValues,
    segRequiredValues, segOptionalValues]
  generalize String.join (List.map (fun p : Parser => " " ++ p.synopsisText)
    (List.filter (fun p => p.cmd.required) ps)) = reqCmds
  generalize String.intercalate "|" (List.dropWhile String.isEmpty
    (List.map Parser.synopsisText (List.filter (fun p => !p.cmd.required) ps))) = alt
  cases hA : reqCmds.isEmpty <;> cases hB : alt.isEmpty <;> simp

/-! ## The description of a group -/

theorem join_append (a b : List String) : String.join (a ++ b) = String.join a ++ String.join b := by
  apply String.ext
  simp [String.data_join, String.data_append]

theorem foldr_max_le (l : List Nat) : ∀ n ∈ l, n ≤ l.foldr max 0 := by
  induction l with
  | nil => intro n hn; cases hn
  | cons a l ih =>
    intro n hn
    rcases List.mem_cons.1 hn with rfl | h
    · exact Nat.le_max_left _ _
    · exact Nat.le_trans (ih n h) (Nat.le_max_right _ _)

theorem foldr_max_append (a b : List Nat) :
    (a ++ b).foldr max 0 = max (a.foldr max 0) (b.foldr max 0) := by
  induction a with
  | nil => simp
  | cons x a ih => simp [ih, Nat.max_assoc]

theorem maxWideOver_eq {α : Type} (options : α → String) (xs : List α) (w : Nat) :
    maxWideOver options xs w = max w ((xs.map fun x => (options x).length).foldr max 0) := by
  induction xs generalizing w with
  | nil => simp [maxWideOver]
  | cons x xs ih =>
    simp only [maxWideOver, ih, List.map_cons, List.foldr_cons]
    omega

theorem maxWide_eq (g : ArgGroup) :
    maxWide g.m_parsers g.m_keyAttrs g.m_keyValueAttrs g.m_valueAttrs
      = ((descriptionEntryList g).map fun e => e.1.length).foldr max 0 := by
  simp only [maxWide, maxWideOver_eq, descriptionEntryList, List.map_append, List.map_map,
    foldr_max_append, Function.comp_def]
  omega

theorem descriptionLine_aligned (w : Nat) (e : String × Bool × String) (h : e.1.length ≤ w) :
    descriptionLine w e.1 e.2.2 = alignedLine w e := by
  simp [descriptionLine, alignedLine, sizeSub, h]

theorem describeOver_eq {α : Type} (options : α → String) (required : α → Bool)
    (description : α → String) (w : Nat) (xs : List α) (r o : String) :
    describeOver options required description w xs (r, o)
      = (r ++ String.join (((xs.map fun x => (options x, required x, description x)).filter
            fun e => e.2.1).map fun e => descriptionLine w e.1 e.2.2),
          o ++ String.join (((xs.map fun x => (options x, required x, description x)).filter
            fun e => !e.2.1).map fun e => descriptionLine w e.1 e.2.2)) := by
  induction xs generalizing r o with
  | nil => simp [describeOver, join_nil]
  | cons x xs ih =>
    cases h : required x <;>
      simp [describeOver, h, ih, join_cons, String.append_assoc]

theorem descriptionEntries_eq (g : ArgGroup) :
    descriptionEntries g.m_parsers g.m_keyAttrs g.m_keyValueAttrs g.m_valueAttrs
      = (String.join (((descriptionEntryList g).filter fun e => e.2.1).map fun e =>
            descriptionLine (maxWide g.m_parsers g.m_keyAttrs g.m_keyValueAttrs g.m_valueAttrs)
              e.1 e.2.2),
          String.join (((descriptionEntryList g).filter fun e => !e.2.1).map fun e =>
            descriptionLine (maxWide g.m_parsers g.m_keyAttrs g.m_keyValueAttrs g.m_valueAttrs)
              e.1 e.2.2)) := by
  simp only [descriptionEntries, describeOver_eq, descriptionEntryList, List.filter_append,
    List.map_append, join_append, empty_append_str, String.append_assoc]

/-- C20.  In `ArgGroup::description` the width `maxWide` is the maximum of the
lengths of `options()` over the entries of the group (discriminators of the
sub-commands, flags, key-value arguments, positionals).  For every entry the
length of its options is at most `maxWide`, so the `std::size_t` difference
does not wrap, and the options followed by the padding have length `maxWide`.
The strings of the required and of the optional entries are the concatenation,
in declaration order, of the lines `options ++ spaces ++ " - " ++ description
++ newline`, and the description of the group is these two strings followed by
the descriptions of the sub-commands. -/
theorem description_alignment (g : ArgGroup) (descriptionParagraphs : Table) :
    maxWide g.m_parsers g.m_keyAttrs g.m_keyValueAttrs g.m_valueAttrs
      = ((descriptionEntryList g).map fun e => e.1.length).foldr max 0
    ∧ (∀ e ∈ descriptionEntryList g,
        e.1.length ≤ maxWide g.m_parsers g.m_keyAttrs g.m_keyValueAttrs g.m_valueAttrs
        ∧ sizeSub (maxWide g.m_parsers g.m_keyAttrs g.m_keyValueAttrs g.m_valueAttrs) e.1.length
          = maxWide g.m_parsers g.m_keyAttrs g.m_keyValueAttrs g.m_valueAttrs - e.1.length
        ∧ (e.1 ++ String.mk (List.replicate
            (sizeSub (maxWide g.m_parsers g.m_keyAttrs g.m_keyValueAttrs g.m_valueAttrs)
              e.1.length) ' ')).length
          = maxWide g.m_parsers g.m_keyAttrs g.m_keyValueAttrs g.m_valueAttrs
        ∧ descriptionLine (maxWide g.m_parsers g.m_keyAttrs g.m_keyValueAttrs g.m_valueAttrs)
            e.1 e.2.2
          = alignedLine (maxWide g.m_parsers g.m_keyAttrs g.m_keyValueAttrs g.m_valueAttrs) e)
    ∧ descriptionEntries g.m_parsers g.m_keyAttrs g.m_keyValueAttrs g.m_valueAttrs
      = (String.join (((descriptionEntryList g).filter fun e => e.2.1).map
            (alignedLine (maxWide g.m_parsers g.m_keyAttrs g.m_keyValueAttrs g.m_valueAttrs))),
          String.join (((descriptionEntryList g).filter fun e => !e.2.1).map
            (alignedLine (maxWide g.m_parsers g.m_keyAttrs g.m_keyValueAttrs g.m_valueAttrs))))
    ∧ g.description descriptionParagraphs
      = descriptionCmds g.m_parsers
          ((descriptionEntries g.m_parsers g.m_keyAttrs g.m_keyValueAttrs g.m_valueAttrs).1
            ++ (descriptionEntries g.m_parsers g.m_keyAttrs g.m_keyValueAttrs g.m_valueAttrs).2)
          descriptionParagraphs := by
  have hle : ∀ e ∈ descriptionEntryList g,
      e.1.length ≤ maxWide g.m_parsers g.m_keyAttrs g.m_keyValueAttrs g.m_valueAttrs := by
    intro e he
    rw [maxWide_eq]
    exact foldr_max_le _ _ (List.mem_map.2 ⟨e, he, rfl⟩)
  refine ⟨maxWide_eq g, ?_, ?_, ?_⟩
  · intro e he
    have h := hle e he
    refine ⟨h, by simp [sizeSub, h], ?_, descriptionLine_aligned _ e h⟩
    simp only [String.length_append, sizeSub, h, if_true]
    show e.1.length + (List.replicate _ ' ').length = _
    rw [List.length_replicate]
    omega
  · rw [descriptionEntries_eq]
    congr 2
    · exact List.map_congr_left fun e he =>
        descriptionLine_aligned _ e (hle e (List.mem_filter.1 he).1)
    · exact List.map_congr_left fun e he =>
        descriptionLine_aligned _ e (hle e (List.mem_filter.1 he).1)
  · rcases g with ⟨name, optionRequired, optionSet, ps, vs, ks, kvs, addr⟩
    simp only [ArgGroupOf.description]

/-- C20, on the root group of `example.cpp`: the widest options string is
`[ employ <amount> ]` (19 characters), and the entry of `init` is padded to
that width. -/
theorem description_alignment_witness :
    maxWide Example.rootGroup.m_parsers Example.rootGroup.m_keyAttrs
        Example.rootGroup.m_keyValueAttrs Example.rootGroup.m_valueAttrs = 19
    ∧ descriptionLine 19 (AnyArg.key Example.initArg).options
        (AnyArg.key Example.initArg).description
      = "[ init ]            - Initialize pyramid construction site.\n" :=
  ⟨by decide,
    by
      have h := ((description_alignment Example.rootGroup []).2.1
        ((AnyArg.key Example.initArg).options, (AnyArg.key Example.initArg).required,
          (AnyArg.key Example.initArg).description) (by decide)).2.2.2
      have hw : maxWide Example.rootGroup.m_parsers Example.rootGroup.m_keyAttrs
          Example.rootGroup.m_keyValueAttrs Example.rootGroup.m_valueAttrs = 19 := by decide
      rw [hw] at h
      rw [h]
      decide⟩

/-! ## The glue char of a flag -/

theorem addAlias_aliases (k : KeyArg) (al : String) :
    (k.addAlias al).m_aliases = k.m_aliases ++ [al] := by
  unfold KeyArg.addAlias
  split <;> rfl

theorem addAlias_gluableChar (k : KeyArg) (al : String) :
    (k.addAlias al).m_gluableChar = if gluableAlias al then charAt al 1 else k.m_gluableChar := by
  unfold KeyArg.addAlias gluableAlias
  by_cases h : al.length = 2 ∧ charAt al 0 = GLUE_CHAR
  · simp [h]
  · simp [h]

theorem glueCharOf_append (as : List String) (al : String) :
    glueCharOf (as ++ [al]) = if gluableAlias al then charAt al 1 else glueCharOf as := by
  unfold glueCharOf
  by_cases h : gluableAlias al = true
  · simp [List.filter_append, h, List.getLast?_append]
  · simp [List.filter_append, h]

theorem foldl_addAlias (als : List String) :
    ∀ k : KeyArg, (als.foldl KeyArg.addAlias k).m_aliases = k.m_aliases ++ als
      ∧ (k.m_gluableChar = glueCharOf k.m_aliases →
          (als.foldl KeyArg.addAlias k).m_gluableChar = glueCharOf (k.m_aliases ++ als)) := by
  induction als with
  | nil => intro k; simp
  | cons al als ih =>
    intro k
    have h := ih (k.addAlias al)
    rw [addAlias_aliases] at h
    simp only [List.foldl_cons]
    refine ⟨by simpa using h.1, ?_⟩
    intro hk
    have := h.2 (by rw [addAlias_gluableChar, glueCharOf_append, hk])
    simpa using this

theorem build_aliases (name help : String) (als : List String) :
    (KeyArg.build name help als).m_aliases = name :: als := by
  have h := (foldl_addAlias als (KeyArg.new name help)).1
  have h0 : (KeyArg.new name help).m_aliases = [name] := by
    simp [KeyArg.new, addAlias_aliases]
  rw [h0] at h
  simpa [KeyArg.build] using h

theorem build_gluableChar (name help : String) (als : List String) :
    (KeyArg.build name help als).gluableChar = glueCharOf (name :: als) := by
  have h0 : (KeyArg.new name help).m_aliases = [name] := by
    simp [KeyArg.new, addAlias_aliases]
  have hg : (KeyArg.new name help).m_gluableChar = glueCharOf (KeyArg.new name help).m_aliases := by
    rw [h0]
    have := glueCharOf_append [] name
    simp only [List.nil_append] at this
    rw [this, KeyArg.new, addAlias_gluableChar]
    rfl
  have h := (foldl_addAlias als (KeyArg.new name help)).2 hg
  rw [h0] at h
  simpa [KeyArg.build, KeyArg.gluableChar] using h

theorem glueCharOf_none (aliases : List String) (h : ∀ al ∈ aliases, gluableAlias al = false) :
    glueCharOf aliases = '\x00' := by
  have : aliases.filter gluableAlias = [] := by
    rw [List.filter_eq_nil_iff]
    intro al hal
    simp [h al hal]
  simp [glueCharOf, this]

theorem glueCharOf_some (aliases : List String) (h : ∃ al ∈ aliases, gluableAlias al = true) :
    ∃ al ∈ aliases, gluableAlias al = true ∧ glueCharOf aliases = charAt al 1 := by
  obtain ⟨al, hal, hg⟩ := h
  have hne : aliases.filter gluableAlias ≠ [] := by
    intro hnil
    have : al ∈ aliases.filter gluableAlias := List.mem_filter.2 ⟨hal, hg⟩
    rw [hnil] at this
    simp at this
  cases hl : (aliases.filter gluableAlias).getLast? with
  | none => rw [List.getLast?_eq_none_iff] at hl; exact absurd hl hne
  | some l =>
    have hmem : l ∈ aliases.filter gluableAlias := List.mem_of_getLast?_eq_some hl
    rw [List.mem_filter] at hmem
    exact ⟨l, hmem.1, hmem.2, by simp [glueCharOf, hl]⟩


theorem gluedKeyArgs_filter (g : ArgGroup) (t : String) (ht : ∀ c ∈ t.data, c ≠ '\x00') :
    ({ g with m_keyAttrs := g.m_keyAttrs.filter KeyArg.hasGlueChar } : ArgGroup).gluedKeyArgs t
      = g.gluedKeyArgs t := by
  unfold ArgGroupOf.gluedKeyArgs
  by_cases h0 : charAt t 0 ≠ GLUE_CHAR
  · simp [h0]
  · by_cases h1 : t.length = 1
    · simp [h0, h1]
    · simp only [h0, h1, if_false]
      rw [Bool.eq_iff_iff, List.all_eq_true, List.all_eq_true]
      have key : ∀ c ∈ t.data.drop 1,
          (((g.m_keyAttrs.filter KeyArg.hasGlueChar).any fun k => decide (c = k.gluableChar))
              = true
            ↔ (g.m_keyAttrs.any fun k => decide (c = k.gluableChar)) = true) := by
        intro c hc
        have hcn : c ≠ '\x00' := ht c (List.mem_of_mem_drop hc)
        rw [List.any_eq_true, List.any_eq_true]
        constructor
        · rintro ⟨k, hk, hkc⟩
          exact ⟨k, (List.mem_filter.1 hk).1, hkc⟩
        · rintro ⟨k, hk, hkc⟩
          refine ⟨k, List.mem_filter.2 ⟨hk, ?_⟩, hkc⟩
          have : c = k.gluableChar := of_decide_eq_true hkc
          simp [KeyArg.hasGlueChar, ← this, hcn]
      constructor
      · intro h c hc
        exact (key c hc).1 (h c hc)
      · intro h c hc
        exact (key c hc).2 (h c hc)

/-- C22 (amended).  A flag built from `name` by the calls `addAlias` for `als`
has the aliases `name :: als`, and its stored glue char is the second character
of the last alias that is `-` followed by exactly one character (NUL when there
is none).  When no such alias has NUL as its second character, the flag has a
glue char exactly when it has such an alias.  A flag with no such alias has no
glue char, its stored character is never equal to a character of a token (no
character of a token is NUL), and the call `match` made on it by the glue
treatment, with the token `-c`, returns 0 and leaves the flag as it is,
whatever its state.  The flags without glue char have no part in
`ArgGroup::gluedKeyArgs`: the result is the same without them. -/
theorem glue_char_of_flag (name help : String) (als : List String) :
    (KeyArg.build name help als).m_aliases = name :: als
    ∧ (KeyArg.build name help als).gluableChar = glueCharOf (name :: als)
    ∧ (∀ (g : ArgGroup) (t : String), (∀ c ∈ t.data, c ≠ '\x00') →
        ({ g with m_keyAttrs := g.m_keyAttrs.filter KeyArg.hasGlueChar } : ArgGroup).gluedKeyArgs t
          = g.gluedKeyArgs t)
    ∧ ((∀ al ∈ name :: als, gluableAlias al = true → charAt al 1 ≠ '\x00') →
        ((KeyArg.build name help als).hasGlueChar = true
          ↔ ∃ al ∈ name :: als, al.length = 2 ∧ charAt al 0 = GLUE_CHAR))
    ∧ ((∀ al ∈ name :: als, ¬ (al.length = 2 ∧ charAt al 0 = GLUE_CHAR)) →
        (KeyArg.build name help als).hasGlueChar = false
        ∧ (∀ c : Char, c ≠ '\x00' → c ≠ (KeyArg.build name help als).gluableChar)
        ∧ ∀ (k : KeyArg) (c : Char), k.m_aliases = name :: als →
            k.match_ [String.mk ['-', c]] = (k, .returned 0)) := by
  refine ⟨build_aliases name help als, build_gluableChar name help als,
    fun g t ht => gluedKeyArgs_filter g t ht, ?_, ?_⟩
  · intro hnul
    rw [KeyArg.hasGlueChar, build_gluableChar]
    constructor
    · intro h
      by_contra hno
      have : glueCharOf (name :: als) = '\x00' := by
        apply glueCharOf_none
        intro al hal
        by_contra hg
        exact hno ⟨al, hal, by simpa [gluableAlias] using hg⟩
      simp [this] at h
    · rintro ⟨al, hal, h2⟩
      obtain ⟨l, hl, hg, he⟩ := glueCharOf_some (name :: als) ⟨al, hal, by simp [gluableAlias, h2]⟩
      rw [he]
      simpa using hnul l hl hg
  · intro hno
    have hz : glueCharOf (name :: als) = '\x00' := by
      apply glueCharOf_none
      intro al hal
      simpa [gluableAlias] using hno al hal
    refine ⟨by simp [KeyArg.hasGlueChar, build_gluableChar, hz], ?_, ?_⟩
    · intro c hc
      rw [build_gluableChar, hz]
      exact hc
    · intro k c hk
      have hnot : String.mk ['-', c] ∉ k.m_aliases := by
        rw [hk]
        intro hmem
        exact hno _ hmem ⟨rfl, rfl⟩
      simp [KeyArg.match_, hnot]

/-- C22, on the flag `--verbose` with the aliases `-v` and `-V` added in this
order: its glue char is `V`, the second character of the last short alias. -/
theorem glue_char_of_flag_witness :
    (∀ al ∈ ["--verbose", "-v", "-V"], gluableAlias al = true → charAt al 1 ≠ '\x00')
    ∧ ((KeyArg.build "--verbose" "" ["-v", "-V"]).hasGlueChar = true
        ↔ ∃ al ∈ ["--verbose", "-v", "-V"], al.length = 2 ∧ charAt al 0 = GLUE_CHAR)
    ∧ (KeyArg.build "--verbose" "" ["-v", "-V"]).gluableChar = 'V' :=
  ⟨by decide, (glue_char_of_flag "--verbose" "" ["-v", "-V"]).2.2.2.1 (by decide), by decide⟩

/-- C22 as stated fails on the flag `-v` with the alias made of `-` and the
NUL character added: the flag has the alias `-v`, yet `addAlias` stored NUL, the
value that stands for "no glue char". -/
theorem glue_char_of_flag_counterexample :
    ¬ ∀ (name help : String) (als : List String),
        ((KeyArg.build name help als).hasGlueChar = true
          ↔ ∃ al ∈ name :: als, al.length = 2 ∧ charAt al 0 = GLUE_CHAR) := by
  intro h
  have := (h "-v" "" ["-\x00"]).2 ⟨"-v", by decide, by decide⟩
  exact absurd this (by decide)

/-! ## A key-value match that fails on an argument set already -/

/-- C25 (amended).  When `KeyValueArg::match` throws `ArgAlreadySetException`,
the argument was set before the call and stays set, and nothing of it changes
but the stored value, which is now the value carried by the failed match (the
part of the token after its first `=`, or the next token): `setValue` assigns
`m_value` before `markSet` tests the flag. -/
theorem failed_match_stores_value (k : KeyValueArg) (argv : List String)
    (h : (k.match_ argv).2 = .thrown .argAlreadySet) :
    k.m_set = true
    ∧ (k.match_ argv).1 = { k with m_value := carriedValue argv }
    ∧ (k.match_ argv).1.m_set = true
    ∧ (k.match_ argv).1.m_value = carriedValue argv := by
  have key : k.m_set = true ∧ (k.match_ argv).1 = { k with m_value := carriedValue argv } := by
    cases argv with
    | nil => simp [KeyValueArg.match_] at h
    | cons a0 rest =>
      by_cases hs : k.m_set = true
      · refine ⟨hs, ?_⟩
        revert h
        simp only [KeyValueArg.match_, carriedValue]
        cases hp : find_first_of a0.data '=' with
        | none =>
          cases rest with
          | nil => intro h; split at h <;> simp at h
          | cons a1 rest1 =>
            by_cases hal : a0 ∈ k.m_aliases
            · by_cases hg : charAt a1 0 = GLUE_CHAR
              · simp [hal, hg]
              · simp [hal, hg, KeyValueArg.setValue, Arg.markSet, hs, Outcome.ofVoid]
            · simp [hal]
        | some p =>
          by_cases hal : substrTo a0 p ∈ k.m_aliases
          · simp [hal, KeyValueArg.setValue, Arg.markSet, hs, Outcome.ofVoid]
          · simp [hal]
      · exfalso
        revert h
        simp only [KeyValueArg.match_]
        cases hp : find_first_of a0.data '=' with
        | none =>
          cases rest with
          | nil => intro h; split at h <;> simp at h
          | cons a1 rest1 =>
            by_cases hal : a0 ∈ k.m_aliases
            · by_cases hg : charAt a1 0 = GLUE_CHAR
              · simp [hal, hg]
              · simp [hal, hg, KeyValueArg.setValue, Arg.markSet, hs, Outcome.ofVoid]
            · simp [hal]
        | some p =>
          by_cases hal : substrTo a0 p ∈ k.m_aliases
          · simp [hal, KeyValueArg.setValue, Arg.markSet, hs, Outcome.ofVoid]
          · simp [hal]
  refine ⟨key.1, key.2, ?_, ?_⟩
  · rw [key.2]; exact key.1
  · rw [key.2]

/-- C25, on `--opt` set by `--opt=1`: the match of `--opt 5` throws
`ArgAlreadySetException` and the stored value is `5`. -/
theorem failed_match_stores_value_witness :
    ((KeyValueArg.new "--opt" "n" "").match_ ["--opt=1"]).1.m_value = "1"
    ∧ (((KeyValueArg.new "--opt" "n" "").match_ ["--opt=1"]).1.match_ ["--opt", "5"]).2
        = .thrown .argAlreadySet
    ∧ (((KeyValueArg.new "--opt" "n" "").match_ ["--opt=1"]).1.match_ ["--opt", "5"]).1.m_value
        = "5" :=
  ⟨by decide, by decide,
    (failed_match_stores_value ((KeyValueArg.new "--opt" "n" "").match_ ["--opt=1"]).1
      ["--opt", "5"] (by decide)).2.2.2⟩

/-- C25 as stated fails on `--opt` set by `--opt=1`: the match of `--opt=5`
throws `ArgAlreadySetException` and the stored value is no longer `1`. -/
theorem failed_match_stores_value_counterexample :
    ¬ ∀ (k : KeyValueArg) (argv : List String),
        (k.match_ argv).2 = .thrown .argAlreadySet → (k.match_ argv).1.m_value = k.m_value := by
  intro h
  exact absurd (h ((KeyValueArg.new "--opt" "n" "").match_ ["--opt=1"]).1 ["--opt=5"] (by decide))
    (by decide)

/-! ## The separator written between the required and the optional sub-commands -/

theorem composeSynopsis_segment (optionRequired : Bool) (ks : List KeyArg)
    (kvs : List KeyValueArg) (vs : List ValueArg) (req str : String) :
    composeSynopsis optionRequired ks kvs vs req str
      = req
        ++ (if !req.isEmpty then setFirstChar (optionalCmdsSegment optionRequired str) '|'
            else optionalCmdsSegment optionRequired str)
        ++ (keyAttrsSynopsis ks ("", "", "", "")).1
        ++ (if !(keyAttrsSynopsis ks ("", "", "", "")).2.1.isEmpty
            then (keyAttrsSynopsis ks ("", "", "", "")).2.1 ++ "]"
            else (keyAttrsSynopsis ks ("", "", "", "")).2.1)
        ++ (keyAttrsSynopsis ks ("", "", "", "")).2.2.1
        ++ (keyAttrsSynopsis ks ("", "", "", "")).2.2.2
        ++ (keyValueAttrsSynopsis kvs ("", "")).1 ++ (keyValueAttrsSynopsis kvs ("", "")).2
        ++ (valueAttrsSynopsis vs ("", "")).1 ++ (valueAttrsSynopsis vs ("", "")).2 := rfl

theorem group_synopsis_operands (g : ArgGroup) (T : Table) :
    (ArgGroupOf.synopsis g T).1
      = composeSynopsis g.m_optionRequired g.m_keyAttrs g.m_keyValueAttrs g.m_valueAttrs
          (synopsisRequiredCmds g.m_parsers "" T).1
          (synopsisOptionalCmds g.m_parsers "" (synopsisRequiredCmds g.m_parsers "" T).2).1 := by
  rcases g with ⟨nm, orq, os, ps, vs, ks, kvs, ad⟩
  simp only [ArgGroupOf.synopsis]

theorem synopsisRequiredCmds_acc (ps : List Parser) :
    ∀ (acc : String) (T : Table), acc.isEmpty = false →
      (synopsisRequiredCmds ps acc T).1.isEmpty = false := by
  induction ps with
  | nil => intro acc T h; simpa [synopsisRequiredCmds] using h
  | cons p ps ih =>
    intro acc T h
    by_cases hr : p.cmd.required = true
    · simp only [synopsisRequiredCmds, hr, if_true]
      apply ih
      rw [← Bool.not_eq_true, String.isEmpty_iff]
      intro he
      have := congrArg String.length he
      simp [String.length_append] at this
      exact absurd this.1.2 (by decide)
    · simp only [synopsisRequiredCmds, hr]
      exact ih acc T h


theorem synopsisRequiredCmds_nonempty (ps : List Parser) :
    ∀ (acc : String) (T : Table), (∃ p ∈ ps, p.cmd.required = true) →
      (synopsisRequiredCmds ps acc T).1.isEmpty = false := by
  induction ps with
  | nil => intro acc T h; simp at h
  | cons p ps ih =>
    intro acc T h
    by_cases hr : p.cmd.required = true
    · simp only [synopsisRequiredCmds, hr, if_true]
      apply synopsisRequiredCmds_acc
      rw [← Bool.not_eq_true, String.isEmpty_iff]
      intro he
      have := congrArg String.length he
      simp [String.length_append] at this
      exact absurd this.1.2 (by decide)
    · simp only [synopsisRequiredCmds, hr]
      apply ih
      obtain ⟨q, hq, hqr⟩ := h
      rcases List.mem_cons.1 hq with rfl | hq
      · exact absurd hqr hr
      · exact ⟨q, hq, hqr⟩

theorem synopsisOptionalCmds_all_required (ps : List Parser) :
    ∀ (acc : String) (T : Table), (∀ p ∈ ps, p.cmd.required = true) →
      synopsisOptionalCmds ps acc T = (acc, T) := by
  induction ps with
  | nil => intro acc T _; simp [synopsisOptionalCmds]
  | cons p ps ih =>
    intro acc T h
    have hp := h p (List.mem_cons_self _ _)
    simp only [synopsisOptionalCmds, hp]
    exact ih acc T fun q hq => h q (List.mem_cons_of_mem _ hq)

/-- On every group that has a required sub-command and no optional one, line
929 of `ArgGroup::synopsis` writes to character 0 of an empty string. -/
theorem separator_write_of_required_only (g : ArgGroup) (T : Table)
    (hreq : ∃ p ∈ g.m_parsers, p.cmd.required = true)
    (hopt : ∀ p ∈ g.m_parsers, p.cmd.required = true) :
    g.separatorWriteOutOfBounds T = true := by
  have h1 := synopsisRequiredCmds_nonempty g.m_parsers "" T hreq
  have h2 := synopsisOptionalCmds_all_required g.m_parsers ""
    (synopsisRequiredCmds g.m_parsers "" T).2 hopt
  have he : (("" : String).isEmpty) = true := rfl
  simp [ArgGroupOf.separatorWriteOutOfBounds, ArgGroupOf.separatorOperands, h1, h2,
    optionalCmdsSegment, he]

/-- C27 (evaluation at the failing input).  On a group whose only sub-command
is the required command `run`, `ArgGroup::synopsis` reaches line 928 with
`subParserRequiredSynopsis` equal to ` run` and `subParserOptionalSynopsis`
empty: the statement `subParserOptionalSynopsis[0] = '|'` is executed and
writes to character 0 of an empty string.  The returned text is ` run`, and
the synopsis of a command `prog` with this group is `prog run`. -/
theorem separator_write_on_empty :
    Inputs.requiredOnly.separatorOperands [] = (" run", "")
    ∧ Inputs.requiredOnly.separatorWriteOutOfBounds [] = true
    ∧ (ArgGroupOf.synopsis Inputs.requiredOnly []).1
        = " run" ++ setFirstChar "" '|'
    ∧ (Parser.synopsis (.mk (.key (KeyArg.new "prog" "")) [Inputs.requiredOnly]) []).1
        = "prog run" :=
  ⟨by decide, by decide, by decide, by decide⟩

/-! ## The count returned by a successful parse -/

theorem ofVoid_returned_eq (r : Option Error) (n m : Nat) (h : Outcome.ofVoid r n = .returned m) :
    m = n := by
  cases r with
  | none => simp [Outcome.ofVoid] at h; exact h.symm
  | some e => simp [Outcome.ofVoid] at h

theorem keyArg_match_le (k : KeyArg) (argv : List String) (n : Nat)
    (h : (k.match_ argv).2 = .returned n) : n ≤ argv.length := by
  cases argv with
  | nil => simp [KeyArg.match_] at h; omega
  | cons a0 rest =>
    by_cases hal : a0 ∈ k.m_aliases
    · simp only [KeyArg.match_, hal, if_true] at h
      have := ofVoid_returned_eq _ _ _ h
      simp; omega
    · simp [KeyArg.match_, hal] at h
      omega

theorem valueArg_match_le (v : ValueArg) (argv : List String) (n : Nat)
    (h : (v.match_ argv).2 = .returned n) : n ≤ argv.length := by
  cases argv with
  | nil => simp [ValueArg.match_] at h; omega
  | cons a0 rest =>
    by_cases hs : v.m_set = true
    · simp [ValueArg.match_, hs] at h
      omega
    · simp only [ValueArg.match_, hs] at h
      have := ofVoid_returned_eq _ _ _ h
      simp; omega

theorem keyValueArg_match_le (k : KeyValueArg) (argv : List String) (n : Nat)
    (h : (k.match_ argv).2 = .returned n) : n ≤ argv.length := by
  cases argv with
  | nil => simp [KeyValueArg.match_] at h; omega
  | cons a0 rest =>
    revert h
    simp only [KeyValueArg.match_]
    cases hp : find_first_of a0.data '=' with
    | none =>
      by_cases hal : a0 ∈ k.m_aliases
      · cases rest with
        | nil => simp [hal]
        | cons a1 rest1 =>
          by_cases hg : charAt a1 0 = GLUE_CHAR
          · simp [hal, hg]
          · simp only [hal, hg, if_true, if_false]
            intro h
            have := ofVoid_returned_eq _ _ _ h
            simp; omega
      · simp only [hal, if_false]
        intro h
        simp at h
        omega
    | some p =>
      by_cases hal : substrTo a0 p ∈ k.m_aliases
      · simp only [hal, if_true]
        intro h
        have := ofVoid_returned_eq _ _ _ h
        simp; omega
      · simp only [hal, if_false]
        intro h
        simp at h
        omega

theorem anyArg_match_le (a : AnyArg) (argv : List String) (n : Nat)
    (h : (a.match_ argv).2 = .returned n) : n ≤ argv.length := by
  cases a with
  | value v => exact valueArg_match_le v argv n (by simpa [AnyArg.match_] using h)
  | key k => exact keyArg_match_le k argv n (by simpa [AnyArg.match_] using h)
  | keyValue k => exact keyValueArg_match_le k argv n (by simpa [AnyArg.match_] using h)

theorem matchFirst_le {α : Type} (m : α → List String → α × Outcome) (argv : List String)
    (L : Nat) (hm : ∀ x n, (m x argv).2 = .returned n → n ≤ L) (xs : List α) (n : Nat)
    (h : (matchFirst m argv xs).2 = .returned n) : n ≤ L := by
  induction xs with
  | nil => simp [matchFirst] at h; omega
  | cons x xs ih =>
    rcases hx : m x argv with ⟨x', o⟩
    cases o with
    | returned k =>
      cases k with
      | zero =>
        simp only [matchFirst, hx] at h
        exact ih h
      | succ k =>
        simp only [matchFirst, hx] at h
        have := hm x (k + 1) (by rw [hx])
        cases h
        exact this
    | thrown e => simp [matchFirst, hx] at h
    | noFuel => simp [matchFirst, hx] at h

theorem dispatchParsers_le (sub : Parser → List String → Parser × Outcome) (argv : List String)
    (L : Nat) (hsub : ∀ p n, catchUnrecognized (sub p argv).2 = .returned n → n ≤ L)
    (ps : List Parser) :
    ∀ (i : Nat) (optionSet : Option Nat) (n : Nat),
      (dispatchParsers sub argv i optionSet ps).2.2 = .returned n → n ≤ L := by
  induction ps with
  | nil => intro i os n h; simp [dispatchParsers] at h; omega
  | cons p ps ih =>
    intro i os n h
    rcases hp : sub p argv with ⟨p', o⟩
    have hb := hsub p
    rw [hp] at hb
    cases hc : catchUnrecognized o with
    | returned k =>
      cases k with
      | zero =>
        simp only [dispatchParsers, hp, hc] at h
        exact ih _ _ _ h
      | succ k =>
        have hk := hb (k + 1) hc
        simp only [dispatchParsers, hp, hc] at h
        by_cases hr : p'.cmd.required = true
        · simp [hr] at h
          omega
        · cases hos : os with
          | none =>
            simp [hr, hos] at h
            omega
          | some a => simp [hr, hos] at h
    | thrown e => simp [dispatchParsers, hp, hc] at h
    | noFuel => simp [dispatchParsers, hp, hc] at h


theorem dispatchGlueValue_le (argv : List String) (g : ArgGroup) (hpos : 1 ≤ argv.length)
    (n : Nat) (h : (dispatchGlueValue argv g).2 = .returned n) : n ≤ argv.length := by
  unfold dispatchGlueValue at h
  by_cases hg : g.gluedKeyArgs (argv.headD "") = true
  · simp only [hg, if_true] at h
    have := ofVoid_returned_eq _ _ _ h
    omega
  · by_cases hc : charAt (argv.headD "") 0 = GLUE_CHAR
    · rw [if_neg hg, if_neg (not_not.2 hc)] at h
      cases h
      omega
    · rw [if_neg hg, if_pos hc] at h
      exact matchFirst_le ValueArg.match_ argv argv.length
        (fun v k hk => valueArg_match_le v argv k hk) g.m_valueAttrs n h

theorem dispatchAttrs_le (argv : List String) (g : ArgGroup) (hpos : 1 ≤ argv.length)
    (n : Nat) (h : (dispatchAttrs argv g).2 = .returned n) : n ≤ argv.length := by
  unfold dispatchAttrs at h
  have hkv := matchFirst_le KeyValueArg.match_ argv argv.length
    (fun v k hk => keyValueArg_match_le v argv k hk) g.m_keyValueAttrs
  have hk := matchFirst_le KeyArg.match_ argv argv.length
    (fun v k hk => keyArg_match_le v argv k hk) g.m_keyAttrs
  rcases h1 : matchFirst KeyValueArg.match_ argv g.m_keyValueAttrs with ⟨kvs, o1⟩
  rw [h1] at h hkv
  cases o1 with
  | returned a =>
    cases a with
    | zero =>
      rcases h2 : matchFirst KeyArg.match_ argv g.m_keyAttrs with ⟨ks, o2⟩
      rw [h2] at hk
      simp only [h2] at h
      cases o2 with
      | returned b =>
        cases b with
        | zero => exact dispatchGlueValue_le argv _ hpos n h
        | succ b =>
          simp at h
          have := hk (b + 1) rfl
          omega
      | thrown e => simp at h
      | noFuel => simp at h
    | succ a =>
      simp at h
      have := hkv (a + 1) rfl
      omega
  | thrown e => simp at h
  | noFuel => simp at h

theorem dispatchGroup_le (sub : Parser → List String → Parser × Outcome) (argv : List String)
    (hpos : 1 ≤ argv.length)
    (hsub : ∀ p n, catchUnrecognized (sub p argv).2 = .returned n → n ≤ argv.length)
    (g : ArgGroup) (n : Nat) (h : (dispatchGroup sub argv g).2 = .returned n) :
    n ≤ argv.length := by
  unfold dispatchGroup at h
  have hp := dispatchParsers_le sub argv argv.length hsub g.m_parsers 0 g.m_optionSet
  rcases h1 : dispatchParsers sub argv 0 g.m_optionSet g.m_parsers with ⟨ps, os, o⟩
  rw [h1] at h hp
  cases o with
  | returned a =>
    cases a with
    | zero => exact dispatchAttrs_le argv _ hpos n h
    | succ a =>
      simp at h
      have := hp (a + 1) rfl
      omega
  | thrown e => simp at h
  | noFuel => simp at h

theorem dispatchGroups_le (sub : Parser → List String → Parser × Outcome) (argv : List String)
    (hpos : 1 ≤ argv.length)
    (hsub : ∀ p n, catchUnrecognized (sub p argv).2 = .returned n → n ≤ argv.length)
    (gs : List ArgGroup) (n : Nat) (h : (dispatchGroups sub argv gs).2 = .returned n) :
    n ≤ argv.length :=
  matchFirst_le (fun g av => dispatchGroup sub av g) argv argv.length
    (fun g k hk => dispatchGroup_le sub argv hpos hsub g k hk) gs n h

theorem loopReaches_bound (sub : Parser → List String → Parser × Outcome) (argv : List String)
    (hsub : SubBounded sub argv) (n m : Nat) (gs gsm : List ArgGroup)
    (h : LoopReaches sub argv n gs m gsm) (hn : n ≤ argv.length) : m ≤ argv.length := by
  induction h with
  | here n gs => exact hn
  | step n gs adv gs1 m gsm hlt hd _ ih =>
    apply ih
    have := dispatchGroups_le sub (argv.drop n) (by simp; omega) (hsub n) gs (adv + 1)
      (by rw [hd])
    simp at this
    omega

theorem parseFrom_returned_eq (sub : Parser → List String → Parser × Outcome)
    (argv : List String) (hsub : SubBounded sub argv) :
    ∀ (steps argNum : Nat) (gs : List ArgGroup) (n : Nat), argNum ≤ argv.length →
      (parseFrom sub argv steps argNum gs).2 = .returned n → n = argv.length := by
  intro steps
  induction steps with
  | zero => intro argNum gs n _ h; simp [parseFrom] at h
  | succ steps ih =>
    intro argNum gs n hle h
    by_cases hlt : argNum < argv.length
    · have hb := dispatchGroups_le sub (argv.drop argNum) (by simp; omega) (hsub argNum) gs
      rcases hd : dispatchGroups sub (argv.drop argNum) gs with ⟨gs1, o⟩
      rw [hd] at hb
      cases o with
      | returned adv =>
        cases adv with
        | zero => simp [parseFrom, hlt, hd] at h
        | succ adv =>
          simp only [parseFrom, hlt, hd, if_true] at h
          have := hb (adv + 1) rfl
          simp at this
          exact ih _ _ _ (by omega) h
      | thrown e => simp [parseFrom, hlt, hd] at h
      | noFuel => simp [parseFrom, hlt, hd] at h
    · by_cases hv : gs.all validGroup = true
      · simp [parseFrom, hlt, validate, hv] at h
        omega
      · simp [parseFrom, hlt, validate, hv] at h

theorem parseAux_bounds :
    ∀ (fuel : Nat) (p : Parser) (argv : List String),
      (∀ n, (parseAux fuel p argv).2 = .returned n → n = argv.length)
      ∧ (∀ i, (parseAux fuel p argv).2 = .thrown (.unrecognizedArg i) → i ≤ argv.length) := by
  intro fuel
  induction fuel with
  | zero => intro p argv; simp [parseAux]
  | succ fuel ih =>
    intro p argv
    rcases p with ⟨cmd, gs⟩
    have hsub : SubBounded (parseAux fuel) argv := by
      intro k q n h
      rcases ho : (parseAux fuel q (argv.drop k)).2 with m | e | _
      · rw [ho] at h
        simp [catchUnrecognized] at h
        have := (ih q (argv.drop k)).1 m ho
        omega
      · rw [ho] at h
        cases e <;> simp [catchUnrecognized] at h
        rename_i i
        have := (ih q (argv.drop k)).2 i ho
        omega
      · rw [ho] at h
        simp [catchUnrecognized] at h
    have hm := anyArg_match_le cmd argv
    have hpl : (cmd.match_ argv).2.plain := by
      cases cmd with
      | value v => simpa [AnyArg.match_] using valueArg_match_plain v argv
      | key k => simpa [AnyArg.match_] using keyArg_match_plain k argv
      | keyValue k => simpa [AnyArg.match_] using keyValueArg_match_plain k argv
    rcases hc : cmd.match_ argv with ⟨cmd', o⟩
    rw [hc] at hm hpl
    cases o with
    | returned k =>
      cases k with
      | zero => simp [parseAux, hc]
      | succ k =>
        have hk := hm (k + 1) rfl
        rcases hl : parseFrom (parseAux fuel) argv (argv.length + 1) (k + 1) gs with ⟨gs', o'⟩
        simp only [parseAux, hc, hl]
        constructor
        · intro n hn
          exact parseFrom_returned_eq _ _ hsub _ _ _ _ hk (by rw [hl]; exact hn)
        · intro i hi
          have hh : parseFrom (parseAux fuel) argv (argv.length + 1) (k + 1) gs
              = (gs', .thrown (.unrecognizedArg i)) := by rw [hl]; rw [show o' = _ from hi]
          obtain ⟨_, _, hlt, _⟩ := parseFrom_unrecognized _ _ _ _ _ _ _ hh
          omega
    | thrown e =>
      simp only [parseAux, hc]
      constructor
      · intro n hn; simp at hn
      · intro i hi
        exact absurd hi (hpl i)
    | noFuel => simp [parseAux, hc]

theorem parseAux_subBounded (fuel : Nat) (argv : List String) :
    SubBounded (parseAux fuel) argv := by
  intro k q n h
  rcases ho : (parseAux fuel q (argv.drop k)).2 with m | e | _
  · rw [ho] at h
    simp [catchUnrecognized] at h
    have := (parseAux_bounds fuel q (argv.drop k)).1 m ho
    omega
  · rw [ho] at h
    cases e <;> simp [catchUnrecognized] at h
    rename_i i
    have := (parseAux_bounds fuel q (argv.drop k)).2 i ho
    omega
  · rw [ho] at h
    simp [catchUnrecognized] at h

/-- C23.  When `Parser::parse` returns normally on a token list of length
`argc ≥ 1`, the returned count is `argc`.  No step goes past `argc`: the
discriminator consumes at most `argc` tokens, an iteration of the loop at the
index `argNum < argc` that consumes `adv` tokens has `argNum + adv ≤ argc`, and
every index that the loop reaches is at most `argc`.  The same holds at every
depth of the recursion: a sub-command whose parse returns normally on its slice
returns the length of the slice. -/
theorem full_consumption :
    (∀ (p : Parser) (argv : List String) (n : Nat), 1 ≤ argv.length →
      (Parser.parse p argv).2 = .returned n → n = argv.length)
    ∧ (∀ (cmd cmd' : AnyArg) (argv : List String) (k : Nat),
        cmd.match_ argv = (cmd', .returned k) → k ≤ argv.length)
    ∧ (∀ (fuel argNum adv : Nat) (argv : List String) (gs gs' : List ArgGroup),
        argNum < argv.length →
        dispatchGroups (parseAux fuel) (argv.drop argNum) gs = (gs', .returned adv) →
        argNum + adv ≤ argv.length)
    ∧ (∀ (fuel k m : Nat) (argv : List String) (gs gsm : List ArgGroup), k ≤ argv.length →
        LoopReaches (parseAux fuel) argv k gs m gsm → m ≤ argv.length)
    ∧ (∀ (fuel : Nat) (q : Parser) (slice : List String) (n : Nat),
        (parseAux fuel q slice).2 = .returned n → n = slice.length) := by
  refine ⟨?_, ?_, ?_, ?_, ?_⟩
  · intro p argv n _ h
    exact (parseAux_bounds _ p argv).1 n h
  · intro cmd cmd' argv k h
    exact anyArg_match_le cmd argv k (by rw [h])
  · intro fuel argNum adv argv gs gs' hlt h
    have := dispatchGroups_le (parseAux fuel) (argv.drop argNum) (by simp; omega)
      (parseAux_subBounded fuel argv argNum) gs adv (by rw [h])
    simp at this
    omega
  · intro fuel k m argv gs gsm hk h
    exact loopReaches_bound _ _ (parseAux_subBounded fuel argv) _ _ _ _ h hk
  · intro fuel q slice n h
    exact (parseAux_bounds fuel q slice).1 n h

/-- C23, on the declaration of `example.cpp`: the parse of the five tokens
`prog init pstones 500 -v` returns 5. -/
theorem full_consumption_witness :
    1 ≤ ["prog", "init", "pstones", "500", "-v"].length
    ∧ (Parser.parse (Example.parser "prog") ["prog", "init", "pstones", "500", "-v"]).2
        = .returned 5
    ∧ 5 = ["prog", "init", "pstones", "500", "-v"].length :=
  ⟨by decide, by decide,
    full_consumption.1 (Example.parser "prog") ["prog", "init", "pstones", "500", "-v"] 5
      (by decide) (by decide)⟩

/-! ## Progress of the loop and termination -/

theorem matchFirst_congr {α : Type} (m1 m2 : α → List String → α × Outcome) (argv : List String)
    (xs : List α) (h : ∀ x ∈ xs, m1 x argv = m2 x argv) :
    matchFirst m1 argv xs = matchFirst m2 argv xs := by
  induction xs with
  | nil => rfl
  | cons x xs ih =>
    have hx := h x (List.mem_cons_self _ _)
    have ih' := ih fun y hy => h y (List.mem_cons_of_mem _ hy)
    simp only [matchFirst, hx, ih']

theorem dispatchParsers_congr (sub1 sub2 : Parser → List String → Parser × Outcome)
    (argv : List String) (ps : List Parser) (h : ∀ p ∈ ps, sub1 p argv = sub2 p argv) :
    ∀ (i : Nat) (optionSet : Option Nat),
      dispatchParsers sub1 argv i optionSet ps = dispatchParsers sub2 argv i optionSet ps := by
  induction ps with
  | nil => intro i os; rfl
  | cons p ps ih =>
    intro i os
    have hp := h p (List.mem_cons_self _ _)
    have ih' := ih fun y hy => h y (List.mem_cons_of_mem _ hy)
    simp only [dispatchParsers, hp, ih']

theorem dispatchGroup_congr (sub1 sub2 : Parser → List String → Parser × Outcome)
    (argv : List String) (g : ArgGroup) (h : ∀ p ∈ g.m_parsers, sub1 p argv = sub2 p argv) :
    dispatchGroup sub1 argv g = dispatchGroup sub2 argv g := by
  simp only [dispatchGroup, dispatchParsers_congr sub1 sub2 argv g.m_parsers h]

theorem dispatchGroups_congr (sub1 sub2 : Parser → List String → Parser × Outcome)
    (argv : List String) (gs : List ArgGroup) (h : ∀ p, sub1 p argv = sub2 p argv) :
    dispatchGroups sub1 argv gs = dispatchGroups sub2 argv gs :=
  matchFirst_congr _ _ argv gs fun g _ => dispatchGroup_congr sub1 sub2 argv g fun p _ => h p

theorem parseFrom_congr (sub1 sub2 : Parser → List String → Parser × Outcome)
    (argv : List String)
    (h : ∀ (slice : List String) (q : Parser), 1 ≤ slice.length → slice.length < argv.length →
      sub1 q slice = sub2 q slice) :
    ∀ (steps argNum : Nat) (gs : List ArgGroup), 1 ≤ argNum →
      parseFrom sub1 argv steps argNum gs = parseFrom sub2 argv steps argNum gs := by
  intro steps
  induction steps with
  | zero => intro argNum gs _; rfl
  | succ steps ih =>
    intro argNum gs hpos
    by_cases hlt : argNum < argv.length
    · have hd := dispatchGroups_congr sub1 sub2 (argv.drop argNum) gs fun p =>
        h (argv.drop argNum) p (by simp; omega) (by simp; omega)
      rcases hr : dispatchGroups sub2 (argv.drop argNum) gs with ⟨gs1, o⟩
      rw [hr] at hd
      cases o with
      | returned adv =>
        cases adv with
        | zero => simp [parseFrom, hlt, hd, hr]
        | succ adv =>
          simp only [parseFrom, hlt, hd, hr, if_true]
          exact ih _ _ (by omega)
      | thrown e => simp [parseFrom, hlt, hd, hr]
      | noFuel => simp [parseFrom, hlt, hd, hr]
    · simp [parseFrom, hlt]

theorem parseAux_fuel :
    ∀ (f1 f2 : Nat) (p : Parser) (argv : List String), argv.length < f1 → argv.length < f2 →
      parseAux f1 p argv = parseAux f2 p argv := by
  intro f1
  induction f1 with
  | zero => intro f2 p argv h; omega
  | succ f1 ih =>
    intro f2 p argv h1 h2
    cases f2 with
    | zero => omega
    | succ f2 =>
      rcases p with ⟨cmd, gs⟩
      rcases hc : cmd.match_ argv with ⟨cmd', o⟩
      cases o with
      | returned k =>
        cases k with
        | zero => simp [parseAux, hc]
        | succ k =>
          have := parseFrom_congr (parseAux f1) (parseAux f2) argv
            (fun slice q _ hl => ih f2 q slice (by omega) (by omega))
            (argv.length + 1) (k + 1) gs (by omega)
          simp only [parseAux, hc, this]
      | thrown e => simp [parseAux, hc]
      | noFuel => simp [parseAux, hc]

theorem parseFrom_progress (sub : Parser → List String → Parser × Outcome) (argv : List String)
    (steps argNum : Nat) (gs : List ArgGroup) (hlt : argNum < argv.length)
    (hsub : ∀ p, (sub p (argv.drop argNum)).2 ≠ .noFuel) :
    (∃ gs' e, parseFrom sub argv (steps + 1) argNum gs = (gs', .thrown e))
    ∨ (∃ gs' adv, dispatchGroups sub (argv.drop argNum) gs = (gs', .returned (adv + 1))
        ∧ parseFrom sub argv (steps + 1) argNum gs
          = parseFrom sub argv steps (argNum + (adv + 1)) gs') := by
  have hnf : (dispatchGroups sub (argv.drop argNum) gs).2 ≠ .noFuel :=
    matchFirst_ne_noFuel _ _ (fun g => dispatchGroup_ne_noFuel sub _ hsub g) gs
  rcases hd : dispatchGroups sub (argv.drop argNum) gs with ⟨gs1, o⟩
  rw [hd] at hnf
  cases o with
  | returned adv =>
    cases adv with
    | zero => exact Or.inl ⟨gs1, .unrecognizedArg argNum, by simp [parseFrom, hlt, hd]⟩
    | succ adv => exact Or.inr ⟨gs1, adv, rfl, by simp [parseFrom, hlt, hd]⟩
  | thrown e => exact Or.inl ⟨gs1, e, by simp [parseFrom, hlt, hd]⟩
  | noFuel => exact absurd rfl hnf

theorem parse_terminates (p : Parser) (argv : List String) :
    (∃ p' n, Parser.parse p argv = (p', .returned n))
    ∨ (∃ p' e, Parser.parse p argv = (p', .thrown e)) := by
  have h := parse_ne_noFuel p argv
  rcases hp : Parser.parse p argv with ⟨p', o⟩
  rw [hp] at h
  cases o with
  | returned n => exact Or.inl ⟨p', n, rfl⟩
  | thrown e => exact Or.inr ⟨p', e, rfl⟩
  | noFuel => exact absurd rfl h

/-- C26.  An iteration of the loop of `Parser::parse` at an index
`argNum < argc` either ends the parse with an exception or moves the index
forward by what the pass over the groups consumed, at least 1.  The recursive
call is consulted only on the sub-commands of the group at hand, and on token
lists that are not empty and strictly shorter than `argv`: two functions that
agree there give the same loop.  Hence the parse of any command on any token
list ends with a count or an exception, and the result is the same for every
bound on the depth of the recursion that exceeds `argc`. -/
theorem progress_and_termination :
    (∀ (fuel steps argNum : Nat) (argv : List String) (gs : List ArgGroup),
      argNum < argv.length → (argv.drop argNum).length < fuel →
      (∃ gs' e, parseFrom (parseAux fuel) argv (steps + 1) argNum gs = (gs', .thrown e))
      ∨ (∃ gs' adv,
          dispatchGroups (parseAux fuel) (argv.drop argNum) gs = (gs', .returned (adv + 1))
          ∧ parseFrom (parseAux fuel) argv (steps + 1) argNum gs
            = parseFrom (parseAux fuel) argv steps (argNum + (adv + 1)) gs'))
    ∧ (∀ (sub1 sub2 : Parser → List String → Parser × Outcome) (argv : List String)
        (ps : List Parser), (∀ p ∈ ps, sub1 p argv = sub2 p argv) →
        ∀ (i : Nat) (optionSet : Option Nat),
          dispatchParsers sub1 argv i optionSet ps = dispatchParsers sub2 argv i optionSet ps)
    ∧ (∀ (sub1 sub2 : Parser → List String → Parser × Outcome) (argv : List String),
        (∀ (slice : List String) (q : Parser), 1 ≤ slice.length →
          slice.length < argv.length → sub1 q slice = sub2 q slice) →
        ∀ (steps argNum : Nat) (gs : List ArgGroup), 1 ≤ argNum →
          parseFrom sub1 argv steps argNum gs = parseFrom sub2 argv steps argNum gs)
    ∧ (∀ (fuel : Nat) (p : Parser) (argv : List String), argv.length < fuel →
        parseAux fuel p argv = Parser.parse p argv)
    ∧ (∀ (p : Parser) (argv : List String),
        (∃ p' n, Parser.parse p argv = (p', .returned n))
        ∨ (∃ p' e, Parser.parse p argv = (p', .thrown e))) := by
  refine ⟨?_, ?_, ?_, ?_, ?_⟩
  · intro fuel steps argNum argv gs hlt hf
    exact parseFrom_progress _ argv steps argNum gs hlt
      fun p => parseAux_ne_noFuel fuel p _ hf
  · intro sub1 sub2 argv ps h
    exact dispatchParsers_congr sub1 sub2 argv ps h
  · intro sub1 sub2 argv h
    exact parseFrom_congr sub1 sub2 argv h
  · intro fuel p argv h
    exact parseAux_fuel fuel (argv.length + 1) p argv h (by omega)
  · intro p argv
    exact parse_terminates p argv

/-- C26, on the root `prog` with the flags `-v` and `-x` and the tokens
`prog -v -vy`: the iteration at index 1 consumes `-v` and moves to index 2 (or
the parse would have ended there with an exception). -/
theorem progress_and_termination_witness :
    1 < ["prog", "-v", "-vy"].length
    ∧ (["prog", "-v", "-vy"].drop 1).length < 3
    ∧ ((∃ gs' e, parseFrom (parseAux 3) ["prog", "-v", "-vy"] (2 + 1) 1 [Inputs.flagsVX]
          = (gs', .thrown e))
      ∨ (∃ gs' adv,
          dispatchGroups (parseAux 3) (["prog", "-v", "-vy"].drop 1) [Inputs.flagsVX]
            = (gs', .returned (adv + 1))
          ∧ parseFrom (parseAux 3) ["prog", "-v", "-vy"] (2 + 1) 1 [Inputs.flagsVX]
            = parseFrom (parseAux 3) ["prog", "-v", "-vy"] 2 (1 + (adv + 1)) gs')) :=
  ⟨by decide, by decide,
    progress_and_termination.1 3 2 1 ["prog", "-v", "-vy"] [Inputs.flagsVX] (by decide)
      (by decide)⟩

/-! ## A sub-command that stops at a token it does not recognise -/

theorem ofVoid_markSet_set (a : Arg) (n m : Nat)
    (h : Outcome.ofVoid a.markSet.2 n = .returned m) : a.markSet.1.m_set = true := by
  unfold Arg.markSet at h ⊢
  by_cases hs : a.m_set = true
  · simp [hs, Outcome.ofVoid] at h
  · simp [hs]

theorem anyArg_match_set (a a' : AnyArg) (argv : List String) (n : Nat)
    (h : a.match_ argv = (a', .returned (n + 1))) : a'.isSet = true := by
  cases a with
  | value v =>
    cases argv with
    | nil => simp [AnyArg.match_, ValueArg.match_] at h
    | cons a0 rest =>
      by_cases hs : v.m_set = true
      · simp [AnyArg.match_, ValueArg.match_, hs] at h
      · simp only [AnyArg.match_, ValueArg.match_, hs, ValueArg.setValue] at h
        simp only [Prod.mk.injEq] at h
        obtain ⟨h1, h2⟩ := h
        subst h1
        exact ofVoid_markSet_set _ _ _ h2
  | key k =>
    cases argv with
    | nil => simp [AnyArg.match_, KeyArg.match_] at h
    | cons a0 rest =>
      by_cases hal : a0 ∈ k.m_aliases
      · simp only [AnyArg.match_, KeyArg.match_, hal, if_true, Prod.mk.injEq] at h
        obtain ⟨h1, h2⟩ := h
        subst h1
        exact ofVoid_markSet_set _ _ _ h2
      · simp [AnyArg.match_, KeyArg.match_, hal] at h
  | keyValue k =>
    cases argv with
    | nil => simp [AnyArg.match_, KeyValueArg.match_] at h
    | cons a0 rest =>
      revert h
      simp only [AnyArg.match_, KeyValueArg.match_]
      cases hp : find_first_of a0.data '=' with
      | none =>
        by_cases hal : a0 ∈ k.m_aliases
        · cases rest with
          | nil => simp [hal]
          | cons a1 rest1 =>
            by_cases hg : charAt a1 0 = GLUE_CHAR
            · simp [hal, hg]
            · simp only [hal, hg, if_true, if_false, KeyValueArg.setValue, Prod.mk.injEq]
              rintro ⟨h1, h2⟩
              subst h1
              exact ofVoid_markSet_set _ _ _ h2
        · simp [hal]
      | some p =>
        by_cases hal : substrTo a0 p ∈ k.m_aliases
        · simp only [hal, if_true, KeyValueArg.setValue, Prod.mk.injEq]
          rintro ⟨h1, h2⟩
          subst h1
          exact ofVoid_markSet_set _ _ _ h2
        · simp [hal]

/-- A parse that throws `UnrecognizedArgException` with an index other than 0
was stopped inside its loop: the discriminator matched and is set, the loop
reached the index by iterations that consumed tokens, the index is below the
length of the token list (the condition of the loop still held, so the
validation pass that follows the loop was not reached), and the pass over the
groups at the index consumed nothing. -/
theorem parseAux_unrecognized_inv (fuel : Nat) (p p' : Parser) (argv : List String) (i : Nat)
    (h : parseAux fuel p argv = (p', .thrown (.unrecognizedArg (i + 1)))) :
    ∃ (fuel' : Nat) (cmd' : AnyArg) (j : Nat) (gsi gs' : List ArgGroup),
      fuel = fuel' + 1
      ∧ p.cmd.match_ argv = (cmd', .returned (j + 1))
      ∧ cmd'.isSet = true
      ∧ LoopReaches (parseAux fuel') argv (j + 1) p.argGroups (i + 1) gsi
      ∧ i + 1 < argv.length
      ∧ dispatchGroups (parseAux fuel') (argv.drop (i + 1)) gsi = (gs', .returned 0)
      ∧ p' = .mk cmd' gs' := by
  cases fuel with
  | zero => simp [parseAux] at h
  | succ fuel =>
    rcases p with ⟨cmd, gs⟩
    have hpl : (cmd.match_ argv).2.plain := by
      cases cmd with
      | value v => simpa [AnyArg.match_] using valueArg_match_plain v argv
      | key k => simpa [AnyArg.match_] using keyArg_match_plain k argv
      | keyValue k => simpa [AnyArg.match_] using keyValueArg_match_plain k argv
    rcases hm : cmd.match_ argv with ⟨cmd', o⟩
    rw [hm] at hpl
    cases o with
    | returned k =>
      cases k with
      | zero =>
        simp only [parseAux, hm] at h
        simp at h
      | succ k =>
        rcases hl : parseFrom (parseAux fuel) argv (argv.length + 1) (k + 1) gs with ⟨gs', o'⟩
        simp only [parseAux, hm, hl] at h
        cases h
        obtain ⟨gsi, hr, hlen, hdi⟩ := parseFrom_unrecognized _ _ _ _ _ _ _ hl
        exact ⟨fuel, cmd', k, gsi, gs', rfl, hm, anyArg_match_set cmd cmd' argv k hm, hr, hlen,
          hdi, rfl⟩
    | thrown e =>
      simp only [parseAux, hm] at h
      cases h
      exact absurd rfl (hpl (i + 1))
    | noFuel => simp [parseAux, hm] at h

theorem dispatchParsers_required (sub : Parser → List String → Parser × Outcome)
    (argv : List String) (i : Nat) (optionSet : Option Nat) (b b' : Parser) (o : Outcome)
    (n : Nat) (qs : List Parser)
    (hb : sub b argv = (b', o)) (ho : catchUnrecognized o = .returned (n + 1))
    (hreq : b'.cmd.required = true) :
    dispatchParsers sub argv i optionSet (b :: qs) = (b' :: qs, optionSet, .returned (n + 1)) := by
  simp [dispatchParsers, hb, ho, hreq]

theorem map_parse_unchanged (fuel : Nat) (argv : List String) (ps : List Parser)
    (h : ∀ c ∈ ps, catchUnrecognized (parseAux fuel c argv).2 = .returned 0) :
    (ps.map fun c => (parseAux fuel c argv).1) = ps := by
  induction ps with
  | nil => rfl
  | cons p ps ih =>
    simp only [List.map_cons]
    rw [parseAux_zero_unchanged fuel p argv (h p (List.mem_cons_self _ _)),
      ih fun c hc => h c (List.mem_cons_of_mem _ hc)]


/-- C24 (amended).  In an iteration of the loop of `Parser::parse` at the index
`argNum`, let the groups before `g` and the sub-commands of `g` before `b`
consume nothing, and let the parse of `b` on the slice throw
`UnrecognizedArgException` with the index `k + 1`, leaving `b` in the state
`b'`.  Then the discriminator of `b'` is set, the index `k + 1` is inside the
slice (the parse of `b` was stopped in its loop, before its validation pass),
and the loop over the sub-commands ends at `b` with `b'` in its place.  When
`b` is required, or the group has no option recorded, the advance is `k + 1`:
the parent goes on at the index `argNum + (k + 1)`, the token that `b` did not
recognise, with `b'` kept and, when `b` is optional, recorded as the option of
the group.  When `b` is optional and the group has an option recorded, the
parent throws `ExcessiveCmdException` instead, `b'` being kept as well.
Nothing is asked of the groups of `b'`: they need not pass the validation. -/
theorem partial_consumption (fuel : Nat) (argv : List String) (steps argNum : Nat)
    (pre pre' post : List ArgGroup) (g : ArgGroup) (ps qs : List Parser) (b b' : Parser)
    (k : Nat)
    (hlt : argNum < argv.length)
    (hpre : dispatchGroups (parseAux fuel) (argv.drop argNum) pre = (pre', .returned 0))
    (hps : g.m_parsers = ps ++ b :: qs)
    (hzero : ∀ c ∈ ps, catchUnrecognized (parseAux fuel c (argv.drop argNum)).2 = .returned 0)
    (hsub : parseAux fuel b (argv.drop argNum) = (b', .thrown (.unrecognizedArg (k + 1)))) :
    b'.cmd.isSet = true
    ∧ k + 1 < (argv.drop argNum).length
    ∧ argNum + (k + 1) < argv.length
    ∧ dispatchParsers (parseAux fuel) (argv.drop argNum) 0 g.m_optionSet g.m_parsers
        = (ps ++ b' :: qs,
            if b'.cmd.required = false ∧ g.m_optionSet = none then some ps.length
            else g.m_optionSet,
            if b'.cmd.required = false ∧ g.m_optionSet.isSome then .thrown .excessiveCmd
            else .returned (k + 1))
    ∧ (b'.cmd.required = true ∨ g.m_optionSet = none →
        parseFrom (parseAux fuel) argv (steps + 1) argNum (pre ++ g :: post)
          = parseFrom (parseAux fuel) argv steps (argNum + (k + 1))
              (pre' ++ withChild g ps qs b' :: post)
        ∧ (b'.cmd.required = false → (withChild g ps qs b').optionSet = some b'.cmd))
    ∧ (b'.cmd.required = false → g.m_optionSet.isSome →
        parseFrom (parseAux fuel) argv (steps + 1) argNum (pre ++ g :: post)
          = (pre' ++ { g with m_parsers := ps ++ b' :: qs } :: post, .thrown .excessiveCmd)) := by
  obtain ⟨fuel', cmd', j, gsi, gs', _, _, hset, _, hlen, _, hb'⟩ :=
    parseAux_unrecognized_inv fuel b b' (argv.drop argNum) k hsub
  have hcu : catchUnrecognized (.thrown (.unrecognizedArg (k + 1))) = .returned (k + 1) := rfl
  have hmap := map_parse_unchanged fuel (argv.drop argNum) ps hzero
  have hdp : dispatchParsers (parseAux fuel) (argv.drop argNum) 0 g.m_optionSet g.m_parsers
      = (ps ++ b' :: qs,
          if b'.cmd.required = false ∧ g.m_optionSet = none then some ps.length
          else g.m_optionSet,
          if b'.cmd.required = false ∧ g.m_optionSet.isSome then .thrown .excessiveCmd
          else .returned (k + 1)) := by
    rw [hps, dispatchParsers_append_zero _ _ _ _ _ _ hzero, hmap]
    by_cases hr : b'.cmd.required = true
    · rw [dispatchParsers_required _ _ _ _ b b' _ k qs hsub hcu hr]
      simp [hr]
    · have hr' : b'.cmd.required = false := by simpa using hr
      cases hos : g.m_optionSet with
      | none =>
        rw [dispatchParsers_records _ _ _ b b' _ k qs hsub hcu hr']
        simp [hr']
      | some a =>
        rw [dispatchParsers_excessive _ _ a _ b b' _ k qs hsub hcu hr']
        simp [hr']
  have hlen2 : argNum + (k + 1) < argv.length := by
    simp at hlen
    omega
  refine ⟨by rw [hb']; exact hset, hlen, hlen2, hdp, ?_, ?_⟩
  · intro hfree
    have hg : dispatchGroup (parseAux fuel) (argv.drop argNum) g
        = (withChild g ps qs b', .returned (k + 1)) := by
      simp only [dispatchGroup, hdp, withChild]
      rcases hfree with hr | hn
      · simp [hr]
      · by_cases hr : b'.cmd.required = true
        · simp [hr]
        · simp [hr, hn]
    have hgs : dispatchGroups (parseAux fuel) (argv.drop argNum) (pre ++ g :: post)
        = (pre' ++ withChild g ps qs b' :: post, .returned (k + 1)) := by
      unfold dispatchGroups at hpre ⊢
      rw [matchFirst_append_zero _ _ _ _ _ hpre,
        matchFirst_cons_stop _ _ g _ post _ hg (by simp)]
    refine ⟨by simp [parseFrom, hlt, hgs], ?_⟩
    intro hr
    have hget : (ps ++ b' :: qs).get? ps.length = some b' := by
      rw [List.get?_eq_getElem?, List.getElem?_append_right (Nat.le_refl _)]
      simp
    simp only [withChild, ArgGroupOf.optionSet, hr, Bool.false_eq_true, if_false,
      Option.some_bind, hget, Option.map_some']
  · intro hr hsome
    have hg : dispatchGroup (parseAux fuel) (argv.drop argNum) g
        = ({ g with m_parsers := ps ++ b' :: qs }, .thrown .excessiveCmd) := by
      simp only [dispatchGroup, hdp]
      cases hos : g.m_optionSet with
      | none => simp [hos] at hsome
      | some a => simp [hr]
    have hgs : dispatchGroups (parseAux fuel) (argv.drop argNum) (pre ++ g :: post)
        = (pre' ++ { g with m_parsers := ps ++ b' :: qs } :: post, .thrown .excessiveCmd) := by
      unfold dispatchGroups at hpre ⊢
      rw [matchFirst_append_zero _ _ _ _ _ hpre,
        matchFirst_cons_stop _ _ g _ post _ hg (by simp)]
    simp [parseFrom, hlt, hgs]


/-- C24, on the declaration of `example.cpp` and the tokens `prog init -v`: the
parse of `init` throws `UnrecognizedArgException` with index 1 at `-v`, its
groups do not pass the validation (`pstones` is required and unset), and the
root goes on at index 2 with `init` set and recorded; the whole parse returns
3. -/
theorem partial_consumption_witness :
    parseAux 3 (.mk (.key Example.initArg) [{}, Example.pyramidArgsGroup]) ["init", "-v"]
      = (.mk (.key { Example.initArg with m_set := true }) [{}, Example.pyramidArgsGroup],
          .thrown (.unrecognizedArg 1))
    ∧ [({} : ArgGroup), Example.pyramidArgsGroup].all validGroup = false
    ∧ parseFrom (parseAux 3) ["prog", "init", "-v"] (3 + 1) 1 ([] ++ Example.rootGroup :: [])
      = parseFrom (parseAux 3) ["prog", "init", "-v"] 3 (1 + (0 + 1))
          ([] ++ withChild Example.rootGroup [] (Example.subCmds.drop 1)
            (.mk (.key { Example.initArg with m_set := true }) [{}, Example.pyramidArgsGroup])
            :: [])
    ∧ (Parser.parse (Example.parser "prog") ["prog", "init", "-v"]).2 = .returned 3 :=
  ⟨rfl, by decide,
    ((partial_consumption 3 ["prog", "init", "-v"] 3 1 [] [] [] Example.rootGroup []
      (Example.subCmds.drop 1) (.mk (.key Example.initArg) [{}, Example.pyramidArgsGroup])
      (.mk (.key { Example.initArg with m_set := true }) [{}, Example.pyramidArgsGroup]) 0
      (by decide) rfl rfl (by intro c hc; simp at hc) rfl).2.2.2.2.1 (Or.inr rfl)).1,
    by decide⟩

/-- C24 as stated fails on the root `root` with the optional sub-commands `A`
and `B` and the tokens `root A B x`, at index 2, where `A` is recorded: the
discriminator of `B` matches and the parse of `B` throws
`UnrecognizedArgException` with index 1 at `x`, yet the root does not record
`B` (the option of the group is still `A`, position 0) and does not go on at
`x`: it throws `ExcessiveCmdException`. -/
theorem partial_consumption_counterexample :
    (parseAux 4 (Inputs.flagCmd "B") ["B", "x"]).2 = .thrown (.unrecognizedArg 1)
    ∧ (parseAux 4 (Inputs.flagCmd "B") ["B", "x"]).1.cmd.isSet = true
    ∧ (parseFrom (parseAux 4) ["root", "A", "B", "x"] 4 2 [Inputs.twoOptionsAfterA]).2
        = .thrown .excessiveCmd
    ∧ (parseFrom (parseAux 4) ["root", "A", "B", "x"] 4 2 [Inputs.twoOptionsAfterA]).1.map
        (fun g => (g.m_optionSet, g.m_parsers.map fun p => p.cmd.isSet))
        = [(some 0, [true, true])]
    ∧ (Parser.parse Inputs.twoOptions ["root", "A", "B", "x"]).2 = .thrown .excessiveCmd :=
  ⟨by decide, by decide, by decide, by decide, by decide⟩

/-! ## Named groups in the synopsis -/

theorem table_contains_iff (t : Table) (key : Nat) : t.contains key = true ↔ key ∈ t.keys := by
  induction t with
  | nil => simp [Table.contains, Table.keys, List.lookup]
  | cons kv t ih =>
    rcases kv with ⟨k, v⟩
    by_cases hk : key = k
    · subst hk
      simp [Table.contains, Table.keys, List.lookup]
    · have hb : (key == k) = false := by simpa using hk
      simp only [Table.contains, List.lookup, hb, Table.keys, List.map_cons, List.mem_cons, hk,
        false_or]
      exact ih

theorem table_keys_assign (t : Table) (key : Nat) (val : String) (k : Nat) :
    k ∈ (t.assign key val).keys ↔ k = key ∨ k ∈ t.keys := by
  induction t with
  | nil => simp [Table.assign, Table.keys]
  | cons kv t ih =>
    rcases kv with ⟨k0, v0⟩
    simp only [Table.keys] at ih
    by_cases h1 : key < k0
    · simp [Table.assign, Table.keys, h1]
    · by_cases h2 : key = k0
      · subst h2
        simp [Table.assign, Table.keys]
      · simp only [Table.assign, h1, h2, if_false, Table.keys, List.map_cons, List.mem_cons, ih]
        tauto

theorem table_mem_assign (t : Table) (key : Nat) (val : String) (kv : Nat × String)
    (h : kv ∈ t.assign key val) : kv = (key, val) ∨ kv ∈ t := by
  induction t with
  | nil => simpa [Table.assign] using h
  | cons x t ih =>
    rcases x with ⟨k0, v0⟩
    by_cases h1 : key < k0
    · simp only [Table.assign, h1, if_true, List.mem_cons] at h
      rcases h with h | h | h
      · exact Or.inl h
      · exact Or.inr (by simp [h])
      · exact Or.inr (by simp [h])
    · by_cases h2 : key = k0
      · subst h2
        simp only [Table.assign, Nat.lt_irrefl, if_true, if_false, List.mem_cons] at h
        rcases h with h | h
        · exact Or.inl h
        · exact Or.inr (by simp [h])
      · simp only [Table.assign, h1, h2, if_false, List.mem_cons] at h
        rcases h with h | h
        · exact Or.inr (by simp [h])
        · rcases ih h with h | h
          · exact Or.inl h
          · exact Or.inr (by simp [h])

theorem table_sorted_assign (t : Table) (key : Nat) (val : String)
    (h : t.keys.Pairwise (· < ·)) : (t.assign key val).keys.Pairwise (· < ·) := by
  induction t with
  | nil => simp [Table.assign, Table.keys]
  | cons x t ih =>
    rcases x with ⟨k0, v0⟩
    simp only [Table.keys, List.map_cons, List.pairwise_cons] at h
    by_cases h1 : key < k0
    · simp only [Table.assign, h1, if_true, Table.keys, List.map_cons, List.pairwise_cons]
      refine ⟨?_, h⟩
      intro a ha
      rcases List.mem_cons.1 ha with rfl | ha
      · exact h1
      · exact Nat.lt_trans h1 (h.1 a ha)
    · by_cases h2 : key = k0
      · subst h2
        simpa [Table.assign, Table.keys] using h
      · have hlt : k0 < key := by omega
        simp only [Table.assign, h1, h2, if_false, Table.keys, List.map_cons,
          List.pairwise_cons]
        refine ⟨?_, ih h.2⟩
        intro a ha
        rcases (table_keys_assign t key val a).1 ha with rfl | ha
        · exact hlt
        · exact h.1 a ha


theorem mem_namedGroupsOfCmds (ps : List Parser) (g : ArgGroup) :
    g ∈ namedGroupsOfCmds ps ↔ ∃ p ∈ ps, g ∈ p.namedGroups := by
  induction ps with
  | nil => simp [namedGroupsOfCmds]
  | cons p ps ih => simp [namedGroupsOfCmds, ih]

theorem group_namedGroups_eq (g : ArgGroup) :
    ArgGroupOf.namedGroups g = namedGroupsOfCmds g.m_parsers := by
  rcases g with ⟨nm, orq, os, ps, vs, ks, kvs, ad⟩
  simp only [ArgGroupOf.namedGroups]

mutual

theorem parser_namedGroups_closed : ∀ (p : Parser) (h : ArgGroup), h ∈ p.namedGroups →
    ∀ g ∈ ArgGroupOf.namedGroups h, g ∈ p.namedGroups
  | .mk cmd gs, h, hh => by
    simp only [Parser.namedGroups] at hh ⊢
    exact groups_namedGroups_closed gs h hh

theorem groups_namedGroups_closed : ∀ (gs : List (ArgGroupOf Parser)) (h : ArgGroup),
    h ∈ namedGroupsOfGroups gs → ∀ g ∈ ArgGroupOf.namedGroups h, g ∈ namedGroupsOfGroups gs
  | [], h, hh => by simp [namedGroupsOfGroups] at hh
  | x :: gs, h, hh => by
    intro g hg
    simp only [namedGroupsOfGroups, List.mem_append] at hh ⊢
    rcases hh with hh | hh | hh
    · have hx : h = x := by
        by_cases hn : x.m_name.isEmpty = true
        · simp [hn] at hh
        · simpa [hn] using hh
      subst hx
      exact Or.inr (Or.inl hg)
    · exact Or.inr (Or.inl (group_namedGroups_closed x h hh g hg))
    · exact Or.inr (Or.inr (groups_namedGroups_closed gs h hh g hg))

theorem group_namedGroups_closed : ∀ (x : ArgGroupOf Parser) (h : ArgGroup),
    h ∈ ArgGroupOf.namedGroups x → ∀ g ∈ ArgGroupOf.namedGroups h, g ∈ ArgGroupOf.namedGroups x
  | ⟨_, _, _, ps, _, _, _, _⟩, h, hh => by
    simp only [ArgGroupOf.namedGroups] at hh ⊢
    exact cmds_namedGroups_closed ps h hh

theorem cmds_namedGroups_closed : ∀ (ps : List Parser) (h : ArgGroup),
    h ∈ namedGroupsOfCmds ps → ∀ g ∈ ArgGroupOf.namedGroups h, g ∈ namedGroupsOfCmds ps
  | [], h, hh => by simp [namedGroupsOfCmds] at hh
  | p :: ps, h, hh => by
    intro g hg
    simp only [namedGroupsOfCmds, List.mem_append] at hh ⊢
    rcases hh with hh | hh
    · exact Or.inl (parser_namedGroups_closed p h hh g hg)
    · exact Or.inr (cmds_namedGroups_closed ps h hh g hg)

end

theorem tableInv_assign (U : List ArgGroup) (hU : AddressesIdentify U) (t : Table)
    (g : ArgGroup) (hg : g ∈ U) (ht : TableInv U t)
    (hbelow : ∀ x ∈ ArgGroupOf.namedGroups g, x.addr ∈ t.keys) :
    TableInv U (t.assign g.addr g.synopsisEntry) := by
  obtain ⟨h1, h2, h3⟩ := ht
  refine ⟨table_sorted_assign t _ _ h1, ?_, ?_⟩
  · intro kv hkv
    rcases table_mem_assign t _ _ kv hkv with h | h
    · exact ⟨g, hg, by rw [h], by rw [h]⟩
    · exact h2 kv h
  · intro h hh hk x hx
    rw [table_keys_assign] at hk ⊢
    rcases hk with hk | hk
    · have : h = g := hU h hh g hg hk
      subst this
      exact Or.inr (hbelow x hx)
    · exact Or.inr (h3 h hh hk x hx)


mutual

theorem parser_cover (U : List ArgGroup) (hU : AddressesIdentify U) :
    ∀ (p : Parser) (t : Table), (∀ g ∈ p.namedGroups, g ∈ U) → TableInv U t →
      TableInv U (p.synopsis t).2 ∧ (∀ k ∈ t.keys, k ∈ (p.synopsis t).2.keys)
        ∧ ∀ g ∈ p.namedGroups, g.addr ∈ (p.synopsis t).2.keys
  | .mk cmd gs, t, hsub, ht => by
    simp only [Parser.synopsis, Parser.namedGroups] at hsub ⊢
    exact groups_cover U hU gs cmd.synopsis t hsub ht

theorem groups_cover (U : List ArgGroup) (hU : AddressesIdentify U) :
    ∀ (gs : List (ArgGroupOf Parser)) (r : String) (t : Table),
      (∀ g ∈ namedGroupsOfGroups gs, g ∈ U) → TableInv U t →
      TableInv U (synopsisGroups gs r t).2 ∧ (∀ k ∈ t.keys, k ∈ (synopsisGroups gs r t).2.keys)
        ∧ ∀ g ∈ namedGroupsOfGroups gs, g.addr ∈ (synopsisGroups gs r t).2.keys
  | [], r, t, hsub, ht => by
    simp only [synopsisGroups, namedGroupsOfGroups]
    exact ⟨ht, fun k hk => hk, fun g hg => by simp at hg⟩
  | x :: gs, r, t, hsub, ht => by
    have hsubx : ∀ g ∈ ArgGroupOf.namedGroups x, g ∈ U := fun g hg =>
      hsub g (by simp only [namedGroupsOfGroups, List.mem_append]; exact Or.inr (Or.inl hg))
    have hsubgs : ∀ g ∈ namedGroupsOfGroups gs, g ∈ U := fun g hg =>
      hsub g (by simp only [namedGroupsOfGroups, List.mem_append]; exact Or.inr (Or.inr hg))
    have hx := group_cover U hU x t hsubx ht
    have htext : (ArgGroupOf.synopsis x t).1 = x.synopsisText := group_synopsis_indep x t []
    rcases hxs : ArgGroupOf.synopsis x t with ⟨sx, t1⟩
    rw [hxs] at hx htext
    simp only at hx htext
    by_cases hn : x.m_name.isEmpty = true
    · have hrest := groups_cover U hU gs (r ++ sx) t1 hsubgs hx.1
      simp only [synopsisGroups, hn, if_true, hxs, namedGroupsOfGroups, List.nil_append,
        List.mem_append]
      refine ⟨hrest.1, fun k hk => hrest.2.1 k (hx.2.1 k hk), ?_⟩
      rintro g (hg | hg)
      · exact hrest.2.1 _ (hx.2.2 g hg)
      · exact hrest.2.2 g hg
    · have hxU : x ∈ U :=
        hsub x (by simp only [namedGroupsOfGroups, hn, List.mem_append]; exact Or.inl (by simp))
      by_cases hc : t.contains x.addr = true
      · have hrest := groups_cover U hU gs (r ++ " (" ++ x.m_name ++ ")") t hsubgs ht
        have hk : x.addr ∈ t.keys := (table_contains_iff t x.addr).1 hc
        simp only [synopsisGroups, hn, hc, if_true, if_false, namedGroupsOfGroups,
          List.mem_append]
        refine ⟨hrest.1, hrest.2.1, ?_⟩
        rintro g (hg | hg | hg)
        · have : g = x := by simpa [hn] using hg
          subst this
          exact hrest.2.1 _ hk
        · exact hrest.2.1 _ (ht.2.2 x hxU hk g hg)
        · exact hrest.2.2 g hg
      · have hinv : TableInv U (t1.assign x.addr x.synopsisEntry) :=
          tableInv_assign U hU t1 x hxU hx.1 hx.2.2
        have hrest := groups_cover U hU gs (r ++ " (" ++ x.m_name ++ ")")
          (t1.assign x.addr x.synopsisEntry) hsubgs hinv
        have he : "(" ++ x.m_name ++ ") :=" ++ sx = x.synopsisEntry := by
          rw [htext]; rfl
        simp only [synopsisGroups, hn, hc, if_false, hxs, he, namedGroupsOfGroups,
          List.mem_append]
        refine ⟨hrest.1, ?_, ?_⟩
        · intro k hk
          exact hrest.2.1 k ((table_keys_assign _ _ _ _).2 (Or.inr (hx.2.1 k hk)))
        · rintro g (hg | hg | hg)
          · have : g = x := by simpa [hn] using hg
            subst this
            exact hrest.2.1 _ ((table_keys_assign _ _ _ _).2 (Or.inl rfl))
          · exact hrest.2.1 _ ((table_keys_assign _ _ _ _).2 (Or.inr (hx.2.2 g hg)))
          · exact hrest.2.2 g hg

theorem group_cover (U : List ArgGroup) (hU : AddressesIdentify U) :
    ∀ (x : ArgGroupOf Parser) (t : Table), (∀ g ∈ ArgGroupOf.namedGroups x, g ∈ U) →
      TableInv U t →
      TableInv U (ArgGroupOf.synopsis x t).2 ∧ (∀ k ∈ t.keys, k ∈ (ArgGroupOf.synopsis x t).2.keys)
        ∧ ∀ g ∈ ArgGroupOf.namedGroups x, g.addr ∈ (ArgGroupOf.synopsis x t).2.keys
  | ⟨_, optionRequired, _, ps, vs, ks, kvs, _⟩, t, hsub, ht => by
    simp only [ArgGroupOf.namedGroups] at hsub
    have h1 := requiredCmds_cover U hU ps "" t hsub ht
    have h2 := optionalCmds_cover U hU ps "" (synopsisRequiredCmds ps "" t).2 hsub h1.1
    simp only [ArgGroupOf.synopsis, ArgGroupOf.namedGroups]
    refine ⟨h2.1, fun k hk => h2.2.1 k (h1.2.1 k hk), ?_⟩
    intro g hg
    obtain ⟨p, hp, hgp⟩ := (mem_namedGroupsOfCmds ps g).1 hg
    by_cases hr : p.cmd.required = true
    · exact h2.2.1 _ (h1.2.2 p hp hr g hgp)
    · exact h2.2.2 p hp (by simpa using hr) g hgp

theorem requiredCmds_cover (U : List ArgGroup) (hU : AddressesIdentify U) :
    ∀ (ps : List Parser) (acc : String) (t : Table), (∀ g ∈ namedGroupsOfCmds ps, g ∈ U) →
      TableInv U t →
      TableInv U (synopsisRequiredCmds ps acc t).2
        ∧ (∀ k ∈ t.keys, k ∈ (synopsisRequiredCmds ps acc t).2.keys)
        ∧ ∀ p ∈ ps, p.cmd.required = true → ∀ g ∈ p.namedGroups,
            g.addr ∈ (synopsisRequiredCmds ps acc t).2.keys
  | [], acc, t, hsub, ht => by
    simp only [synopsisRequiredCmds]
    exact ⟨ht, fun k hk => hk, fun p hp => by simp at hp⟩
  | p :: ps, acc, t, hsub, ht => by
    have hsubp : ∀ g ∈ p.namedGroups, g ∈ U := fun g hg =>
      hsub g (by simp only [namedGroupsOfCmds, List.mem_append]; exact Or.inl hg)
    have hsubps : ∀ g ∈ namedGroupsOfCmds ps, g ∈ U := fun g hg =>
      hsub g (by simp only [namedGroupsOfCmds, List.mem_append]; exact Or.inr hg)
    by_cases hr : p.cmd.required = true
    · have hp := parser_cover U hU p t hsubp ht
      rcases hps : Parser.synopsis p t with ⟨sp, t1⟩
      rw [hps] at hp
      simp only at hp
      have hrest := requiredCmds_cover U hU ps (acc ++ " " ++ sp) t1 hsubps hp.1
      simp only [synopsisRequiredCmds, hr, if_true, hps]
      refine ⟨hrest.1, fun k hk => hrest.2.1 k (hp.2.1 k hk), ?_⟩
      intro q hq hqr g hg
      rcases List.mem_cons.1 hq with rfl | hq
      · exact hrest.2.1 _ (hp.2.2 g hg)
      · exact hrest.2.2 q hq hqr g hg
    · have hrest := requiredCmds_cover U hU ps acc t hsubps ht
      simp only [synopsisRequiredCmds, hr]
      refine ⟨hrest.1, hrest.2.1, ?_⟩
      intro q hq hqr g hg
      rcases List.mem_cons.1 hq with rfl | hq
      · exact absurd hqr hr
      · exact hrest.2.2 q hq hqr g hg

theorem optionalCmds_cover (U : List ArgGroup) (hU : AddressesIdentify U) :
    ∀ (ps : List Parser) (acc : String) (t : Table), (∀ g ∈ namedGroupsOfCmds ps, g ∈ U) →
      TableInv U t →
      TableInv U (synopsisOptionalCmds ps acc t).2
        ∧ (∀ k ∈ t.keys, k ∈ (synopsisOptionalCmds ps acc t).2.keys)
        ∧ ∀ p ∈ ps, p.cmd.required = false → ∀ g ∈ p.namedGroups,
            g.addr ∈ (synopsisOptionalCmds ps acc t).2.keys
  | [], acc, t, hsub, ht => by
    simp only [synopsisOptionalCmds]
    exact ⟨ht, fun k hk => hk, fun p hp => by simp at hp⟩
  | p :: ps, acc, t, hsub, ht => by
    have hsubp : ∀ g ∈ p.namedGroups, g ∈ U := fun g hg =>
      hsub g (by simp only [namedGroupsOfCmds, List.mem_append]; exact Or.inl hg)
    have hsubps : ∀ g ∈ namedGroupsOfCmds ps, g ∈ U := fun g hg =>
      hsub g (by simp only [namedGroupsOfCmds, List.mem_append]; exact Or.inr hg)
    by_cases hr : p.cmd.required = true
    · have hrest := optionalCmds_cover U hU ps acc t hsubps ht
      simp only [synopsisOptionalCmds, hr, Bool.not_true, Bool.false_eq_true, if_false]
      refine ⟨hrest.1, hrest.2.1, ?_⟩
      intro q hq hqr g hg
      rcases List.mem_cons.1 hq with rfl | hq
      · rw [hr] at hqr; exact absurd hqr (by decide)
      · exact hrest.2.2 q hq hqr g hg
    · have hr' : p.cmd.required = false := by simpa using hr
      have hp := parser_cover U hU p t hsubp ht
      rcases hps : Parser.synopsis p t with ⟨sp, t1⟩
      rw [hps] at hp
      simp only at hp
      have hrest := optionalCmds_cover U hU ps
        ((if !acc.isEmpty then acc.push '|' else acc) ++ sp) t1 hsubps hp.1
      simp only [synopsisOptionalCmds, hr', Bool.not_false, if_true, hps]
      refine ⟨hrest.1, fun k hk => hrest.2.1 k (hp.2.1 k hk), ?_⟩
      intro q hq hqr g hg
      rcases List.mem_cons.1 hq with rfl | hq
      · exact hrest.2.1 _ (hp.2.2 g hg)
      · exact hrest.2.2 q hq hqr g hg

end


mutual

theorem parser_namedGroups_named : ∀ (p : Parser), ∀ g ∈ p.namedGroups, g.m_name.isEmpty = false
  | .mk cmd gs => by
    simp only [Parser.namedGroups]
    exact groups_namedGroups_named gs

theorem groups_namedGroups_named : ∀ (gs : List (ArgGroupOf Parser)),
    ∀ g ∈ namedGroupsOfGroups gs, g.m_name.isEmpty = false
  | [] => by simp [namedGroupsOfGroups]
  | x :: gs => by
    intro g hg
    simp only [namedGroupsOfGroups, List.mem_append] at hg
    rcases hg with hg | hg | hg
    · by_cases hn : x.m_name.isEmpty = true
      · simp [hn] at hg
      · have : g = x := by simpa [hn] using hg
        subst this
        simpa using hn
    · exact group_namedGroups_named x g hg
    · exact groups_namedGroups_named gs g hg

theorem group_namedGroups_named : ∀ (x : ArgGroupOf Parser),
    ∀ g ∈ ArgGroupOf.namedGroups x, g.m_name.isEmpty = false
  | ⟨_, _, _, ps, _, _, _, _⟩ => by
    simp only [ArgGroupOf.namedGroups]
    exact cmds_namedGroups_named ps

theorem cmds_namedGroups_named : ∀ (ps : List Parser),
    ∀ g ∈ namedGroupsOfCmds ps, g.m_name.isEmpty = false
  | [] => by simp [namedGroupsOfCmds]
  | p :: ps => by
    intro g hg
    simp only [namedGroupsOfCmds, List.mem_append] at hg
    rcases hg with hg | hg
    · exact parser_namedGroups_named p g hg
    · exact cmds_namedGroups_named ps g hg

end

theorem synopsisGroups_mainLine (gs : List ArgGroup) :
    ∀ (r : String) (t : Table),
      (synopsisGroups gs r t).1 = r ++ String.join (gs.map ArgGroupOf.mainLinePart) := by
  induction gs with
  | nil =>
    intro r t
    apply String.ext
    simp [synopsisGroups, join_nil, String.data_append]
  | cons x gs ih =>
    intro r t
    have htext : (ArgGroupOf.synopsis x t).1 = x.synopsisText := group_synopsis_indep x t []
    rcases hxs : ArgGroupOf.synopsis x t with ⟨sx, t1⟩
    rw [hxs] at htext
    simp only at htext
    by_cases hn : x.m_name.isEmpty = true
    · simp only [synopsisGroups, hn, if_true, hxs, ih, List.map_cons, join_cons,
        ArgGroupOf.mainLinePart, htext, String.append_assoc]
    · have hn' : x.m_name.isEmpty = false := by simpa using hn
      by_cases hc : t.contains x.addr = true
      · simp only [synopsisGroups, hn', hc, if_true, Bool.false_eq_true, if_false, ih,
          List.map_cons, join_cons, ArgGroupOf.mainLinePart, String.append_assoc]
      · have hc' : t.contains x.addr = false := by simpa using hc
        simp only [synopsisGroups, hn', hc', Bool.false_eq_true, if_false, hxs, ih,
          List.map_cons, join_cons, ArgGroupOf.mainLinePart, String.append_assoc]

theorem tableInv_nil (U : List ArgGroup) : TableInv U [] :=
  ⟨by simp [Table.keys], by simp, by simp [Table.keys]⟩

/-- C21.  Let the named groups of a declaration be told apart by their
addresses (a group attached to several commands is the same group at each
place).  Then the text returned by `Parser::synopsis` is the synopsis of the
discriminator followed, for each group of the command in order, by the
synopsis of the group when it has no name and by ` (name)` alone when it has
one, whatever the side table holds.  Started as `printSynopsis` does, with an
empty table, the traversal leaves a table whose entries are exactly the pairs
of the address of a named group met in the traversal and the text `(name) :=`
followed by the synopsis of that group; the keys are in strictly increasing
order, so the number of entries is the number of distinct addresses, however
many commands reference a group; and every group with an entry has a name. -/
theorem named_group_backrefs (cmd : AnyArg) (gs : List ArgGroup)
    (hwf : AddressesIdentify (Parser.mk cmd gs).namedGroups) :
    (∀ t : Table, ((Parser.mk cmd gs).synopsis t).1
        = cmd.synopsis ++ String.join (gs.map ArgGroupOf.mainLinePart))
    ∧ (∀ (k : Nat) (v : String), (k, v) ∈ ((Parser.mk cmd gs).synopsis []).2
        ↔ ∃ g ∈ (Parser.mk cmd gs).namedGroups, k = g.addr ∧ v = g.synopsisEntry)
    ∧ ((Parser.mk cmd gs).synopsis []).2.keys.Pairwise (· < ·)
    ∧ ((Parser.mk cmd gs).synopsis []).2.length
        = (((Parser.mk cmd gs).namedGroups.map fun g => g.addr).dedup).length
    ∧ (∀ g ∈ (Parser.mk cmd gs).namedGroups, g.m_name.isEmpty = false) := by
  have hcov := parser_cover (Parser.mk cmd gs).namedGroups hwf (Parser.mk cmd gs) []
    (fun g hg => hg) (tableInv_nil _)
  obtain ⟨⟨hsorted, hentries, _⟩, _, hall⟩ := hcov
  have hiff : ∀ (k : Nat) (v : String), (k, v) ∈ ((Parser.mk cmd gs).synopsis []).2
      ↔ ∃ g ∈ (Parser.mk cmd gs).namedGroups, k = g.addr ∧ v = g.synopsisEntry := by
    intro k v
    constructor
    · intro h
      exact hentries (k, v) h
    · rintro ⟨g, hg, rfl, rfl⟩
      have hk := hall g hg
      simp only [Table.keys, List.mem_map] at hk
      obtain ⟨⟨k', v'⟩, hmem, hk'⟩ := hk
      simp only at hk'
      obtain ⟨g', hg', h1, h2⟩ := hentries (k', v') hmem
      simp only at h1 h2
      have : g' = g := hwf g' hg' g hg (by rw [← h1, hk'])
      subst this
      rw [h1, h2] at hmem
      exact hmem
  refine ⟨?_, hiff, hsorted, ?_, parser_namedGroups_named _⟩
  · intro t
    simp only [Parser.synopsis]
    exact synopsisGroups_mainLine gs cmd.synopsis t
  · have hnd : ((Parser.mk cmd gs).synopsis []).2.keys.Nodup :=
      hsorted.imp (fun h => Nat.ne_of_lt h)
    have hperm : ((Parser.mk cmd gs).synopsis []).2.keys.Perm
        (((Parser.mk cmd gs).namedGroups.map fun g => g.addr).dedup) := by
      rw [List.perm_ext_iff_of_nodup hnd (List.nodup_dedup _)]
      intro k
      rw [List.mem_dedup, List.mem_map]
      constructor
      · intro hk
        simp only [Table.keys, List.mem_map] at hk
        obtain ⟨⟨k', v'⟩, hmem, hk'⟩ := hk
        obtain ⟨g, hg, h1, _⟩ := hentries (k', v') hmem
        simp only at hk' h1
        exact ⟨g, hg, by rw [← h1, hk']⟩
      · rintro ⟨g, hg, rfl⟩
        exact hall g hg
    have := hperm.length_eq
    simpa [Table.keys] using this




theorem twoCmdsSharing_namedGroups :
    Inputs.twoCmdsSharing.namedGroups = [Inputs.sharedOptions, Inputs.sharedOptions] := by
  rfl

/-- C21, on a root `prog` whose sub-commands `a` and `b` both have the group
`opts` attached: the main line holds ` (opts)` twice and the table has the one
entry `(opts) := [-q]`. -/
theorem named_group_backrefs_witness :
    AddressesIdentify Inputs.twoCmdsSharing.namedGroups
    ∧ (Inputs.twoCmdsSharing.synopsis []).1 = "prog [a (opts)|b (opts)]"
    ∧ (Inputs.twoCmdsSharing.synopsis []).2 = [(7, "(opts) := [-q]")]
    ∧ (∀ (k : Nat) (v : String), (k, v) ∈ (Inputs.twoCmdsSharing.synopsis []).2
        ↔ ∃ g ∈ Inputs.twoCmdsSharing.namedGroups, k = g.addr ∧ v = g.synopsisEntry) :=
  have hwf : AddressesIdentify Inputs.twoCmdsSharing.namedGroups := by
    intro g1 h1 g2 h2 _
    rw [twoCmdsSharing_namedGroups] at h1 h2
    simp only [List.mem_cons, List.mem_singleton, or_self, List.not_mem_nil, or_false] at h1 h2
    rw [h1, h2]
  ⟨hwf, by decide, by decide, (named_group_backrefs _ _ hwf).2.1⟩

/-! ## The option required of a group -/

theorem parseAux_consumed_set (fuel : Nat) (p : Parser) (argv : List String) (k : Nat)
    (h : catchUnrecognized (parseAux fuel p argv).2 = .returned (k + 1)) :
    (parseAux fuel p argv).1.cmd.isSet = true := by
  rcases hp : parseAux fuel p argv with ⟨p', o⟩
  rw [hp] at h
  cases o with
  | returned n =>
    cases fuel with
    | zero => simp [parseAux] at hp
    | succ fuel =>
      rcases p with ⟨cmd, gs⟩
      rcases hm : cmd.match_ argv with ⟨cmd', o⟩
      cases o with
      | returned j =>
        cases j with
        | zero => simp [parseAux, hm] at hp
        | succ j =>
          rcases hl : parseFrom (parseAux fuel) argv (argv.length + 1) (j + 1) gs with ⟨gs', o'⟩
          simp only [parseAux, hm, hl, Prod.mk.injEq] at hp
          rw [← hp.1]
          exact anyArg_match_set cmd cmd' argv j hm
      | thrown e => simp [parseAux, hm] at hp
      | noFuel => simp [parseAux, hm] at hp
  | thrown e =>
    cases e <;> simp [catchUnrecognized] at h
    subst h
    obtain ⟨_, cmd', _, _, gs', _, _, hset, _, _, _, hb'⟩ :=
      parseAux_unrecognized_inv fuel p p' argv k hp
    rw [hb']
    exact hset
  | noFuel => simp [catchUnrecognized] at h

theorem dispatchParsers_returned (fuel : Nat) (slice : List String) :
    ∀ (ps : List Parser) (i : Nat) (os : Option Nat) (ps' : List Parser) (os' : Option Nat)
      (n : Nat),
      dispatchParsers (parseAux fuel) slice i os ps = (ps', os', .returned n) →
      (n = 0 ∧ ps' = ps ∧ os' = os)
      ∨ ∃ (pre : List Parser) (b b' : Parser) (post : List Parser) (k : Nat),
          ps = pre ++ b :: post ∧ ps' = pre ++ b' :: post ∧ n = k + 1
          ∧ b'.cmd.isSet = true ∧ b'.cmd.required = b.cmd.required
          ∧ ((b.cmd.required = true ∧ os' = os)
            ∨ (b.cmd.required = false ∧ os = none ∧ os' = some (i + pre.length))) := by
  intro ps
  induction ps with
  | nil =>
    intro i os ps' os' n h
    simp [dispatchParsers] at h
    exact Or.inl ⟨h.2.2.symm, h.1, h.2.1.symm⟩
  | cons p ps ih =>
    intro i os ps' os' n h
    have hreq := parseAux_cmd_required fuel p slice
    rcases hp : parseAux fuel p slice with ⟨p', o⟩
    rw [hp] at hreq
    simp only at hreq
    cases hc : catchUnrecognized o with
    | returned k =>
      cases k with
      | zero =>
        have hun : (parseAux fuel p slice).1 = p :=
          parseAux_zero_unchanged fuel p slice (by rw [hp]; exact hc)
        rw [hp] at hun
        simp only at hun
        subst hun
        rcases hr : dispatchParsers (parseAux fuel) slice (i + 1) os ps with ⟨ps1, os1, o1⟩
        simp only [dispatchParsers, hp, hc, hr, Prod.mk.injEq] at h
        obtain ⟨h1, h2, h3⟩ := h
        subst h1 h2 h3
        rcases ih (i + 1) os ps1 os1 n hr with ⟨h0, hps, hos⟩ | ⟨pre, b, b', post, k, e1, e2, e3, e4, e5, e6⟩
        · exact Or.inl ⟨h0, by rw [hps], hos⟩
        · refine Or.inr ⟨p' :: pre, b, b', post, k, by rw [e1]; rfl, by rw [e2]; rfl, e3, e4, e5, ?_⟩
          rcases e6 with e6 | ⟨e6, e7, e8⟩
          · exact Or.inl e6
          · refine Or.inr ⟨e6, e7, ?_⟩
            rw [e8]
            simp only [List.length_cons]
            congr 1
            omega
      | succ k =>
        have hset : p'.cmd.isSet = true := by
          have := parseAux_consumed_set fuel p slice k (by rw [hp]; exact hc)
          rw [hp] at this
          exact this
        simp only [dispatchParsers, hp, hc] at h
        by_cases hr : p'.cmd.required = true
        · simp only [hr, Bool.not_true, Bool.false_eq_true, if_false, Prod.mk.injEq] at h
          obtain ⟨h1, h2, h3⟩ := h
          cases h3
          exact Or.inr ⟨[], p, p', ps, k, rfl, h1.symm, rfl, hset, hreq, Or.inl ⟨by rw [← hreq]; exact hr, h2.symm⟩⟩
        · have hr' : p'.cmd.required = false := by simpa using hr
          cases hos : os with
          | none =>
            simp only [hr', hos, Bool.not_false, if_true, Option.isSome_none, Bool.false_eq_true,
              if_false, Prod.mk.injEq] at h
            obtain ⟨h1, h2, h3⟩ := h
            cases h3
            exact Or.inr ⟨[], p, p', ps, k, rfl, h1.symm, rfl, hset, hreq,
              Or.inr ⟨by rw [← hreq]; exact hr', rfl, by simpa using h2.symm⟩⟩
          | some a => simp [hr', hos] at h
    | thrown e => simp [dispatchParsers, hp, hc] at h
    | noFuel => simp [dispatchParsers, hp, hc] at h


theorem optionConsistent_congr (g1 g2 : ArgGroup) (hp : g1.m_parsers = g2.m_parsers)
    (ho : g1.m_optionSet = g2.m_optionSet) (h : OptionConsistent g2) : OptionConsistent g1 := by
  unfold OptionConsistent at h ⊢
  rw [hp, ho]
  exact h

theorem optionConsistent_consumed (g g1 : ArgGroup) (pre post : List Parser) (b b' : Parser)
    (h : OptionConsistent g) (hps : g.m_parsers = pre ++ b :: post)
    (hps1 : g1.m_parsers = pre ++ b' :: post)
    (hset : b'.cmd.isSet = true) (hreq : b'.cmd.required = b.cmd.required)
    (hos : (b.cmd.required = true ∧ g1.m_optionSet = g.m_optionSet)
      ∨ (b.cmd.required = false ∧ g.m_optionSet = none ∧ g1.m_optionSet = some pre.length)) :
    OptionConsistent g1 := by
  obtain ⟨h1, h2⟩ := h
  rcases hos with ⟨hr, ho⟩ | ⟨hr, hn, ho⟩
  · constructor
    · intro i hi
      rw [ho] at hi
      obtain ⟨p, hp, hpr, hpset⟩ := h1 i hi
      rw [hps] at hp
      rw [hps1]
      by_cases hlt : i < pre.length
      · rw [List.get?_eq_getElem?, List.getElem?_append_left hlt] at hp ⊢
        exact ⟨p, hp, hpr, hpset⟩
      · by_cases heq : i = pre.length
        · subst heq
          rw [List.get?_eq_getElem?, List.getElem?_append_right (Nat.le_refl _)] at hp
          simp at hp
          subst hp
          rw [hr] at hpr
          exact absurd hpr (by decide)
        · have hge : pre.length ≤ i := by omega
          rw [List.get?_eq_getElem?, List.getElem?_append_right hge] at hp ⊢
          have hpos : i - pre.length = (i - pre.length - 1) + 1 := by omega
          rw [hpos] at hp ⊢
          simp only [List.getElem?_cons_succ] at hp ⊢
          exact ⟨p, hp, hpr, hpset⟩
    · intro hnone p hp hpr
      rw [ho] at hnone
      rw [hps1] at hp
      have h2' := h2 hnone
      rw [hps] at h2'
      rcases List.mem_append.1 hp with hp | hp
      · exact h2' p (List.mem_append.2 (Or.inl hp)) hpr
      · rcases List.mem_cons.1 hp with rfl | hp
        · rw [hreq, hr] at hpr
          exact absurd hpr (by decide)
        · exact h2' p (List.mem_append.2 (Or.inr (List.mem_cons_of_mem _ hp))) hpr
  · constructor
    · intro i hi
      rw [ho] at hi
      cases hi
      rw [hps1, List.get?_eq_getElem?, List.getElem?_append_right (Nat.le_refl _)]
      exact ⟨b', by simp, by rw [hreq]; exact hr, hset⟩
    · intro hnone
      rw [ho] at hnone
      cases hnone

theorem dispatchGlueValue_cmds (argv : List String) (g : ArgGroup) :
    (dispatchGlueValue argv g).1.m_parsers = g.m_parsers
    ∧ (dispatchGlueValue argv g).1.m_optionSet = g.m_optionSet := by
  unfold dispatchGlueValue
  by_cases hg : g.gluedKeyArgs (argv.headD "") = true
  · rw [if_pos hg]
    exact ⟨rfl, rfl⟩
  · by_cases hc : charAt (argv.headD "") 0 = GLUE_CHAR
    · rw [if_neg hg, if_neg (not_not.2 hc)]
      exact ⟨rfl, rfl⟩
    · rw [if_neg hg, if_pos hc]
      exact ⟨rfl, rfl⟩

theorem dispatchAttrs_cmds (argv : List String) (g : ArgGroup) :
    (dispatchAttrs argv g).1.m_parsers = g.m_parsers
    ∧ (dispatchAttrs argv g).1.m_optionSet = g.m_optionSet := by
  unfold dispatchAttrs
  rcases h1 : matchFirst KeyValueArg.match_ argv g.m_keyValueAttrs with ⟨kvs, o1⟩
  cases o1 with
  | returned a =>
    cases a with
    | zero =>
      rcases h2 : matchFirst KeyArg.match_ argv g.m_keyAttrs with ⟨ks, o2⟩
      cases o2 with
      | returned b =>
        cases b with
        | zero =>
          simp only
          exact dispatchGlueValue_cmds argv _
        | succ b => exact ⟨rfl, rfl⟩
      | thrown e => exact ⟨rfl, rfl⟩
      | noFuel => exact ⟨rfl, rfl⟩
    | succ a => exact ⟨rfl, rfl⟩
  | thrown e => exact ⟨rfl, rfl⟩
  | noFuel => exact ⟨rfl, rfl⟩

theorem dispatchGroup_consistent (fuel : Nat) (slice : List String) (g g1 : ArgGroup) (n : Nat)
    (h : dispatchGroup (parseAux fuel) slice g = (g1, .returned n)) (hc : OptionConsistent g) :
    OptionConsistent g1 := by
  unfold dispatchGroup at h
  rcases hd : dispatchParsers (parseAux fuel) slice 0 g.m_optionSet g.m_parsers with ⟨ps', os', o⟩
  rw [hd] at h
  cases o with
  | returned a =>
    rcases dispatchParsers_returned fuel slice _ _ _ _ _ _ hd with
      ⟨h0, hps, hos⟩ | ⟨pre, b, b', post, k, e1, e2, e3, e4, e5, e6⟩
    · subst h0 hps hos
      simp only at h
      have hcm := dispatchAttrs_cmds slice
        { g with m_parsers := g.m_parsers, m_optionSet := g.m_optionSet }
      rw [h] at hcm
      exact optionConsistent_congr g1 g hcm.1 hcm.2 hc
    · subst e3
      simp only [Prod.mk.injEq] at h
      have hg1 := h.1
      subst hg1
      refine optionConsistent_consumed g _ pre post b b' hc e1 e2 e4 e5 ?_
      rcases e6 with ⟨hr, ho⟩ | ⟨hr, hn, ho⟩
      · exact Or.inl ⟨hr, ho⟩
      · exact Or.inr ⟨hr, hn, by simpa using ho⟩
  | thrown e => simp at h
  | noFuel => simp at h

theorem matchFirst_inv {α : Type} (m : α → List String → α × Outcome) (argv : List String)
    (P : α → Prop) (hm : ∀ x x' n, m x argv = (x', .returned n) → P x → P x') :
    ∀ (xs xs' : List α) (n : Nat), matchFirst m argv xs = (xs', .returned n) →
      (∀ x ∈ xs, P x) → ∀ x' ∈ xs', P x' := by
  intro xs
  induction xs with
  | nil =>
    intro xs' n h _ x' hx'
    simp [matchFirst] at h
    rw [h.1] at hx'
    simp at hx'
  | cons x xs ih =>
    intro xs' n h hP x' hx'
    rcases hx : m x argv with ⟨x1, o⟩
    cases o with
    | returned k =>
      have hx1 : P x1 := hm x x1 k hx (hP x (List.mem_cons_self _ _))
      cases k with
      | zero =>
        rcases hr : matchFirst m argv xs with ⟨xs1, o1⟩
        simp only [matchFirst, hx, hr, Prod.mk.injEq] at h
        obtain ⟨h1, h2⟩ := h
        subst h1 h2
        rcases List.mem_cons.1 hx' with rfl | hx'
        · exact hx1
        · exact ih xs1 n hr (fun y hy => hP y (List.mem_cons_of_mem _ hy)) x' hx'
      | succ k =>
        simp only [matchFirst, hx, Prod.mk.injEq] at h
        rw [← h.1] at hx'
        rcases List.mem_cons.1 hx' with rfl | hx'
        · exact hx1
        · exact hP x' (List.mem_cons_of_mem _ hx')
    | thrown e => simp [matchFirst, hx] at h
    | noFuel => simp [matchFirst, hx] at h

theorem loopReaches_consistent (fuel : Nat) (argv : List String) (k m : Nat)
    (gs gsm : List ArgGroup) (h : LoopReaches (parseAux fuel) argv k gs m gsm)
    (hc : ∀ g ∈ gs, OptionConsistent g) : ∀ g ∈ gsm, OptionConsistent g := by
  induction h with
  | here n gs => exact hc
  | step n gs adv gs1 m gsm _ hd _ ih =>
    apply ih
    exact matchFirst_inv (fun g av => dispatchGroup (parseAux fuel) av g) (argv.drop n)
      OptionConsistent (fun x x' j hx hP => dispatchGroup_consistent fuel _ x x' j hx hP)
      gs gs1 (adv + 1) hd hc

theorem parseFrom_of_loopReaches (sub : Parser → List String → Parser × Outcome)
    (argv : List String) (k m : Nat) (gs gsm : List ArgGroup)
    (h : LoopReaches sub argv k gs m gsm) (hend : argv.length ≤ m) :
    ∀ steps, argv.length - k < steps → parseFrom sub argv steps k gs = validate m gsm := by
  induction h with
  | here n gs =>
    intro steps hs
    cases steps with
    | zero => omega
    | succ s => exact parseFrom_exit sub argv s n gs hend
  | step n gs adv gs1 m gsm hlt hd _ ih =>
    intro steps hs
    cases steps with
    | zero => omega
    | succ s =>
      have := ih hend s (by omega)
      simp only [parseFrom, hlt, hd, if_true]
      exact this


theorem parseAux_of_loopReaches (fuel : Nat) (argv : List String) (cmd cmd' : AnyArg)
    (gs gsm : List ArgGroup) (j m : Nat)
    (hm : cmd.match_ argv = (cmd', .returned (j + 1)))
    (hr : LoopReaches (parseAux fuel) argv (j + 1) gs m gsm) (hend : argv.length ≤ m) :
    parseAux (fuel + 1) (.mk cmd gs) argv = (.mk cmd' (validate m gsm).1, (validate m gsm).2) := by
  have h := parseFrom_of_loopReaches (parseAux fuel) argv (j + 1) m gs gsm hr hend
    (argv.length + 1) (by omega)
  simp only [parseAux, hm, h]

/-- C5.  Once all tokens are consumed (`argc ≤ argNum`): if some group of the
command has `optionRequired` and no option recorded, the parse throws
`MissingArgException`; if every group with `optionRequired` has an option
recorded and the required arguments of every group are set, the parse returns
`argNum` and leaves the groups as they are.  A parse that returns normally
leaves an option recorded in every group with `optionRequired`.

An option is recorded by the loop over the sub-commands exactly when an
optional sub-command consumes: with none recorded, the first sub-command that
consumes, when optional, becomes the recorded option; when no sub-command
consumes none is recorded; and a required sub-command that consumes leaves the
recorded option as it is.  So, from groups as declared (`OptionConsistent`),
every state that the loop reaches has an option recorded in a group exactly
when an optional sub-command of that group has been matched (its discriminator
is set).

Hence, for a command whose discriminator matches and whose loop consumes all
tokens: when a group with `optionRequired` has no optional sub-command matched,
`Parser::parse` throws `MissingArgException`; when every group with
`optionRequired` has an optional sub-command matched and the required
arguments of every group are set, `Parser::parse` returns the index reached. -/
theorem optionRequired_enforced (fuel : Nat) (argv : List String) (steps argNum : Nat)
    (gs : List ArgGroup) (hlen : argv.length ≤ argNum) :
    ((∃ g ∈ gs, g.m_optionRequired = true ∧ g.m_optionSet = none) →
      parseFrom (parseAux fuel) argv (steps + 1) argNum gs = (gs, .thrown .missingArg))
    ∧ ((∀ g ∈ gs, (g.m_optionRequired = true → ∃ i, g.m_optionSet = some i)
          ∧ allRequiredSet g = true) →
      parseFrom (parseAux fuel) argv (steps + 1) argNum gs = (gs, .returned argNum))
    ∧ (∀ p p' n, parseAux fuel p argv = (p', .returned n) →
        ∀ g ∈ p'.argGroups, g.m_optionRequired = true → ∃ i, g.m_optionSet = some i)
    ∧ (∀ (slice : List String) (ps qs : List Parser) (b : Parser) (n : Nat),
        (∀ c ∈ ps, catchUnrecognized (parseAux fuel c slice).2 = .returned 0) →
        catchUnrecognized (parseAux fuel b slice).2 = .returned (n + 1) →
        b.cmd.required = false →
        dispatchParsers (parseAux fuel) slice 0 none (ps ++ b :: qs)
          = (ps ++ (parseAux fuel b slice).1 :: qs, some ps.length, .returned (n + 1)))
    ∧ (∀ (slice : List String) (ps : List Parser),
        (∀ c ∈ ps, catchUnrecognized (parseAux fuel c slice).2 = .returned 0) →
        dispatchParsers (parseAux fuel) slice 0 none ps = (ps, none, .returned 0))
    ∧ (∀ (slice : List String) (ps qs : List Parser) (b : Parser) (n : Nat)
        (optionSet : Option Nat),
        (∀ c ∈ ps, catchUnrecognized (parseAux fuel c slice).2 = .returned 0) →
        catchUnrecognized (parseAux fuel b slice).2 = .returned (n + 1) →
        b.cmd.required = true →
        dispatchParsers (parseAux fuel) slice 0 optionSet (ps ++ b :: qs)
          = (ps ++ (parseAux fuel b slice).1 :: qs, optionSet, .returned (n + 1)))
    ∧ (∀ (k m : Nat) (gs0 gsm : List ArgGroup), (∀ g ∈ gs0, OptionConsistent g) →
        LoopReaches (parseAux fuel) argv k gs0 m gsm → ∀ g ∈ gsm, OptionConsistent g)
    ∧ (∀ (cmd cmd' : AnyArg) (gs0 gsm : List ArgGroup) (j m : Nat),
        (∀ g ∈ gs0, OptionConsistent g) →
        cmd.match_ argv = (cmd', .returned (j + 1)) →
        LoopReaches (parseAux fuel) argv (j + 1) gs0 m gsm → argv.length ≤ m →
        (∃ g ∈ gsm, g.m_optionRequired = true
          ∧ ∀ p ∈ g.m_parsers, p.cmd.required = false → p.cmd.isSet = false) →
        parseAux (fuel + 1) (.mk cmd gs0) argv = (.mk cmd' gsm, .thrown .missingArg))
    ∧ (∀ (cmd cmd' : AnyArg) (gs0 gsm : List ArgGroup) (j m : Nat),
        (∀ g ∈ gs0, OptionConsistent g) →
        cmd.match_ argv = (cmd', .returned (j + 1)) →
        LoopReaches (parseAux fuel) argv (j + 1) gs0 m gsm → argv.length ≤ m →
        (∀ g ∈ gsm, (g.m_optionRequired = true →
            ∃ p ∈ g.m_parsers, p.cmd.required = false ∧ p.cmd.isSet = true)
          ∧ allRequiredSet g = true) →
        parseAux (fuel + 1) (.mk cmd gs0) argv = (.mk cmd' gsm, .returned m)) := by
  refine ⟨?_, ?_, ?_, ?_, ?_, ?_, ?_, ?_, ?_⟩
  · intro ⟨g, hg, hreq, hnone⟩
    rw [parseFrom_exit _ _ _ _ _ hlen]
    have hnot : ¬ gs.all validGroup = true := by
      intro hall
      rw [List.all_eq_true] at hall
      have := ((validGroup_iff g).1 (hall g hg)).1 hreq
      simp [hnone] at this
    simp [validate, hnot]
  · intro hgs
    rw [parseFrom_exit _ _ _ _ _ hlen]
    have hall : gs.all validGroup = true := by
      rw [List.all_eq_true]
      intro g hg
      refine (validGroup_iff g).2 ⟨fun hreq => ?_, (hgs g hg).2⟩
      obtain ⟨i, hi⟩ := (hgs g hg).1 hreq
      simp [hi]
    simp [validate, hall]
  · intro p p' n h g hg hreq
    have hall := parseAux_returned fuel p p' argv n h
    rw [List.all_eq_true] at hall
    have := ((validGroup_iff g).1 (hall g hg)).1 hreq
    exact Option.isSome_iff_exists.1 this
  · intro slice ps qs b n hzero hcons hopt
    have hb' : (parseAux fuel b slice).1.cmd.required = false := by
      rw [parseAux_cmd_required]; exact hopt
    have hmap : (ps.map fun c => (parseAux fuel c slice).1) = ps := by
      conv_rhs => rw [← List.map_id ps]
      exact List.map_congr_left fun c hc => parseAux_zero_unchanged fuel c slice (hzero c hc)
    rw [dispatchParsers_append_zero _ _ _ _ _ _ hzero,
      dispatchParsers_records _ _ _ b _ _ n qs rfl hcons hb', hmap]
    simp
  · intro slice ps hzero
    exact dispatchParsers_none_consumes fuel slice none ps 0 hzero
  · intro slice ps qs b n optionSet hzero hcons hreq
    have hb' : (parseAux fuel b slice).1.cmd.required = true := by
      rw [parseAux_cmd_required]; exact hreq
    rw [dispatchParsers_append_zero _ _ _ _ _ _ hzero, map_parse_unchanged fuel slice ps hzero]
    rcases hb : parseAux fuel b slice with ⟨b', o⟩
    rw [hb] at hcons hb'
    simp only at hcons hb'
    simp [dispatchParsers, hb, hcons, hb']
  · intro k m gs0 gsm hc hr
    exact loopReaches_consistent fuel argv k m gs0 gsm hr hc
  · intro cmd cmd' gs0 gsm j m hc hm hr hend ⟨g, hg, hreq, hnone⟩
    have hcm := loopReaches_consistent fuel argv _ m gs0 gsm hr hc g hg
    have hos : g.m_optionSet = none := by
      cases hos : g.m_optionSet with
      | none => rfl
      | some i =>
        obtain ⟨p, hp, hpr, hps⟩ := hcm.1 i hos
        have := hnone p (List.get?_mem hp) hpr
        rw [this] at hps
        exact absurd hps (by decide)
    have hnot : ¬ gsm.all validGroup = true := by
      intro hall
      rw [List.all_eq_true] at hall
      have := ((validGroup_iff g).1 (hall g hg)).1 hreq
      simp [hos] at this
    rw [parseAux_of_loopReaches fuel argv cmd cmd' gs0 gsm j m hm hr hend]
    simp [validate, hnot]
  · intro cmd cmd' gs0 gsm j m hc hm hr hend hgs
    have hall : gsm.all validGroup = true := by
      rw [List.all_eq_true]
      intro g hg
      have hcm := loopReaches_consistent fuel argv _ m gs0 gsm hr hc g hg
      refine (validGroup_iff g).2 ⟨fun hreq => ?_, (hgs g hg).2⟩
      obtain ⟨p, hp, hpr, hps⟩ := (hgs g hg).1 hreq
      cases hos : g.m_optionSet with
      | none =>
        have := hcm.2 hos p hp hpr
        rw [this] at hps
        exact absurd hps (by decide)
      | some i => simp
    rw [parseAux_of_loopReaches fuel argv cmd cmd' gs0 gsm j m hm hr hend]
    simp [validate, hall]


/-- C5, on the declaration of `example.cpp`.  After the lone token `prog` the
root group has `optionRequired` and no option recorded, so the parse throws
`MissingArgException`.  On the tokens `prog -v` the loop consumes `-v`, no
optional sub-command is matched, and `Parser::parse` throws
`MissingArgException`. -/
theorem optionRequired_enforced_witness :
    parseFrom (parseAux 1) ["prog"] 2 1 [Example.rootGroup]
      = ([Example.rootGroup], .thrown .missingArg)
    ∧ (∀ g ∈ [Example.rootGroup], OptionConsistent g)
    ∧ (Parser.parse (Example.parser "prog") ["prog", "-v"]).2 = .thrown .missingArg :=
  have hnone : ∀ p ∈ Example.rootGroup.m_parsers, p.cmd.required = false →
      p.cmd.isSet = false := by
    intro p hp _
    simp only [Example.rootGroup, Example.subCmds, List.mem_cons, List.mem_singleton,
      List.not_mem_nil, or_false] at hp
    rcases hp with rfl | rfl | rfl | rfl | rfl <;> rfl
  have hinv : ∀ g ∈ [Example.rootGroup], OptionConsistent g := by
    intro g hg
    rw [List.mem_singleton.1 hg]
    exact ⟨fun i hi => by simp [Example.rootGroup] at hi, fun _ => hnone⟩
  ⟨(optionRequired_enforced 1 ["prog"] 1 1 [Example.rootGroup] (by decide)).1
      ⟨Example.rootGroup, by simp, rfl, rfl⟩,
    hinv,
    congrArg Prod.snd
      ((optionRequired_enforced 2 ["prog", "-v"] 0 2 [] (by decide)).2.2.2.2.2.2.2.1
        (.key (Example.programArg "prog")) (.key { Example.programArg "prog" with m_set := true })
        [Example.rootGroup]
        [{ Example.rootGroup with m_keyAttrs := [{ Example.verboseArg with m_set := true }] }]
        0 2 hinv rfl
        (LoopReaches.step 1 _ 0 _ 2 _ (by decide) rfl (LoopReaches.here 2 _)) (by decide)
        ⟨_, List.mem_singleton.2 rfl, rfl, hnone⟩)⟩

end crap
